import Mathlib

/-!
Verification of the ElectrumSV transaction codec and signing engine
(`electrumsv/transaction.py`) against its natural-language specification.

Modelling conventions, used throughout this development:

* A Python `bytes`/`bytearray` value is modelled as `List Nat`, each entry a
  byte value.  The Python code frequently carries *hex strings* (produced by
  `bh2u`/consumed by `bfh`); every such hex string is the hex rendering of a
  byte sequence and is modelled here directly as that byte sequence, with
  hex-string lengths `len(s)//2` becoming byte-list lengths.  Lowercase hex
  strings compare lexicographically exactly as their byte sequences do, so
  string sorting is modelled as lexicographic byte-list sorting.
* Python exceptions are modelled by the `PyErr` type; a function that can
  raise returns `Except PyErr α`.
* Functions from modules of this repository that are not part of the supplied
  sources (`electrumsv.bitcoin`, `electrumsv.crypto`, `electrumsv.keystore`)
  and functions from the external `bitcoinx` library are modelled either
  concretely from the specification's wire-format description or as
  parameters of an `Ext` record (cryptographic digests, extended-public-key
  resolution, ECDSA recovery); each such definition carries a comment saying
  what it stands for.
-/

set_option synthInstance.maxSize 1024
set_option maxRecDepth 10000

namespace ElectrumSV

/-- Byte sequences: each entry is one byte value. -/
abbrev Bytes := List Nat

/-- Python exceptions raised by the transaction module, by class. -/
inductive PyErr where
  /-- `SerializationError`, raised on decode/encode problems. -/
  | serializationError
  /-- `InputValueMissing`, raised when an input's value is needed but absent. -/
  | inputValueMissing
  /-- `KeyError`, raised by a failing dictionary lookup such as `txin['value']`. -/
  | keyError
  /-- `TypeError`, e.g. unpacking `None` into a tuple. -/
  | typeError
  /-- `IndexError`, raised by an out-of-range list index (not by slicing). -/
  | indexError
  /-- `ValueError`, e.g. `PublicKey.from_hex` on a non-hex string. -/
  | valueError
  /-- `RuntimeError`, raised by `update_signatures` on a count mismatch. -/
  | runtimeError
  /-- `AssertionError`, raised by a failing `assert`. -/
  | assertionError
  /-- any other exception propagating from a library call. -/
  | otherError
deriving DecidableEq, Repr

/-- Results of fallible functions compare decidably, so concrete runs can be
evaluated inside proofs. -/
instance {ε α : Type} [DecidableEq ε] [DecidableEq α] :
    DecidableEq (Except ε α)
  | .ok a, .ok b => decidable_of_iff (a = b) (by simp)
  | .error e1, .error e2 => decidable_of_iff (e1 = e2) (by simp)
  | .error _, .ok _ => isFalse (by simp)
  | .ok _, .error _ => isFalse (by simp)

/-- Little-endian encoding of `n mod 2^(8*width)` in exactly `width` bytes:
the byte layout produced by `struct.pack` with formats `<H`, `<I`, `<Q`. -/
def leBytes (n : Nat) (width : Nat) : Bytes :=
  match width with
  | 0 => []
  | w + 1 => n % 256 :: leBytes (n / 256) w

/-- Little-endian decoding of a byte list, as read by `struct.unpack`. -/
def leNum (bs : Bytes) : Nat :=
  match bs with
  | [] => 0
  | b :: rest => b % 256 + 256 * leNum rest

/-- Python slice `bs[a:b]` for `0 ≤ a ≤ b`: clamps silently, never raises. -/
def pyslice (bs : Bytes) (a b : Nat) : Bytes :=
  (bs.take b).drop a

/-- `electrumsv.transaction._BCDataStream`: a growable byte buffer with a read
cursor.  The Python `input` field starts as `None`; all states considered here
are initialised (a buffer is present), which is the state after `write`. -/
structure BCDataStream where
  input : Bytes
  read_cursor : Nat
deriving DecidableEq, Repr

namespace BCDataStream

/-- `_BCDataStream.write`: appends bytes to the buffer. -/
def write (s : BCDataStream) (bs : Bytes) : BCDataStream :=
  ⟨s.input ++ bs, s.read_cursor⟩

/-- `_BCDataStream.read_bytes`: `result = self.input[read_cursor:read_cursor+length]`
then `read_cursor += length`.  Python slicing clamps and never raises
`IndexError`, so the `except IndexError` branch in the source is unreachable:
a read past the end of the buffer returns the (possibly truncated, possibly
empty) available bytes and still advances the cursor by the full `length`. -/
def read_bytes (s : BCDataStream) (length : Nat) : Bytes × BCDataStream :=
  (pyslice s.input s.read_cursor (s.read_cursor + length),
   ⟨s.input, s.read_cursor + length⟩)

/-- `_BCDataStream._read_num` for an unsigned little-endian format of
`width` bytes: `struct.unpack_from` raises unless `width` bytes remain, and
that exception is re-raised as `SerializationError`. -/
def read_num_unsigned (s : BCDataStream) (width : Nat) :
    Except PyErr (Nat × BCDataStream) :=
  if s.read_cursor + width ≤ s.input.length then
    .ok (leNum (pyslice s.input s.read_cursor (s.read_cursor + width)),
         ⟨s.input, s.read_cursor + width⟩)
  else
    .error .serializationError

/-- `read_uint16` -/
def read_uint16 (s : BCDataStream) : Except PyErr (Nat × BCDataStream) :=
  s.read_num_unsigned 2

/-- `read_uint32` -/
def read_uint32 (s : BCDataStream) : Except PyErr (Nat × BCDataStream) :=
  s.read_num_unsigned 4

/-- `read_uint64` -/
def read_uint64 (s : BCDataStream) : Except PyErr (Nat × BCDataStream) :=
  s.read_num_unsigned 8

/-- `read_int32`: like `read_uint32` but decoding two's complement into a
signed integer, as `struct.unpack('<i')` does. -/
def read_int32 (s : BCDataStream) : Except PyErr (Int × BCDataStream) :=
  match s.read_num_unsigned 4 with
  | .error e => .error e
  | .ok (n, s1) =>
    .ok (if n < 2 ^ 31 then (n : Int) else (n : Int) - 2 ^ 32, s1)

/-- `_BCDataStream.read_compact_size`: reads the marker byte (list indexing
does raise `IndexError` when the cursor is at or past the end, caught and
re-raised as `SerializationError`), then the 2-, 4- or 8-byte extension for
markers 253, 254, 255. -/
def read_compact_size (s : BCDataStream) : Except PyErr (Nat × BCDataStream) :=
  match s.input.get? s.read_cursor with
  | none => .error .serializationError
  | some size =>
    let s1 : BCDataStream := ⟨s.input, s.read_cursor + 1⟩
    if size = 253 then s1.read_num_unsigned 2
    else if size = 254 then s1.read_num_unsigned 4
    else if size = 255 then s1.read_num_unsigned 8
    else .ok (size, s1)

/-- `_BCDataStream.write_compact_size`: negative sizes raise
`SerializationError`; sizes at or above `2^64` match no branch of the
`if`/`elif` chain, so nothing is written and no error is raised. -/
def write_compact_size (s : BCDataStream) (size : Int) :
    Except PyErr BCDataStream :=
  if size < 0 then .error .serializationError
  else if size < 253 then .ok (s.write [size.toNat])
  else if size < 2 ^ 16 then .ok ((s.write [0xfd]).write (leBytes size.toNat 2))
  else if size < 2 ^ 32 then .ok ((s.write [0xfe]).write (leBytes size.toNat 4))
  else if size < 2 ^ 64 then .ok ((s.write [0xff]).write (leBytes size.toNat 8))
  else .ok s

end BCDataStream

/-- Modelled from the spec: `var_int` from `electrumsv.bitcoin` (not among the
supplied sources), the pure compact-size encoder used by `serialize`:
"values < 253 encode as a single byte; values in [253, 2^16) encode as marker
byte 253 followed by a little-endian 16-bit integer; [2^16, 2^32) as marker
254 + 32-bit; [2^32, 2^64) as marker 255 + 64-bit". -/
def varInt (n : Nat) : Bytes :=
  if n < 253 then [n]
  else if n < 2 ^ 16 then 0xfd :: leBytes n 2
  else if n < 2 ^ 32 then 0xfe :: leBytes n 4
  else 0xff :: leBytes n 8

/-! Script opcodes used by the module (`bitcoinx.Ops`). -/

def OP_0 : Nat := 0
def OP_PUSHDATA1 : Nat := 76
def OP_PUSHDATA2 : Nat := 77
def OP_PUSHDATA4 : Nat := 78
def OP_1 : Nat := 81
def OP_CHECKSIG : Nat := 172
def OP_CHECKMULTISIG : Nat := 174

/-- One decoded script token as yielded by `_script_GetOp`:
(opcode, pushed data when the opcode pushes data, end offset). -/
abbrev Tok := Nat × Option Bytes × Nat

/-- The body of the `_script_GetOp` loop, with an explicit structural fuel.
Every iteration advances the position by at least one byte, so
`bs.length - i` bounds the remaining iterations; `script_GetOp_fuel_congr`
shows any fuel at least that large gives the same tokens, and
`script_GetOp_eq` recovers the unfueled loop equation. -/
def script_GetOp_fuel : Nat → Bytes → Nat → List Tok
  | 0, _, _ => []
  | fuel + 1, bs, i =>
    if i < bs.length then
      let opcode := bs.getD i 0
      if opcode ≤ OP_PUSHDATA4 then
        if opcode = OP_PUSHDATA1 then
          let nSize := if i + 1 < bs.length then bs.getD (i + 1) 0 else 0
          (opcode, some (pyslice bs (i + 2) (i + 2 + nSize)), i + 2 + nSize) ::
            script_GetOp_fuel fuel bs (i + 2 + nSize)
        else if opcode = OP_PUSHDATA2 then
          let nSize := if i + 3 ≤ bs.length then leNum (pyslice bs (i + 1) (i + 3)) else 0
          (opcode, some (pyslice bs (i + 3) (i + 3 + nSize)), i + 3 + nSize) ::
            script_GetOp_fuel fuel bs (i + 3 + nSize)
        else if opcode = OP_PUSHDATA4 then
          let nSize := if i + 5 ≤ bs.length then leNum (pyslice bs (i + 1) (i + 5)) else 0
          (opcode, some (pyslice bs (i + 5) (i + 5 + nSize)), i + 5 + nSize) ::
            script_GetOp_fuel fuel bs (i + 5 + nSize)
        else
          (opcode, some (pyslice bs (i + 1) (i + 1 + opcode)), i + 1 + opcode) ::
            script_GetOp_fuel fuel bs (i + 1 + opcode)
      else
        (opcode, none, i + 1) :: script_GetOp_fuel fuel bs (i + 1)
    else []

/-- `_script_GetOp`: decode a script into tokens from position `i`.  Opcodes
at or below `OP_PUSHDATA4` push data; `OP_PUSHDATA1/2/4` carry an explicit
1-, 2- or 4-byte little-endian length, read only when enough bytes remain
("tolerate truncated script", length 0 otherwise); the data slice itself is
clamped by Python slicing and never raises. -/
def script_GetOp (bs : Bytes) (i : Nat) : List Tok :=
  script_GetOp_fuel (bs.length - i) bs i

/-- `_match_decoded`: template match where `OP_PUSHDATA4` in the template is
a wildcard for any data-pushing opcode (`0 < opcode ≤ OP_PUSHDATA4`). -/
def match_decoded (decoded : List Tok) (to_match : List Nat) : Bool :=
  decoded.length == to_match.length &&
  (List.zip decoded to_match).all fun p =>
    (p.2 == OP_PUSHDATA4 && decide (p.1.1 ≤ OP_PUSHDATA4) && decide (0 < p.1.1)) ||
      p.2 == p.1.1

/-- A public-key entry of an input's `pubkeys`/`x_pubkeys` lists: either a
byte string (modelling the hex string the Python code carries) or the
literal `"(pubkey)"` placeholder stored by the pay-to-pubkey parser. -/
inductive PK where
  | bytes (b : Bytes)
  | placeholder
deriving DecidableEq, Repr

/-- Address values stored in `txin['address']`. -/
inductive Addr where
  /-- a `UnknownAddress()` instance -/
  | unknownAddress
  /-- Python `None` -/
  | nullAddress
  /-- the P2PKH address returned by `xpubkey_to_address` -/
  | p2pkhAddress (hash : Bytes)
  /-- `P2SH_Address(hash_160(redeemScript))` -/
  | p2shAddress (hash : Bytes)
deriving DecidableEq, Repr

/-- The classified type of an input (`txin['type']`). -/
inductive InType where
  | coinbase
  | p2pk
  | p2pkh
  | p2sh
  | unknown
deriving DecidableEq, Repr

/-- Functions the transaction module calls whose code is outside the supplied
sources, passed as parameters.
`sha256d` and `hash160` (from `electrumsv.crypto`): modelled from the spec as
abstract digest functions ("double round of the cryptographic digest",
"hash-160 digest").
`xpubkey_to_pubkey` and `xpubkey_to_address` (from `electrumsv.keystore`):
modelled from the spec as a resolution map from extended-public-key encodings
to public keys/addresses that may fail (`none` models an exception).
`der_sig_to_compact` (bitcoinx `der_signature_to_compact`): converts a DER
signature to its 64-byte compact form, failing on malformed input.
`recover_pubkey` (bitcoinx `PublicKey.from_recoverable_signature` followed by
`to_hex`): recovers a compressed public key from a recoverable signature and
a message hash, failing for invalid recovery data.
`verify_sig` (bitcoinx `verify_recoverable_signature`): true when the
signature verifies. -/
structure Ext where
  sha256d : Bytes → Bytes
  hash160 : Bytes → Bytes
  xpubkey_to_pubkey : Bytes → Option Bytes
  xpubkey_to_address : Bytes → Option (Bytes × Addr)
  der_sig_to_compact : Bytes → Option Bytes
  recover_pubkey : Bytes → Bytes → Option Bytes
  verify_sig : Bytes → Bytes → Bytes → Bool

/-- A trivial instantiation of the external functions, used to evaluate
parse-side facts that do not depend on them. -/
def trivialExt : Ext :=
  ⟨fun _ => [], fun _ => [], fun b => some b,
   fun b => some (b, .nullAddress), fun _ => none, fun _ _ => none,
   fun _ _ _ => false⟩

/-- One transaction input: the dictionary built by `_parse_input`.  Dict keys
that a given input type leaves absent are modelled by fixed default values:
`pubkeys = none` models an absent `pubkeys` key (`get_sorted_pubkeys` then
recomputes it), `value = none` an absent `value` key, `scriptCode = none` an
absent caller-supplied script-code, `scriptSig = none` the `None` stored by
`add_signature_to_txin`; for coinbase inputs the unused signature fields take
the defaults `[]`/`0`.  A signature slot is `none` for Python `None`
(the parsed `'ff'` placeholder) and `some b` for a hex signature string. -/
structure TxIn where
  prevout_hash : Bytes
  prevout_n : Nat
  sequence : Nat
  scriptSig : Option Bytes
  type : InType
  x_pubkeys : List PK
  pubkeys : Option (List PK)
  signatures : List (Option Bytes)
  num_sig : Nat
  redeemScript : Bytes
  address : Addr
  value : Option Nat
  scriptCode : Option Bytes
deriving DecidableEq, Repr

/-- `bitcoinx.TxOutput`: an amount in satoshis and a locking script. -/
structure TxOut where
  value : Nat
  script_pubkey : Bytes
deriving DecidableEq, Repr

/-- The transaction model in its parsed state: inputs, outputs, version,
locktime (the lazily parsed/cached-raw lifecycle reconstructs these). -/
structure Transaction where
  version : Int
  locktime : Nat
  inputs : List TxIn
  outputs : List TxOut
deriving DecidableEq, Repr

/-- Modelled from the spec: `int_to_hex(i, length)` from `electrumsv.bitcoin`
(not among the supplied sources) — the fixed-width little-endian rendering of
an integer, two's complement for negative values. -/
def int_to_hex (i : Int) (length : Nat) : Bytes :=
  leBytes (i % (2 ^ (8 * length))).toNat length

/-- Modelled from the spec: the minimal data-push rendering used by
`push_script` (from `electrumsv.bitcoin`) and bitcoinx `push_item`: lengths
below `OP_PUSHDATA1` are encoded in the opcode itself; longer items use
`OP_PUSHDATA1/2/4` with an explicit little-endian length. -/
def push_item (b : Bytes) : Bytes :=
  if b.length < 76 then b.length :: b
  else if b.length < 256 then OP_PUSHDATA1 :: b.length :: b
  else if b.length < 65536 then OP_PUSHDATA2 :: (leBytes b.length 2 ++ b)
  else OP_PUSHDATA4 :: (leBytes b.length 4 ++ b)

/-- Modelled from bitcoinx `push_int` as used by `multisig_script`: for
`1 ≤ n ≤ 16` the single opcode `OP_1 + n - 1`; `0` is `OP_0`; larger counts
push their minimal little-endian encoding (high-bit padded). -/
def push_int (n : Nat) : Bytes :=
  if n = 0 then [OP_0]
  else if n ≤ 16 then [OP_1 + n - 1]
  else if n < 128 then push_item [n]
  else if n < 32768 then push_item (leBytes n 2)
  else push_item (leBytes n 3)

/-- Conversion of a stored public-key entry back to the byte string the
Python code would obtain with `bytes.fromhex`; the `"(pubkey)"` placeholder
is not hex and raises `ValueError`. -/
def pkBytes : PK → Except PyErr Bytes
  | .bytes b => .ok b
  | .placeholder => .error .valueError

/-- `multisig_script(public_keys, threshold)` (transaction.py): the m-of-n
script `push_int(m) ‖ push(pk)… ‖ push_int(n) ‖ OP_CHECKMULTISIG`; the
`assert 1 <= threshold <= len(public_keys)` raises on violation.  This same
byte layout also models `P2MultiSig_Output(pubkeys, m).to_script_bytes()`
from bitcoinx, used by `_parse_redeemScript` (that call raises on its own
validation failure rather than by `assert`; the error class does not matter
to any claim, only that an exception propagates). -/
def multisig_script (public_keys : List PK) (threshold : Nat) :
    Except PyErr Bytes := do
  if 1 ≤ threshold ∧ threshold ≤ public_keys.length then
    let pks ← public_keys.mapM pkBytes
    pure (push_int threshold ++ (pks.map push_item).flatten ++
      push_int public_keys.length ++ [OP_CHECKMULTISIG])
  else throw .assertionError

/-- Truthiness of a signature slot: Python `if sig` — `None` and the empty
string are falsy, any other string truthy. -/
def sigFilled : Option Bytes → Bool
  | none => false
  | some b => !b.isEmpty

/-- `Transaction.is_txin_complete`: the count of filled signature slots
equals `num_sig`.  (On a parsed coinbase input the Python code would raise a
`KeyError` for the absent `signatures` key; no caller reaches that case —
`serialize_input` short-circuits on the absent `value` key first.) -/
def is_txin_complete (txin : TxIn) : Bool :=
  (txin.signatures.filter sigFilled).length == txin.num_sig

/-- `_parse_sig`: map the `NO_SIGNATURE` placeholder `'ff'` to `None` and
keep every other string. -/
def parse_sig (x_sig : List Bytes) : List (Option Bytes) :=
  x_sig.map fun x => if x = [0xff] then none else some x

/-- `_safe_parse_pubkey`: `xpubkey_to_pubkey` with fallback to the raw
encoded string when resolution fails. -/
def safe_parse_pubkey (E : Ext) (x : Bytes) : PK :=
  .bytes ((E.xpubkey_to_pubkey x).getD x)

/-- `_parse_redeemScript`: tokenize the redeem script and match it against
the `op_m ‖ push×n ‖ op_n ‖ OP_CHECKMULTISIG` template.  Python computes
`m = dec2[0][0] - OP_1 + 1` and then `op_m = OP_1 + m - 1`, which is exactly
`dec2[0][0]` again (likewise `op_n`), so the template is phrased with the
opcodes directly.  A script of fewer than two tokens raises `IndexError`
(`dec2[0]`/`dec2[-2]`); a failed match returns `None` (after logging);
`n` may come out nonpositive in Python, making the template's push-wildcard
segment empty, which `.toNat` reproduces.  On success the redeem script is
recomputed as `P2MultiSig_Output(pubkeys, m).to_script_bytes()`. -/
def parse_redeemScript (E : Ext) (s : Bytes) :
    Except PyErr (Option (Nat × Nat × List Bytes × List PK × Bytes)) := do
  let dec2 := script_GetOp s 0
  match dec2 with
  | [] => throw .indexError
  | [_] => throw .indexError
  | t0 :: _ :: _ =>
    let mI : Int := (t0.1 : Int) - OP_1 + 1
    let opn := (dec2.getD (dec2.length - 2) (0, none, 0)).1
    let nI : Int := (opn : Int) - OP_1 + 1
    let match_multisig :=
      t0.1 :: (List.replicate nI.toNat OP_PUSHDATA4 ++ [opn, OP_CHECKMULTISIG])
    if match_decoded dec2 match_multisig then do
      let x_pubkeys ← ((dec2.drop 1).take (dec2.length - 3)).mapM (fun t =>
        match t.2.1 with
        | some v => pure v
        | none => throw PyErr.typeError)
      let pubkeys := x_pubkeys.map (safe_parse_pubkey E)
      let redeemScript ← multisig_script pubkeys mI.toNat
      pure (some (mI.toNat, nI.toNat, x_pubkeys, pubkeys, redeemScript))
    else
      pure none

/-- `_parse_scriptSig`: classify an input script and update the input dict.
The `try` around tokenization cannot fail here (the tokenizer is total).
The two-push branch returns the input unchanged when `xpubkey_to_address`
fails ("cannot find address in input script").  A script matching none of
the three templates leaves the input unchanged (type stays `unknown`).  In
the `OP_0 ‖ pushes` branch, a `None` result from `_parse_redeemScript` is
unpacked into a tuple, raising `TypeError`, and exceptions from
`_parse_redeemScript` itself propagate uncaught. -/
def parse_scriptSig (E : Ext) (d : TxIn) (bs : Bytes) : Except PyErr TxIn := do
  let decoded := script_GetOp bs 0
  if match_decoded decoded [OP_PUSHDATA4] then
    match decoded with
    | [(_, some item, _)] =>
      pure { d with
             type := .p2pk, signatures := [some item], num_sig := 1,
             x_pubkeys := [.placeholder], pubkeys := some [.placeholder] }
    | _ => throw .typeError
  else if match_decoded decoded [OP_PUSHDATA4, OP_PUSHDATA4] then
    match decoded with
    | [(_, some sig, _), (_, some x_pubkey, _)] =>
      match E.xpubkey_to_address x_pubkey with
      | none => pure d
      | some (pubkey, address) =>
        pure { d with
               type := .p2pkh, signatures := parse_sig [sig],
               x_pubkeys := [.bytes x_pubkey], num_sig := 1,
               pubkeys := some [.bytes pubkey], address := address }
    | _ => throw .typeError
  else if match_decoded decoded
      (OP_0 :: List.replicate (decoded.length - 1) OP_PUSHDATA4) then do
    let x_sig ← ((decoded.drop 1).take (decoded.length - 2)).mapM (fun t =>
      match t.2.1 with
      | some v => pure v
      | none => throw PyErr.typeError)
    let lastItem ← (match decoded.getLast? with
      | some (_, some v, _) => pure v
      | _ => throw PyErr.typeError)
    match ← parse_redeemScript E lastItem with
    | none => throw .typeError
    | some (m, _, x_pubkeys, pubkeys, redeemScript) =>
      pure { d with
             type := .p2sh, num_sig := m,
             signatures := parse_sig x_sig,
             x_pubkeys := x_pubkeys.map .bytes, pubkeys := some pubkeys,
             redeemScript := redeemScript,
             address := .p2shAddress (E.hash160 redeemScript) }
  else
    pure d

/-- `_parse_input`: read outpoint, script, sequence; detect coinbase by an
all-zero previous hash (`hash_to_hex_str` renders the 32 bytes reversed, and
the stored `prevout_hash` models that reversed form); classify a non-coinbase
script with `_parse_scriptSig`; read the trailing legacy 8-byte value when
the input is incomplete. -/
def parse_input (E : Ext) (vds : BCDataStream) :
    Except PyErr (TxIn × BCDataStream) := do
  let (ph, vds) := vds.read_bytes 32
  let prevout_hash := ph.reverse
  let (prevout_n, vds) ← vds.read_uint32
  let (sz, vds) ← vds.read_compact_size
  let (scriptSig, vds) := vds.read_bytes sz
  let (sequence, vds) ← vds.read_uint32
  if prevout_hash = List.replicate 32 0 then
    pure (⟨prevout_hash, prevout_n, sequence, some scriptSig, .coinbase,
           [], none, [], 0, [], .unknownAddress, none, none⟩, vds)
  else
    let d0 : TxIn := ⟨prevout_hash, prevout_n, sequence, some scriptSig,
      .unknown, [], some [], [], 0, [], .nullAddress, none, none⟩
    let d ← parse_scriptSig E d0 scriptSig
    if is_txin_complete d then
      pure (d, vds)
    else do
      let (v, vds) ← vds.read_uint64
      pure ({ d with value := some v }, vds)

/-- bitcoinx `read_varint` over a raw `read` function, modelled from the
spec's compact-size layout: the marker byte then the fixed-width extension;
`read(1)[0]` raises `IndexError` at end of buffer, fixed-width unpacking of
short data raises. -/
def bx_read_varint (vds : BCDataStream) : Except PyErr (Nat × BCDataStream) := do
  let (mb, vds) := vds.read_bytes 1
  match mb with
  | [] => throw .indexError
  | b :: _ =>
    if b < 0xfd then pure (b, vds)
    else
      let w := if b = 0xfd then 2 else if b = 0xfe then 4 else 8
      let (nb, vds) := vds.read_bytes w
      if nb.length = w then pure (leNum nb, vds) else throw .otherError

/-- bitcoinx `TxOutput.read`, modelled from the spec wire format:
value (8-byte little-endian) then a compact-size-prefixed script; unpacking
a short value errors, while the script read is the raw truncating
`read_bytes`. -/
def txOutput_read (vds : BCDataStream) : Except PyErr (TxOut × BCDataStream) := do
  let (vb, vds) := vds.read_bytes 8
  if vb.length = 8 then do
    let (n, vds) ← bx_read_varint vds
    let (script, vds) := vds.read_bytes n
    pure (⟨leNum vb, script⟩, vds)
  else throw .otherError

/-- Read `count` inputs in sequence. -/
def read_inputs (E : Ext) : Nat → BCDataStream →
    Except PyErr (List TxIn × BCDataStream)
  | 0, vds => pure ([], vds)
  | k + 1, vds => do
    let (txin, vds) ← parse_input E vds
    let (rest, vds) ← read_inputs E k vds
    pure (txin :: rest, vds)

/-- Read `count` outputs in sequence (body of bitcoinx `read_list`). -/
def read_outputs : Nat → BCDataStream →
    Except PyErr (List TxOut × BCDataStream)
  | 0, vds => pure ([], vds)
  | k + 1, vds => do
    let (o, vds) ← txOutput_read vds
    let (rest, vds) ← read_outputs k vds
    pure (o :: rest, vds)

/-- Module-level `deserialize(raw)`: version, nonzero input count (the
`assert n_vin != 0` raises on zero), inputs, outputs via
`read_list(vds.read_bytes, TxOutput.read)`, locktime. -/
def deserialize (E : Ext) (raw : Bytes) : Except PyErr Transaction := do
  let vds : BCDataStream := ⟨raw, 0⟩
  let (version, vds) ← vds.read_int32
  let (n_vin, vds) ← vds.read_compact_size
  if n_vin = 0 then throw .assertionError
  let (inputs, vds) ← read_inputs E n_vin vds
  let (n_vout, vds) ← bx_read_varint vds
  let (outputs, vds) ← read_outputs n_vout vds
  let (lockTime, _) ← vds.read_uint32
  pure ⟨version, lockTime, inputs, outputs⟩

/-- `Transaction.signature_count`: over non-coinbase inputs, the pair
(signatures present, signatures required). -/
def signature_count (tx : Transaction) : Nat × Nat :=
  tx.inputs.foldl
    (fun acc txin =>
      if txin.type = .coinbase then acc
      else (acc.1 + (txin.signatures.filter sigFilled).length,
            acc.2 + txin.num_sig))
    (0, 0)

/-- `Transaction.is_complete`: `s, r = signature_count(); return r == s`. -/
def is_complete (tx : Transaction) : Bool :=
  (signature_count tx).2 == (signature_count tx).1

/-- `Transaction.input_value`: `sum(x['value'] for x in inputs)`; the lookup
`x['value']` raises `KeyError` when an input has no value. -/
def input_value (tx : Transaction) : Except PyErr Nat :=
  tx.inputs.foldlM
    (fun acc txin =>
      match txin.value with
      | some v => pure (acc + v)
      | none => throw .keyError) 0

/-- `Transaction.output_value`: the sum of the output amounts. -/
def output_value (tx : Transaction) : Nat :=
  tx.outputs.foldl (fun acc o => acc + o.value) 0

/-- `Transaction.get_fee`: input value minus output value. -/
def get_fee (tx : Transaction) : Except PyErr Int := do
  let iv ← input_value tx
  pure ((iv : Int) - (output_value tx : Int))

/-- `Transaction.SIGHASH_FORKID` -/
def SIGHASH_FORKID : Nat := 0x40

/-- `Transaction.FORKID` -/
def FORKID : Nat := 0x000000

/-- `Transaction.nHashType()`: `0x01 | (SIGHASH_FORKID + (FORKID << 8))`. -/
def nHashType : Nat := 0x01 ||| (SIGHASH_FORKID + (FORKID <<< 8))

/-- Strict lexicographic order on byte strings; lowercase hex strings compare
exactly as the byte strings they render. -/
def bytesLt : Bytes → Bytes → Bool
  | [], [] => false
  | [], _ :: _ => true
  | _ :: _, [] => false
  | a :: as, b :: bs => a < b || (a == b && bytesLt as bs)

/-- Non-strict lexicographic order on (pubkey, x_pubkey) pairs, as Python
`sorted` on 2-tuples of strings compares. -/
def pairLe (p q : Bytes × Bytes) : Bool :=
  bytesLt p.1 q.1 || (p.1 == q.1 && (bytesLt p.2 q.2 || p.2 == q.2))

/-- `Transaction.get_sorted_pubkeys`: returns the cached `pubkeys` together
with `x_pubkeys` when present; otherwise resolves every extended public key
(`xpubkey_to_pubkey`, whose failure propagates), sorts the pairs by pubkey,
and caches both lists back into the input dict (the returned `TxIn` carries
that cache update, matching Python's in-place dict mutation). -/
def get_sorted_pubkeys (E : Ext) (txin : TxIn) :
    Except PyErr (List PK × List PK × TxIn) :=
  match txin.pubkeys with
  | some pks => .ok (pks, txin.x_pubkeys, txin)
  | none => do
    let pairs ← txin.x_pubkeys.mapM (fun x =>
      match x with
      | .bytes b =>
        match E.xpubkey_to_pubkey b with
        | some pk => pure (pk, b)
        | none => throw PyErr.otherError
      | .placeholder => throw PyErr.otherError)
    let sorted := List.mergeSort pairs pairLe
    let pubkeys := sorted.map (fun p => PK.bytes p.1)
    let x_pubkeys := sorted.map (fun p => PK.bytes p.2)
    pure (pubkeys, x_pubkeys,
      { txin with pubkeys := some pubkeys, x_pubkeys := x_pubkeys })

/-- `Transaction.estimate_pubkey_size_from_x_pubkey`: dispatch on the first
byte of the hex encoding; anything unrecognised (including the `"(pubkey)"`
placeholder and the empty string) falls to the compressed-size guess. -/
def estimate_pubkey_size_from_x_pubkey (x : PK) : Nat :=
  match x with
  | .bytes (b :: _) =>
    if b = 0x02 ∨ b = 0x03 then 0x21
    else if b = 0x04 then 0x41
    else if b = 0xff then 0x21
    else if b = 0xfe then 0x41
    else 0x21
  | _ => 0x21

/-- `Transaction.estimate_pubkey_size_for_txin`: prefer `pubkeys[0]`, fall
back to `x_pubkeys[0]`, else guess compressed. -/
def estimate_pubkey_size_for_txin (txin : TxIn) : Nat :=
  let pubkeys := txin.pubkeys.getD []
  if 0 < pubkeys.length then
    estimate_pubkey_size_from_x_pubkey (pubkeys.headD .placeholder)
  else if 0 < txin.x_pubkeys.length then
    estimate_pubkey_size_from_x_pubkey (txin.x_pubkeys.headD .placeholder)
  else 0x21

/-- `Transaction.get_siglist`: in estimate mode, zero-filled placeholder
public keys (one per `x_pubkey`) and `num_sig` placeholder signatures of
`0x48` bytes; otherwise actual public keys and the filled signatures when
the input is complete, and extended public keys with `'ff'` padding for the
unfilled slots when not.  Returns the possibly cache-updated input as well
(Python mutates the dict in place through `get_sorted_pubkeys`). -/
def get_siglist (E : Ext) (txin : TxIn) (estimate_size : Bool) :
    Except PyErr (List PK × List Bytes × TxIn) :=
  if estimate_size then
    let pubkey_size := estimate_pubkey_size_for_txin txin
    .ok (List.replicate txin.x_pubkeys.length (PK.bytes (List.replicate pubkey_size 0x00)),
         List.replicate txin.num_sig (List.replicate 0x48 0x00),
         txin)
  else do
    let (pubkeys, x_pubkeys, txin1) ← get_sorted_pubkeys E txin
    let x_signatures := txin1.signatures
    let signatures := (x_signatures.filter sigFilled).map (fun s => s.getD [])
    if signatures.length == txin1.num_sig then
      pure (pubkeys, signatures, txin1)
    else
      pure (x_pubkeys,
        x_signatures.map (fun s => if sigFilled s then s.getD [] else [0xff]),
        txin1)

/-- `Transaction.input_script`: coinbase and unknown inputs re-emit their raw
`scriptSig` (a `None` script, left by `add_signature_to_txin`, would raise in
the caller when measured — modelled as `TypeError`); p2pk emits the signature
push alone; p2sh prepends the `OP_0` placeholder byte and appends the pushed
redeem script rebuilt by `multisig_script`; p2pkh appends the first public
key's push. -/
def input_script (E : Ext) (txin : TxIn) (estimate_size : Bool) :
    Except PyErr Bytes := do
  if txin.type = .coinbase then
    match txin.scriptSig with
    | some s => pure s
    | none => throw .typeError
  else do
    let (pubkeys, sig_list, txin1) ← get_siglist E txin estimate_size
    let script := (sig_list.map push_item).flatten
    match txin.type with
    | .p2pk => pure script
    | .p2sh => do
      let redeem_script ← multisig_script pubkeys txin1.num_sig
      pure ((0x00 :: script) ++ push_item redeem_script)
    | .p2pkh =>
      match pubkeys with
      | pk :: _ => do
        let pkb ← pkBytes pk
        pure (script ++ push_item pkb)
      | [] => throw .indexError
    | .unknown =>
      match txin.scriptSig with
      | some s => pure s
      | none => throw .typeError
    | .coinbase => throw .otherError

/-- `Transaction.serialize_outpoint`: the previous hash restored to wire
order (`bfh(prevout_hash)[::-1]`) followed by the 4-byte index. -/
def serialize_outpoint (txin : TxIn) : Bytes :=
  txin.prevout_hash.reverse ++ int_to_hex txin.prevout_n 4

/-- `Transaction.serialize_input`: outpoint, compact-size script length,
script, sequence, and the trailing legacy 8-byte value exactly when the
input carries a value and is neither being estimated nor complete. -/
def serialize_input (txin : TxIn) (script : Bytes) (estimate_size : Bool) :
    Bytes :=
  serialize_outpoint txin ++ varInt script.length ++ script ++
  int_to_hex txin.sequence 4 ++
  (if txin.value.isSome ∧ ¬(estimate_size || is_txin_complete txin) then
    int_to_hex (txin.value.getD 0) 8
  else [])

/-- bitcoinx `TxOutput.to_bytes`, modelled from the spec wire format:
value (8-byte little-endian) then the compact-size-prefixed script. -/
def txOut_bytes (o : TxOut) : Bytes :=
  leBytes o.value 8 ++ varInt o.script_pubkey.length ++ o.script_pubkey

/-- `Transaction.serialize`: version, compact input count, each input
serialized with its rendered script, compact output count, outputs,
locktime. -/
def serialize (E : Ext) (tx : Transaction) (estimate_size : Bool) :
    Except PyErr Bytes := do
  let ins ← tx.inputs.mapM (fun txin => do
    let script ← input_script E txin estimate_size
    pure (serialize_input txin script estimate_size))
  pure (int_to_hex tx.version 4 ++
    (varInt tx.inputs.length ++ ins.flatten) ++
    (varInt tx.outputs.length ++ (tx.outputs.map txOut_bytes).flatten) ++
    int_to_hex tx.locktime 4)

/-- P2PKH/P2SH `Address.to_script_bytes()` from bitcoinx, modelled from the
standard locking-script forms; calling it on `None` or `UnknownAddress`
raises (`AttributeError`). -/
def addr_to_script_bytes : Addr → Except PyErr Bytes
  | .p2pkhAddress h => .ok ([0x76, 0xa9, 0x14] ++ h ++ [0x88, 0xac])
  | .p2shAddress h => .ok ([0xa9, 0x14] ++ h ++ [0x87])
  | _ => .error .otherError

/-- `Transaction.get_preimage_script`: the p2pkh locking script from the
stored address; the rebuilt multisig redeem script for p2sh; the p2pk output
script (`push(pubkey) ‖ OP_CHECKSIG`, where `PublicKey.from_hex` raises on
the `"(pubkey)"` placeholder the parser stores); the caller-supplied
`scriptCode` for unknown inputs (`KeyError` when absent); `RuntimeError` for
any other type. -/
def get_preimage_script (E : Ext) (txin : TxIn) : Except PyErr Bytes := do
  match txin.type with
  | .p2pkh => addr_to_script_bytes txin.address
  | .p2sh => do
    let (pubkeys, _, _) ← get_sorted_pubkeys E txin
    multisig_script pubkeys txin.num_sig
  | .p2pk =>
    match txin.pubkeys with
    | none => throw .keyError
    | some [] => throw .indexError
    | some (pk :: _) => do
      let pkb ← pkBytes pk
      pure (push_item pkb ++ [OP_CHECKSIG])
  | .unknown =>
    match txin.scriptCode with
    | some sc => pure sc
    | none => throw .keyError
  | .coinbase => throw .runtimeError

/-- `Transaction.serialize_preimage(i)`: the signature-hash preimage of
input `i`. -/
def serialize_preimage (E : Ext) (tx : Transaction) (i : Nat) :
    Except PyErr Bytes :=
  match tx.inputs.get? i with
  | none => .error .indexError
  | some txin =>
    let hashPrevouts := E.sha256d (tx.inputs.map serialize_outpoint).flatten
    let hashSequence :=
      E.sha256d (tx.inputs.map (fun t => int_to_hex t.sequence 4)).flatten
    let hashOutputs := E.sha256d (tx.outputs.map txOut_bytes).flatten
    let outpoint := serialize_outpoint txin
    match get_preimage_script E txin with
    | .error e => .error e
    | .ok preimage_script =>
      let scriptCode := varInt preimage_script.length ++ preimage_script
      match txin.value with
      | none => .error .inputValueMissing
      | some v =>
        .ok (int_to_hex tx.version 4 ++ hashPrevouts ++ hashSequence ++
          outpoint ++ scriptCode ++ int_to_hex v 8 ++
          int_to_hex txin.sequence 4 ++ hashOutputs ++
          int_to_hex tx.locktime 4 ++ int_to_hex nHashType 4)

/-- `Transaction.preimage_hash(i)` -/
def preimage_hash (E : Ext) (tx : Transaction) (i : Nat) :
    Except PyErr Bytes := do
  let p ← serialize_preimage E tx i
  pure (E.sha256d p)

/-- `Transaction.add_signature_to_txin`: store the signature at the slot and
clear the cached script (`txin['scriptSig'] = None`) and raw form. -/
def add_signature_to_txin (tx : Transaction) (i j : Nat) (sig : Bytes) :
    Transaction :=
  let upd := fun t : TxIn =>
    { t with
      signatures := t.signatures.set j (some sig), scriptSig := none }
  { tx with inputs := tx.inputs.modify upd i }

/-- The inner recovery-id loop of `update_signatures`: try recovery ids 0–3,
skipping ids whose recovery fails or whose recovered key is not a candidate
or fails verification; return the index of the matched candidate key. -/
def try_recids (E : Ext) (pubkeys : List PK) (base pre_hash : Bytes) :
    List Nat → Option Nat
  | [] => none
  | recid :: rest =>
    let rec_sig := base ++ [recid]
    match E.recover_pubkey rec_sig pre_hash with
    | none => try_recids E pubkeys base pre_hash rest
    | some pubkey_hex =>
      if (PK.bytes pubkey_hex) ∈ pubkeys then
        if E.verify_sig pubkey_hex rec_sig pre_hash then
          some (pubkeys.indexOf (PK.bytes pubkey_hex))
        else try_recids E pubkeys base pre_hash rest
      else try_recids E pubkeys base pre_hash rest

/-- The per-input loop of `update_signatures`; returns the state reached
together with the exception that interrupted it, if any (Python leaves the
mutations made so far in place when an exception escapes the loop). -/
def update_signatures_go (E : Ext) :
    List Bytes → Nat → Transaction → Transaction × Option PyErr
  | [], _, tx => (tx, none)
  | sig_i :: rest, i, tx =>
    match tx.inputs.get? i with
    | none => (tx, some .indexError)
    | some txin =>
      match get_sorted_pubkeys E txin with
      | .error e => (tx, some e)
      | .ok (pubkeys, _, txin1) =>
        let tx1 := { tx with inputs := tx.inputs.set i txin1 }
        let sig := sig_i ++ [nHashType % 256]
        if (some sig) ∈ txin1.signatures then
          update_signatures_go E rest (i + 1) tx1
        else
          match preimage_hash E tx1 i with
          | .error e => (tx1, some e)
          | .ok pre_hash =>
            match E.der_sig_to_compact sig_i with
            | none => (tx1, some .otherError)
            | some base =>
              match try_recids E pubkeys base pre_hash [0, 1, 2, 3] with
              | some j =>
                update_signatures_go E rest (i + 1)
                  (add_signature_to_txin tx1 i j sig)
              | none => update_signatures_go E rest (i + 1) tx1

/-- `Transaction.update_signatures(signatures)`: no-op when the transaction
is already complete; `RuntimeError` when the signature count differs from
the input count; otherwise run the matching loop and re-serialize.  The
result pairs the final state with the exception raised, if any. -/
def update_signatures (E : Ext) (tx : Transaction) (signatures : List Bytes) :
    Transaction × Option PyErr :=
  if is_complete tx then (tx, none)
  else if tx.inputs.length ≠ signatures.length then (tx, some .runtimeError)
  else
    match update_signatures_go E signatures 0 tx with
    | (tx1, some e) => (tx1, some e)
    | (tx1, none) =>
      match serialize E tx1 false with
      | .ok _ => (tx1, none)
      | .error e => (tx1, some e)

/-- `Transaction.estimated_size`: the byte length (`len(hex)//2`) of the
estimate-mode serialization when the transaction is incomplete. -/
def estimated_size (E : Ext) (tx : Transaction) : Except PyErr Nat := do
  let b ← serialize E tx true
  pure b.length

/-! Round-trip infrastructure: the opcode a minimal push uses, the token
list a sequence of minimal pushes decodes to, and the well-formedness
invariant characterising the parsed states of this codec (the states
`_parse_input` produces from well-formed transaction bytes and the signing
workflow maintains), over which serialization inverts parsing. -/

/-- The opcode byte `push_item` places first: the length itself below
`OP_PUSHDATA1`, otherwise the `OP_PUSHDATA1/2/4` marker by size class. -/
def pushOpcode (a : Bytes) : Nat :=
  if a.length < 76 then a.length
  else if a.length < 256 then OP_PUSHDATA1
  else if a.length < 65536 then OP_PUSHDATA2
  else OP_PUSHDATA4

/-- The tokens `_script_GetOp` yields for a run of minimal pushes starting
at offset `i`. -/
def pushToksFrom : Nat → List Bytes → List Tok
  | _, [] => []
  | i, a :: rest =>
    (pushOpcode a, some a, i + (push_item a).length) ::
      pushToksFrom (i + (push_item a).length) rest

/-- The byte string `get_siglist` renders for one signature slot of an
incomplete input: the signature when the slot is filled, the `'ff'`
placeholder otherwise. -/
def sigItemOf (sl : Option Bytes) : Bytes :=
  if sigFilled sl then sl.getD [] else [0xff]

/-- The input dict `_parse_input` initialises for a non-coinbase input
before classification. -/
def initIn (ph : Bytes) (pn sq : Nat) (ss : Bytes) : TxIn :=
  ⟨ph, pn, sq, some ss, .unknown, [], some [], [], 0, [], .nullAddress,
   none, none⟩

/-- The m-of-n multisig script over raw key bytes:
`push_int m ‖ push(pk)… ‖ push_int n ‖ OP_CHECKMULTISIG`. -/
def p2shRaw (m : Nat) (xps : List Bytes) : Bytes :=
  push_int m ++ (xps.map push_item).flatten ++ push_int xps.length ++
    [OP_CHECKMULTISIG]

/-- A p2sh signature slot in parsed form: empty slots are `None` (never the
empty or placeholder string, which the serializer's `'ff'` rendering and
`_parse_sig` would not restore). -/
def sigSlotOK (sl : Option Bytes) : Prop :=
  sl = none ∨ ∃ b, sl = some b ∧ b ≠ [] ∧ b ≠ [0xff] ∧ b.length < 2 ^ 32

/-- Parsed-state invariant of a coinbase input: the fields `_parse_input`
stores for a coinbase. -/
def WFcb (t : TxIn) : Prop :=
  t.x_pubkeys = [] ∧ t.pubkeys = none ∧ t.signatures = [] ∧ t.num_sig = 0 ∧
  t.redeemScript = [] ∧ t.address = .unknownAddress ∧ t.value = none ∧
  t.scriptCode = none ∧ t.scriptSig ≠ none

/-- Parsed-state invariant of an `unknown` input: exactly the initial input
dict, whose script `_parse_scriptSig` leaves unclassified. -/
def WFunk (E : Ext) (t : TxIn) : Prop :=
  ∃ ss, t.scriptSig = some ss ∧
    t = initIn t.prevout_hash t.prevout_n t.sequence ss ∧
    parse_scriptSig E (initIn t.prevout_hash t.prevout_n t.sequence ss) ss =
      .ok (initIn t.prevout_hash t.prevout_n t.sequence ss)

/-- Parsed-state invariant of a p2pk input: the single-push spend script
with its signature, placeholder key entries, and the defaults the parser
leaves in the remaining fields. -/
def WFp2pk (t : TxIn) : Prop :=
  ∃ s, t.signatures = [some s] ∧ s ≠ [] ∧ s.length < 2 ^ 32 ∧
    t.num_sig = 1 ∧ t.x_pubkeys = [PK.placeholder] ∧
    t.pubkeys = some [PK.placeholder] ∧ t.redeemScript = [] ∧
    t.address = .nullAddress ∧ t.value = none ∧ t.scriptCode = none ∧
    t.scriptSig = some (push_item s)

/-- Parsed-state invariant of a p2pkh input, in its unsigned form (placeholder
signature, extended public key still unresolved in `x_pubkeys`, trailing
value present) or its signed form (resolution already rewrote `x_pubkeys` to
the plain key, which re-resolves to itself). -/
def WFp2pkh (E : Ext) (t : TxIn) : Prop :=
  t.num_sig = 1 ∧ t.redeemScript = [] ∧ t.scriptCode = none ∧
  ((∃ xp pk v,
      t.signatures = [none] ∧ t.x_pubkeys = [PK.bytes xp] ∧
      t.pubkeys = some [PK.bytes pk] ∧ xp ≠ [] ∧ xp.length < 2 ^ 32 ∧
      E.xpubkey_to_address xp = some (pk, t.address) ∧
      t.value = some v ∧ v < 2 ^ 64 ∧
      t.scriptSig = some (push_item [0xff] ++ push_item xp)) ∨
   (∃ s pk,
      t.signatures = [some s] ∧ s ≠ [] ∧ s ≠ [0xff] ∧ s.length < 2 ^ 32 ∧
      t.x_pubkeys = [PK.bytes pk] ∧ t.pubkeys = some [PK.bytes pk] ∧
      pk ≠ [] ∧ pk.length < 2 ^ 32 ∧
      E.xpubkey_to_address pk = some (pk, t.address) ∧ t.value = none ∧
      t.scriptSig = some (push_item s ++ push_item pk)))

/-- Parsed-state invariant of a p2sh multisig input, incomplete (script
rebuilt from the raw `x_pubkeys`, resolution caching consistent, trailing
value present) or complete (exactly `num_sig` filled slots, keys stable
under re-resolution, no trailing value). -/
def WFp2sh (E : Ext) (t : TxIn) : Prop :=
  t.scriptCode = none ∧ 1 ≤ t.num_sig ∧
  t.address = .p2shAddress (E.hash160 t.redeemScript) ∧
  ((∃ xps v,
      t.x_pubkeys = xps.map PK.bytes ∧
      t.num_sig ≤ xps.length ∧ xps.length ≤ 16 ∧
      (∀ x ∈ xps, x ≠ [] ∧ x.length < 2 ^ 32) ∧
      t.pubkeys = some (xps.map (safe_parse_pubkey E)) ∧
      (∀ sl ∈ t.signatures, sigSlotOK sl) ∧
      (t.signatures.filter sigFilled).length ≠ t.num_sig ∧
      t.redeemScript =
        p2shRaw t.num_sig (xps.map fun x => (E.xpubkey_to_pubkey x).getD x) ∧
      (p2shRaw t.num_sig xps).length < 2 ^ 32 ∧
      t.value = some v ∧ v < 2 ^ 64 ∧
      t.scriptSig = some ((0x00 ::
        ((t.signatures.map sigItemOf).map push_item).flatten) ++
        push_item (p2shRaw t.num_sig xps))) ∨
   (∃ (pksB : List Bytes) (sigs : List Bytes),
      t.pubkeys = some (pksB.map PK.bytes) ∧ t.x_pubkeys = pksB.map PK.bytes ∧
      t.num_sig ≤ pksB.length ∧ pksB.length ≤ 16 ∧
      (∀ b ∈ pksB, b ≠ [] ∧ b.length < 2 ^ 32 ∧
        safe_parse_pubkey E b = PK.bytes b) ∧
      t.signatures = sigs.map some ∧ sigs.length = t.num_sig ∧
      (∀ b ∈ sigs, b ≠ [] ∧ b ≠ [0xff] ∧ b.length < 2 ^ 32) ∧
      t.redeemScript = p2shRaw t.num_sig pksB ∧
      (p2shRaw t.num_sig pksB).length < 2 ^ 32 ∧
      t.value = none ∧
      t.scriptSig = some ((0x00 :: (sigs.map push_item).flatten) ++
        push_item t.redeemScript)))

/-- Parsed-state invariant of one input: wire-width bounds, the coinbase ↔
all-zero-hash correspondence `_parse_input` tests, and the per-type field
shape. -/
def WFin (E : Ext) (t : TxIn) : Prop :=
  t.prevout_hash.length = 32 ∧ t.prevout_n < 2 ^ 32 ∧ t.sequence < 2 ^ 32 ∧
  (t.type = .coinbase ↔ t.prevout_hash = List.replicate 32 0) ∧
  (∀ ss, t.scriptSig = some ss → ss.length < 2 ^ 64) ∧
  (match t.type with
   | .coinbase => WFcb t
   | .unknown => WFunk E t
   | .p2pk => WFp2pk t
   | .p2pkh => WFp2pkh E t
   | .p2sh => WFp2sh E t)

/-- Parsed-state invariant of a whole transaction: wire-width bounds on the
header fields and counts, and per-input well-formedness.  These are the
states `deserialize` itself produces from well-formed codec output and that
signing preserves, so "well-formed transaction byte string produced by this
codec" is modelled as `serialize` of such a state. -/
def WF (E : Ext) (T : Transaction) : Prop :=
  -(2 ^ 31) ≤ T.version ∧ T.version < 2 ^ 31 ∧ T.locktime < 2 ^ 32 ∧
  T.inputs ≠ [] ∧ T.inputs.length < 2 ^ 64 ∧ T.outputs.length < 2 ^ 64 ∧
  (∀ o ∈ T.outputs, o.value < 2 ^ 64 ∧ o.script_pubkey.length < 2 ^ 64) ∧
  ∀ t ∈ T.inputs, WFin E t

/-! Concrete example data used by counterexamples and witnesses. -/

/-- A parsed coinbase input: all-zero previous outpoint hash, a one-byte
script, maximal sequence, and the defaults `_parse_input` leaves for the
signature-related keys of a coinbase. -/
def cbTxIn : TxIn :=
  ⟨List.replicate 32 0, 0, 0xffffffff, some [0x51], .coinbase,
   [], none, [], 0, [], .unknownAddress, none, none⟩

/-- A minimal parsed transaction — one coinbase input, one output — used to
exercise the serialize/deserialize round trip. -/
def cbTx : Transaction :=
  ⟨1, 0, [cbTxIn], [⟨7, [0x51]⟩]⟩

/-- A p2sh input with two filled signature slots but threshold 1 — the state
the parser produces from a spend of a 1-of-2 multisig whose script carries
two signature pushes. -/
def overfilledTxIn : TxIn :=
  ⟨List.replicate 32 1, 0, 0xfffffffe, some [], .p2sh,
   [.bytes [0x02], .bytes [0x03]], some [.bytes [0x02], .bytes [0x03]],
   [some [0x30], some [0x31]], 1, [], .nullAddress, some 0, none⟩

/-- A p2pkh input with its single signature slot unfilled. -/
def unfilledTxIn : TxIn :=
  ⟨List.replicate 32 2, 0, 0xfffffffe, some [], .p2pkh, [.bytes [0x02]],
   some [.bytes [0x02]], [none], 1, [], .nullAddress, some 0, none⟩

/-- A transaction whose signature totals agree (2 + 0 filled versus 1 + 1
required) although neither input satisfies per-input equality. -/
def sumsTx : Transaction := ⟨1, 0, [overfilledTxIn, unfilledTxIn], []⟩

/-- A p2pkh input lacking the `value` key. -/
def missingValueTxIn : TxIn :=
  ⟨List.replicate 32 3, 0, 0xfffffffe, some [], .p2pkh, [.bytes [0x02]],
   some [.bytes [0x02]], [none], 1, [], .nullAddress, none, none⟩

/-- A transaction with one value-less input. -/
def missingValueTx : Transaction :=
  ⟨1, 0, [missingValueTxIn], [⟨99000, [0x51]⟩]⟩

/-- Two inputs carrying values 60000 and 40000. -/
def feeOkTx : Transaction :=
  ⟨1, 0,
   [{ unfilledTxIn with value := some 60000 },
    { missingValueTxIn with value := some 40000 }],
   [⟨99000, [0x51]⟩]⟩

/-- A complete single-input transaction (1 of 1 signature present). -/
def completeTxIn : TxIn :=
  ⟨List.replicate 32 4, 0, 0xfffffffe, some [], .p2pkh, [.bytes [0x02]],
   some [.bytes [0x02]], [some [0x30, 0x06]], 1, [], .nullAddress, some 1, none⟩

/-- A complete transaction with one input. -/
def completeTx : Transaction := ⟨1, 0, [completeTxIn], []⟩

/-- An incomplete transaction with one input. -/
def incompleteTx : Transaction := ⟨1, 0, [unfilledTxIn], []⟩

/-- A p2pkh input with a known address and spent value, for evaluating the
preimage. -/
def preimageTxIn : TxIn :=
  ⟨List.replicate 32 5, 1, 0xfffffffe, some [], .p2pkh,
   [.bytes (0x02 :: List.replicate 32 0xab)],
   some [.bytes (0x02 :: List.replicate 32 0xab)], [none], 1, [],
   .p2pkhAddress (List.replicate 20 0xaa), some 50000, none⟩

/-- The same input with its value removed. -/
def preimageTxInNoValue : TxIn := { preimageTxIn with value := none }

/-- A transaction around `preimageTxIn`. -/
def preimageTx : Transaction := ⟨1, 0, [preimageTxIn], [⟨40000, [0x51]⟩]⟩

/-- A transaction whose only input lacks its value. -/
def preimageTxNoValue : Transaction :=
  ⟨1, 0, [preimageTxInNoValue], [⟨40000, [0x51]⟩]⟩

/-- Wire bytes of a transaction whose single input script is `OP_0` followed
by a push of the two bytes `0x51 0x51` — an `OP_0 ‖ pushes` script whose
final push is not a valid m-of-n multisig redeem script. -/
def badRedeemTxBytes : Bytes :=
  leBytes 1 4 ++ [1] ++
  (List.replicate 32 0x11 ++ leBytes 0 4 ++ [4] ++ [0x00, 0x02, 0x51, 0x51] ++
   leBytes 0xfffffffe 4)

/-- Wire bytes of a transaction whose single input script is the lone opcode
`OP_CHECKSIG`, matching no known template, followed by one output and
locktime. -/
def unknownScriptTxBytes : Bytes :=
  leBytes 1 4 ++ [1] ++
  (List.replicate 32 0x11 ++ leBytes 0 4 ++ [1] ++ [0xac] ++
   leBytes 0xfffffffe 4) ++
  [1] ++ (leBytes 7 8 ++ [1] ++ [0x51]) ++ leBytes 0 4

/-- The transaction `unknownScriptTxBytes` deserializes to: one input of
type `unknown` keeping its raw script, one output. -/
def unknownScriptTx : Transaction :=
  ⟨1, 0,
   [⟨List.replicate 32 0x11, 0, 0xfffffffe, some [0xac], .unknown, [],
     some [], [], 0, [], .nullAddress, none, none⟩],
   [⟨7, [0x51]⟩]⟩

/-- An incomplete 1-of-2 p2sh input whose candidate keys mix a compressed
(33-byte) and an uncompressed (65-byte) public key. -/
def mixedKeysTxIn : TxIn :=
  ⟨List.replicate 32 6, 0, 0xfffffffe, some [], .p2sh,
   [.bytes (0x02 :: List.replicate 32 0xaa), .bytes (0x04 :: List.replicate 64 0xbb)],
   some [.bytes (0x02 :: List.replicate 32 0xaa), .bytes (0x04 :: List.replicate 64 0xbb)],
   [none, none], 1, [], .nullAddress, some 100, none⟩

/-- The mixed-key transaction before signing. -/
def mixedKeysTx : Transaction := ⟨1, 0, [mixedKeysTxIn], [⟨7, [0x51]⟩]⟩

/-- The same logical transaction once its threshold is met by one real
71-byte signature. -/
def mixedKeysTxFinal : Transaction :=
  ⟨1, 0,
   [{ mixedKeysTxIn with
      signatures := [some (0x30 :: List.replicate 70 0x01), none] }],
   [⟨7, [0x51]⟩]⟩

/-- The relation between a transaction and the same logical transaction with
different signature-slot contents: inputs agree on every field except
`signatures`. -/
def sameButSigs (a b : TxIn) : Prop :=
  ∃ sigs, b = { a with signatures := sigs }

/-- A 1-of-1 p2pkh input with a compressed key and an empty signature slot,
satisfying the estimate-versus-final hypotheses. -/
def estOkTxIn : TxIn :=
  ⟨List.replicate 32 7, 0, 0xfffffffe, some [], .p2pkh,
   [.bytes (0x02 :: List.replicate 32 0xcc)],
   some [.bytes (0x02 :: List.replicate 32 0xcc)], [none], 1, [],
   .nullAddress, some 5, none⟩

/-- The estimate-side transaction around `estOkTxIn`. -/
def estOkTx : Transaction := ⟨1, 0, [estOkTxIn], [⟨7, [0x51]⟩]⟩

/-- The final-side transaction: the same input with a real 71-byte
signature. -/
def estOkTxFinal : Transaction :=
  ⟨1, 0,
   [{ estOkTxIn with signatures := [some (0x30 :: List.replicate 70 0x01)] }],
   [⟨7, [0x51]⟩]⟩

/-! Theorems. -/

theorem leBytes_length (n width : Nat) : (leBytes n width).length = width := by
  induction width generalizing n with
  | zero => rfl
  | succ w ih => simp [leBytes, ih]

theorem leNum_leBytes (n width : Nat) (h : n < 2 ^ (8 * width)) :
    leNum (leBytes n width) = n := by
  induction width generalizing n with
  | zero =>
    simp only [Nat.mul_zero, pow_zero, Nat.lt_one_iff] at h
    simp [h, leBytes, leNum]
  | succ w ih =>
    have hdiv : n / 256 < 2 ^ (8 * w) := by
      rw [Nat.div_lt_iff_lt_mul (by norm_num)]
      calc n < 2 ^ (8 * (w + 1)) := h
        _ = 2 ^ (8 * w) * 256 := by ring
    simp only [leBytes, leNum, ih _ hdiv]
    omega

theorem varInt_length_pos (n : Nat) : 0 < (varInt n).length := by
  unfold varInt
  split_ifs <;> simp

/-- Writing a nonnegative size below `2^64` to a stream appends exactly
the `varInt` encoding. -/
theorem write_compact_size_varInt (s : BCDataStream) (n : Nat) (h : n < 2 ^ 64) :
    s.write_compact_size (n : Int) = .ok ⟨s.input ++ varInt n, s.read_cursor⟩ := by
  unfold BCDataStream.write_compact_size varInt BCDataStream.write
  have h0 : ¬ ((n : Int) < 0) := by omega
  rw [if_neg h0]
  split_ifs with h1 h2 h3 h4 h5 h6 h7 <;>
    simp_all <;> omega

theorem pyslice_append (xs ys zs : Bytes) :
    pyslice (xs ++ (ys ++ zs)) xs.length (xs.length + ys.length) = ys := by
  induction xs with
  | nil =>
    simp only [List.nil_append, List.length_nil, Nat.zero_add, pyslice,
      List.drop_zero]
    exact List.take_left ys zs
  | cons a as ih =>
    simp only [List.cons_append, List.length_cons, pyslice] at ih ⊢
    rw [show as.length + 1 + ys.length = (as.length + ys.length) + 1 by omega]
    simpa using ih

theorem read_num_unsigned_spec (pre mid post : Bytes) (w c : Nat)
    (hc : c = pre.length) (hw : mid.length = w) :
    BCDataStream.read_num_unsigned ⟨pre ++ (mid ++ post), c⟩ w =
      .ok (leNum mid, ⟨pre ++ (mid ++ post), c + w⟩) := by
  subst hc
  unfold BCDataStream.read_num_unsigned
  have hlen : pre.length + w ≤ (pre ++ (mid ++ post)).length := by
    simp [← hw]
  rw [if_pos hlen]
  rw [show pre.length + w = pre.length + mid.length by omega]
  rw [pyslice_append]

theorem read_bytes_spec (pre mid post : Bytes) (n c : Nat)
    (hc : c = pre.length) (hn : mid.length = n) :
    BCDataStream.read_bytes ⟨pre ++ (mid ++ post), c⟩ n =
      (mid, ⟨pre ++ (mid ++ post), c + n⟩) := by
  subst hc
  unfold BCDataStream.read_bytes
  rw [show pre.length + n = pre.length + mid.length by omega]
  rw [pyslice_append]

theorem get?_append_cons (pre : Bytes) (b : Nat) (rest : Bytes) :
    (pre ++ (b :: rest)).get? pre.length = some b := by
  rw [List.get?_eq_getElem?, List.getElem?_append_right (Nat.le_refl _)]
  simp

/-- Reading a compact size from a stream positioned at a `varInt` encoding
returns the encoded value and advances past it. -/
theorem read_compact_size_spec (pre post : Bytes) (n c : Nat)
    (hc : c = pre.length) (h : n < 2 ^ 64) :
    BCDataStream.read_compact_size ⟨pre ++ (varInt n ++ post), c⟩ =
      .ok (n, ⟨pre ++ (varInt n ++ post), c + (varInt n).length⟩) := by
  subst hc
  unfold BCDataStream.read_compact_size varInt
  split_ifs with h1 h2 h3
  · -- single byte, n < 253
    simp only [List.cons_append, List.nil_append, get?_append_cons]
    rw [if_neg (by omega : ¬ n = 253), if_neg (by omega : ¬ n = 254),
      if_neg (by omega : ¬ n = 255)]
    simp
  · -- 0xfd marker
    simp only [List.cons_append, get?_append_cons]
    rw [if_true]
    have hr := read_num_unsigned_spec (pre ++ [0xfd]) (leBytes n 2) post 2
      (pre.length + 1) (by simp) (leBytes_length n 2)
    simp only [List.append_assoc, List.singleton_append] at hr
    rw [hr, leNum_leBytes n 2 (by simpa using h2)]
    simp [leBytes_length]
  · -- 0xfe marker
    simp only [List.cons_append, get?_append_cons]
    rw [if_neg (by omega : ¬ (254 : Nat) = 253), if_true]
    have hr := read_num_unsigned_spec (pre ++ [0xfe]) (leBytes n 4) post 4
      (pre.length + 1) (by simp) (leBytes_length n 4)
    simp only [List.append_assoc, List.singleton_append] at hr
    rw [hr, leNum_leBytes n 4 (by simpa using h3)]
    simp [leBytes_length]
  · -- 0xff marker
    simp only [List.cons_append, get?_append_cons]
    rw [if_neg (by omega : ¬ (255 : Nat) = 253),
      if_neg (by omega : ¬ (255 : Nat) = 254), if_true]
    have hr := read_num_unsigned_spec (pre ++ [0xff]) (leBytes n 8) post 8
      (pre.length + 1) (by simp) (leBytes_length n 8)
    simp only [List.append_assoc, List.singleton_append] at hr
    rw [hr, leNum_leBytes n 8 (by simpa using h)]
    simp [leBytes_length]

/-- C4: the claim says `read_bytes(n)` fails with `SerializationError` when
fewer than `n` bytes remain and that the read position never exceeds the
buffer length.  The code does neither: Python slicing never raises
`IndexError`, so on a one-byte buffer `read_bytes(2)` returns the single
byte without any error and leaves the cursor at 2, past the end of the
buffer.  This evaluates the embedded code at that failing input. -/
theorem read_bytes_truncates_without_error :
    BCDataStream.read_bytes ⟨[0xAA], 0⟩ 2 = ([0xAA], ⟨[0xAA], 2⟩) ∧
    ([0xAA] : Bytes).length < (BCDataStream.read_bytes ⟨[0xAA], 0⟩ 2).2.read_cursor := by
  constructor
  · rfl
  · decide

/-- C8: compact-size encoding writes values below 253 as one byte equal to
the value, values in `[253, 2^16)` as marker `0xFD` plus a little-endian
16-bit integer (3 bytes), values in `[2^16, 2^32)` as marker `0xFE` plus a
32-bit little-endian integer (5 bytes), values in `[2^32, 2^64)` as marker
`0xFF` plus a 64-bit little-endian integer (9 bytes); and
`read_compact_size` inspects the first byte and inverts the encoding, so
decoding an encoded size returns the size, for every size below `2^64`. -/
theorem compact_size_encode_decode (n : Nat) (h : n < 2 ^ 64) :
    ∃ enc : Bytes,
      BCDataStream.write_compact_size ⟨[], 0⟩ (n : Int) = .ok ⟨enc, 0⟩ ∧
      (n < 253 → enc = [n]) ∧
      (253 ≤ n → n < 2 ^ 16 → enc = 0xfd :: leBytes n 2 ∧ enc.length = 3) ∧
      (2 ^ 16 ≤ n → n < 2 ^ 32 → enc = 0xfe :: leBytes n 4 ∧ enc.length = 5) ∧
      (2 ^ 32 ≤ n → enc = 0xff :: leBytes n 8 ∧ enc.length = 9) ∧
      (∀ rest : Bytes, BCDataStream.read_compact_size ⟨enc ++ rest, 0⟩ =
        .ok (n, ⟨enc ++ rest, enc.length⟩)) := by
  refine ⟨varInt n, ?_, ?_, ?_, ?_, ?_, ?_⟩
  · simpa using write_compact_size_varInt ⟨[], 0⟩ n h
  · intro h1
    simp [varInt, h1]
  · intro h1 h2
    rw [varInt, if_neg (by omega), if_pos h2]
    simp [leBytes_length]
  · intro h1 h2
    rw [varInt, if_neg (by omega), if_neg (by omega), if_pos h2]
    simp [leBytes_length]
  · intro h1
    rw [varInt, if_neg (by omega), if_neg (by omega), if_neg (by omega)]
    simp [leBytes_length]
  · intro rest
    simpa using read_compact_size_spec [] rest n 0 rfl h

/-- Witness for C8 at the boundary value 300. -/
theorem compact_size_encode_decode_witness :
    BCDataStream.read_compact_size ⟨0xfd :: leBytes 300 2, 0⟩ =
      .ok (300, ⟨0xfd :: leBytes 300 2, 3⟩) := by
  obtain ⟨enc, _, _, hfd, _, _, hdec⟩ :=
    compact_size_encode_decode 300 (by norm_num)
  obtain ⟨henc, hlen⟩ := hfd (by norm_num) (by norm_num)
  simpa [henc, hlen] using hdec []

/-- C10: `write_compact_size` raises the encode error (`SerializationError`)
if and only if the size is negative, and for sizes at or above `2^64` it
raises nothing and appends no bytes at all, returning the stream unchanged. -/
theorem write_compact_size_error_iff_neg (s : BCDataStream) (z : Int) :
    (BCDataStream.write_compact_size s z = .error .serializationError ↔ z < 0) ∧
    (2 ^ 64 ≤ z → BCDataStream.write_compact_size s z = .ok s) := by
  have h64 : (2 : Int) ^ 64 = 18446744073709551616 := by norm_num
  have h32 : (2 : Int) ^ 32 = 4294967296 := by norm_num
  have h16 : (2 : Int) ^ 16 = 65536 := by norm_num
  unfold BCDataStream.write_compact_size
  constructor
  · constructor
    · intro hE
      by_contra hz
      push_neg at hz
      rw [if_neg (by omega)] at hE
      split_ifs at hE
    · intro hz
      rw [if_pos hz]
  · intro hz
    rw [if_neg (by omega), if_neg (by omega), if_neg (by omega),
      if_neg (by omega), if_neg (by omega)]

/-- Witness for C10 at sizes `-1` and `2^64`. -/
theorem write_compact_size_error_iff_neg_witness :
    BCDataStream.write_compact_size ⟨[], 0⟩ (-1) = .error .serializationError ∧
    BCDataStream.write_compact_size ⟨[], 0⟩ (2 ^ 64) = .ok ⟨[], 0⟩ :=
  ⟨(write_compact_size_error_iff_neg ⟨[], 0⟩ (-1)).1.mpr (by norm_num),
   (write_compact_size_error_iff_neg ⟨[], 0⟩ (2 ^ 64)).2 (by norm_num)⟩

theorem leBytes_mod (n width : Nat) :
    leBytes (n % 2 ^ (8 * width)) width = leBytes n width := by
  induction width generalizing n with
  | zero => rfl
  | succ w ih =>
    have hpow : (2 : Nat) ^ (8 * (w + 1)) = 256 * 2 ^ (8 * w) := by ring
    simp only [leBytes, hpow]
    congr 1
    · rw [Nat.mod_mod_of_dvd n ⟨2 ^ (8 * w), by ring⟩]
    · rw [Nat.mod_mul_right_div_self]
      exact ih (n / 256)

/-- On a natural number, `int_to_hex` coincides with `leBytes`. -/
theorem int_to_hex_natCast (n : Nat) (width : Nat) :
    int_to_hex (n : Int) width = leBytes n width := by
  unfold int_to_hex
  have h : ((n : Int) % (2 ^ (8 * width))).toNat = n % 2 ^ (8 * width) := by
    rw [show ((2 : Int) ^ (8 * width)) = ((2 ^ (8 * width) : Nat) : Int) by push_cast; ring]
    omega
  rw [h, leBytes_mod]

/-- `signature_count` computes the sums, over non-coinbase inputs, of the
filled-slot counts and of the `num_sig` thresholds. -/
theorem signature_count_sums (tx : Transaction) :
    signature_count tx =
      (((tx.inputs.filter fun t => t.type ≠ .coinbase).map
          fun t => (t.signatures.filter sigFilled).length).sum,
       ((tx.inputs.filter fun t => t.type ≠ .coinbase).map
          fun t => t.num_sig).sum) := by
  unfold signature_count
  suffices h : ∀ (l : List TxIn) (p : Nat × Nat),
      l.foldl
        (fun acc txin =>
          if txin.type = .coinbase then acc
          else (acc.1 + (txin.signatures.filter sigFilled).length,
                acc.2 + txin.num_sig)) p =
      (p.1 + ((l.filter fun t => t.type ≠ .coinbase).map
          fun t => (t.signatures.filter sigFilled).length).sum,
       p.2 + ((l.filter fun t => t.type ≠ .coinbase).map
          fun t => t.num_sig).sum) by
    simpa using h tx.inputs (0, 0)
  intro l
  induction l with
  | nil => intro p; simp
  | cons t ts ih =>
    intro p
    by_cases hc : t.type = .coinbase
    · simp [hc, ih]
    · simp only [List.foldl_cons, if_neg hc, ih, List.filter_cons]
      simp only [hc, decide_not, decide_eq_true_eq, not_false_eq_true]
      simp only [decide_False, Bool.not_false, if_true, List.map_cons,
        List.sum_cons]
      refine Prod.ext ?_ ?_ <;> simp <;> omega

/-- C1: the claim states that `is_complete()` is true iff every non-coinbase
input's filled-slot count equals its own `num_sig`; the code only compares
the totals, and `sumsTx` (2 filled of threshold 1, plus 0 filled of
threshold 1) is complete by totals while no input satisfies the per-input
equality. -/
theorem is_complete_not_per_input :
    is_complete sumsTx = true ∧
    ¬ (∀ txin ∈ sumsTx.inputs, txin.type ≠ InType.coinbase →
        (txin.signatures.filter sigFilled).length = txin.num_sig) := by
  refine ⟨by decide, ?_⟩
  decide

/-- C1 amended: `is_complete()` is true iff the total count of filled
signature slots over the non-coinbase inputs equals the total of their
`num_sig` thresholds (per-input equality implies this but is not
necessary). -/
theorem is_complete_iff_sums (tx : Transaction) :
    is_complete tx = true ↔
      ((tx.inputs.filter fun t => t.type ≠ .coinbase).map
         fun t => (t.signatures.filter sigFilled).length).sum =
      ((tx.inputs.filter fun t => t.type ≠ .coinbase).map
         fun t => t.num_sig).sum := by
  unfold is_complete
  rw [signature_count_sums]
  dsimp only
  rw [beq_iff_eq]
  exact eq_comm

/-- When every input carries a value, `input_value` is their sum. -/
theorem input_value_sum (tx : Transaction)
    (h : ∀ txin ∈ tx.inputs, txin.value.isSome) :
    input_value tx = .ok (tx.inputs.map fun t => t.value.getD 0).sum := by
  unfold input_value
  suffices hgen : ∀ (l : List TxIn), (∀ t ∈ l, t.value.isSome) → ∀ a : Nat,
      l.foldlM
        (fun acc txin =>
          match txin.value with
          | some v => pure (acc + v)
          | none => throw .keyError) a =
      (.ok (a + (l.map fun t => t.value.getD 0).sum) : Except PyErr Nat) by
    simpa using hgen tx.inputs h 0
  intro l hl
  induction l with
  | nil =>
    intro a
    simp only [List.foldlM_nil, List.map_nil, List.sum_nil, Nat.add_zero]
    rfl
  | cons t ts ih =>
    intro a
    obtain ⟨v, hv⟩ := Option.isSome_iff_exists.mp (hl t (by simp))
    have hts : ∀ x ∈ ts, x.value.isSome := fun x hx => hl x (by simp [hx])
    simp only [List.foldlM_cons, hv, List.map_cons, List.sum_cons,
      Option.getD_some, pure_bind]
    rw [ih hts (a + v)]
    congr 1
    omega

/-- When some input lacks its value, `input_value` raises `KeyError`. -/
theorem input_value_keyError (tx : Transaction)
    (h : ∃ txin ∈ tx.inputs, txin.value = none) :
    input_value tx = .error .keyError := by
  unfold input_value
  suffices hgen : ∀ (l : List TxIn), (∃ t ∈ l, t.value = none) → ∀ a : Nat,
      l.foldlM
        (fun acc txin =>
          match txin.value with
          | some v => pure (acc + v)
          | none => throw .keyError) a =
      (.error .keyError : Except PyErr Nat) by
    exact hgen tx.inputs h 0
  intro l hl
  induction l with
  | nil => simp at hl
  | cons t ts ih =>
    intro a
    by_cases hv : t.value = none
    · simp only [List.foldlM_cons, hv]
      rfl
    · obtain ⟨v, hsome⟩ := Option.ne_none_iff_exists.mp hv
      have hex : ∃ x ∈ ts, x.value = none := by
        rcases hl with ⟨x, hx, hxn⟩
        rcases List.mem_cons.mp hx with rfl | hmem
        · exact absurd hxn hv
        · exact ⟨x, hmem, hxn⟩
      simp only [List.foldlM_cons, ← hsome, pure_bind]
      exact ih hex (a + v)

/-- `output_value` is the sum of the output amounts. -/
theorem output_value_sum (tx : Transaction) :
    output_value tx = (tx.outputs.map TxOut.value).sum := by
  unfold output_value
  induction tx.outputs using List.reverseRecOn with
  | nil => simp
  | append_singleton os o ih => simp [ih]

/-- C6 amended: with every input value present, `get_fee()` is the sum of
input values minus the sum of output values; with any input value absent it
fails — but with `KeyError` from the `txin['value']` lookup, not with
`InputValueMissing` as the claim says. -/
theorem get_fee_sum_or_keyError (tx : Transaction) :
    ((∀ txin ∈ tx.inputs, txin.value.isSome) →
      get_fee tx =
        .ok ((((tx.inputs.map fun t => t.value.getD 0).sum : Nat) : Int) -
          ((tx.outputs.map TxOut.value).sum : Int))) ∧
    ((∃ txin ∈ tx.inputs, txin.value = none) →
      get_fee tx = .error .keyError) := by
  constructor
  · intro h
    unfold get_fee
    rw [input_value_sum tx h]
    simp [output_value_sum]
  · intro h
    unfold get_fee
    rw [input_value_keyError tx h]
    rfl

/-- Witness for C6: fee 1000 on values 60000+40000 against 99000 out, and
`KeyError` on the value-less transaction. -/
theorem get_fee_sum_or_keyError_witness :
    get_fee feeOkTx = .ok 1000 ∧
    get_fee missingValueTx = .error .keyError := by
  constructor
  · have h := (get_fee_sum_or_keyError feeOkTx).1 (by decide)
    simpa using h
  · exact (get_fee_sum_or_keyError missingValueTx).2
      ⟨missingValueTxIn, by decide, rfl⟩

/-- C6 counterexample: on a value-less input `get_fee` raises `KeyError`,
which is not the distinct `InputValueMissing` condition named by the claim
(that class is raised only by `serialize_preimage`). -/
theorem get_fee_keyError_not_inputValueMissing :
    get_fee missingValueTx = .error .keyError ∧
    get_fee missingValueTx ≠ .error .inputValueMissing := by
  refine ⟨rfl, ?_⟩
  intro h
  rw [show get_fee missingValueTx = .error .keyError from rfl] at h
  exact absurd (Except.error.inj h) (by decide)

/-- C5 counterexample: an already-complete transaction given a mismatched
signature count (0 signatures for 1 input) returns without raising the
count-mismatch condition, because the completeness check precedes the count
check. -/
theorem update_signatures_no_raise_when_complete :
    update_signatures trivialExt completeTx [] = (completeTx, none) ∧
    completeTx.inputs.length ≠ ([] : List Bytes).length := by
  refine ⟨by decide, by decide⟩

/-- C5 amended: when the transaction is already complete,
`update_signatures` returns with no mutation and no error even if the count
mismatches; when it is not complete and the supplied count differs from the
input count, it raises the count-mismatch `RuntimeError` and mutates
nothing (the returned state is the argument transaction). -/
theorem update_signatures_cases (E : Ext) (tx : Transaction)
    (sigs : List Bytes) :
    (is_complete tx = true → update_signatures E tx sigs = (tx, none)) ∧
    (is_complete tx = false → tx.inputs.length ≠ sigs.length →
      update_signatures E tx sigs = (tx, some .runtimeError)) := by
  constructor
  · intro h
    unfold update_signatures
    simp [h]
  · intro h hne
    unfold update_signatures
    simp [h, hne]

/-- Any two sufficient fuels give the same token list. -/
theorem script_GetOp_fuel_congr : ∀ (f1 : Nat) (f2 : Nat) (bs : Bytes) (i : Nat),
    bs.length - i ≤ f1 → bs.length - i ≤ f2 →
    script_GetOp_fuel f1 bs i = script_GetOp_fuel f2 bs i := by
  intro f1
  induction f1 with
  | zero =>
    intro f2 bs i h1 h2
    have hlen : ¬ i < bs.length := by omega
    cases f2 with
    | zero => rfl
    | succ g2 => simp [script_GetOp_fuel, hlen]
  | succ g1 ih =>
    intro f2 bs i h1 h2
    by_cases hi : i < bs.length
    · cases f2 with
      | zero => omega
      | succ g2 =>
        simp only [script_GetOp_fuel, if_pos hi]
        split_ifs <;> (congr 1; exact ih g2 bs _ (by omega) (by omega))
    · cases f2 with
      | zero => simp [script_GetOp_fuel, hi]
      | succ g2 => simp [script_GetOp_fuel, hi]

/-- The unfueled loop equation of `_script_GetOp`: one iteration of the
Python loop followed by tokenization from the advanced position. -/
theorem script_GetOp_eq (bs : Bytes) (i : Nat) :
    script_GetOp bs i =
      if i < bs.length then
        let opcode := bs.getD i 0
        if opcode ≤ OP_PUSHDATA4 then
          if opcode = OP_PUSHDATA1 then
            let nSize := if i + 1 < bs.length then bs.getD (i + 1) 0 else 0
            (opcode, some (pyslice bs (i + 2) (i + 2 + nSize)), i + 2 + nSize) ::
              script_GetOp bs (i + 2 + nSize)
          else if opcode = OP_PUSHDATA2 then
            let nSize :=
              if i + 3 ≤ bs.length then leNum (pyslice bs (i + 1) (i + 3)) else 0
            (opcode, some (pyslice bs (i + 3) (i + 3 + nSize)), i + 3 + nSize) ::
              script_GetOp bs (i + 3 + nSize)
          else if opcode = OP_PUSHDATA4 then
            let nSize :=
              if i + 5 ≤ bs.length then leNum (pyslice bs (i + 1) (i + 5)) else 0
            (opcode, some (pyslice bs (i + 5) (i + 5 + nSize)), i + 5 + nSize) ::
              script_GetOp bs (i + 5 + nSize)
          else
            (opcode, some (pyslice bs (i + 1) (i + 1 + opcode)), i + 1 + opcode) ::
              script_GetOp bs (i + 1 + opcode)
        else
          (opcode, none, i + 1) :: script_GetOp bs (i + 1)
      else [] := by
  by_cases hi : i < bs.length
  · rw [if_pos hi]
    unfold script_GetOp
    have hf : bs.length - i = (bs.length - i - 1) + 1 := by omega
    rw [hf]
    simp only [script_GetOp_fuel, if_pos hi]
    split_ifs <;>
      (congr 1 <;> exact script_GetOp_fuel_congr _ _ bs _ (by omega) (by omega))
  · rw [if_neg hi]
    unfold script_GetOp
    have hf : bs.length - i = 0 := by omega
    rw [hf]
    rfl

/-- C3: the claim says a classification failure is never fatal and that the
input is kept as type `unknown` with deserialization continuing.  For a
script matching no template at all that is what happens (second conjunct);
but for the claim's own example — `OP_0` followed by pushes whose final push
is not a valid multisig redeem script — `_parse_redeemScript` returns `None`
after logging, `_parse_scriptSig` unpacks that `None` into a five-tuple, and
the resulting `TypeError` escapes `_parse_input`, aborting deserialization
(first conjunct evaluates the embedded code on such a transaction). -/
theorem deserialize_fatal_on_unmatched_redeem :
    deserialize trivialExt badRedeemTxBytes = .error .typeError ∧
    deserialize trivialExt unknownScriptTxBytes = .ok unknownScriptTx ∧
    unknownScriptTx.inputs.map TxIn.type = [.unknown] := by
  refine ⟨by decide, by decide, by decide⟩

theorem ok_bind {α β : Type} (x : α) (f : α → Except PyErr β) :
    (Except.ok x : Except PyErr α) >>= f = f x := rfl

/-- C9 counterexample: for the mixed-key 1-of-2 p2sh transaction the
estimate-mode serialization is 207 bytes while the final serialization,
with the threshold met by one real 71-byte signature, is 239 bytes — the
estimate substitutes 33-byte placeholders for both keys because the first
key is compressed, while the final redeem script renders the real 65-byte
uncompressed second key. -/
theorem estimated_size_lt_final_size :
    (serialize trivialExt mixedKeysTx true).map List.length = .ok 207 ∧
    (serialize trivialExt mixedKeysTxFinal false).map List.length = .ok 239 ∧
    is_complete mixedKeysTxFinal = true ∧
    sameButSigs mixedKeysTxIn
      { mixedKeysTxIn with
        signatures := [some (0x30 :: List.replicate 70 0x01), none] } := by
  refine ⟨by decide, by decide, by decide, ⟨_, rfl⟩⟩

theorem push_item_length (b : Bytes) :
    (push_item b).length =
      (if b.length < 76 then 1 else if b.length < 256 then 2
       else if b.length < 65536 then 3 else 5) + b.length := by
  unfold push_item
  split_ifs <;> simp [leBytes_length] <;> omega

theorem push_item_len_mono {x y : Bytes} (h : x.length ≤ y.length) :
    (push_item x).length ≤ (push_item y).length := by
  rw [push_item_length, push_item_length]
  split_ifs <;> omega

theorem varInt_length (n : Nat) :
    (varInt n).length =
      if n < 253 then 1 else if n < 2 ^ 16 then 3
      else if n < 2 ^ 32 then 5 else 9 := by
  unfold varInt
  split_ifs <;> simp [leBytes_length]

theorem varInt_len_mono {a b : Nat} (h : a ≤ b) :
    (varInt a).length ≤ (varInt b).length := by
  rw [varInt_length, varInt_length]
  split_ifs <;> omega

theorem int_to_hex_length (i : Int) (w : Nat) : (int_to_hex i w).length = w := by
  unfold int_to_hex
  exact leBytes_length _ _

/-- Total length of a list of data pushes, each item below `bound < 76`
bytes. -/
theorem flatten_push_bound (items : List Bytes) (bound : Nat)
    (hb : bound < 76) (h : ∀ s ∈ items, s.length ≤ bound) :
    ((items.map push_item).flatten).length ≤ items.length * (1 + bound) := by
  induction items with
  | nil => simp
  | cons x xs ih =>
    have hx := h x (by simp)
    have hxs := ih fun s hs => h s (by simp [hs])
    have hpx : (push_item x).length ≤ 1 + bound := by
      rw [push_item_length]
      split_ifs <;> omega
    simp only [List.map_cons, List.flatten_cons, List.length_append,
      List.length_cons]
    calc (push_item x).length + ((xs.map push_item).flatten).length
        ≤ (1 + bound) + xs.length * (1 + bound) := by omega
      _ = (xs.length + 1) * (1 + bound) := by ring

/-- Total length of the pushes of `k` copies of one item. -/
theorem flatten_push_replicate (k : Nat) (x : Bytes) :
    (((List.replicate k x).map push_item).flatten).length =
      k * (push_item x).length := by
  induction k with
  | zero => simp
  | succ n ih =>
    simp only [List.replicate_succ, List.map_cons, List.flatten_cons,
      List.length_append, ih]
    ring

theorem bind_ok_iff {α β : Type} {x : Except PyErr α} {f : α → Except PyErr β}
    {r : β} : x >>= f = .ok r ↔ ∃ v, x = .ok v ∧ f v = .ok r := by
  cases x with
  | error e =>
    simp [show ((Except.error e : Except PyErr α) >>= f) = Except.error e
      from rfl]
  | ok v =>
    simp [show ((Except.ok v : Except PyErr α) >>= f) = f v from rfl]

/-- `get_siglist` in estimate mode, explicitly. -/
theorem get_siglist_estimate (E : Ext) (t : TxIn) :
    get_siglist E t true =
      .ok (List.replicate t.x_pubkeys.length
             (PK.bytes (List.replicate (estimate_pubkey_size_for_txin t) 0x00)),
           List.replicate t.num_sig (List.replicate 0x48 0x00), t) := rfl

/-- `get_sorted_pubkeys` never changes `signatures` or `num_sig`. -/
theorem get_sorted_pubkeys_preserves (E : Ext) (t : TxIn) (pkl xpl : List PK)
    (t1 : TxIn) (h : get_sorted_pubkeys E t = .ok (pkl, xpl, t1)) :
    t1.signatures = t.signatures ∧ t1.num_sig = t.num_sig := by
  unfold get_sorted_pubkeys at h
  cases hp : t.pubkeys with
  | some pks =>
    rw [hp] at h
    obtain ⟨rfl, rfl, rfl⟩ : pks = pkl ∧ t.x_pubkeys = xpl ∧ t = t1 := by
      have := Except.ok.inj h
      exact ⟨congrArg Prod.fst this, congrArg (fun p => p.2.1) this,
        congrArg (fun p => p.2.2) this⟩
    exact ⟨rfl, rfl⟩
  | none =>
    rw [hp] at h
    rw [bind_ok_iff] at h
    obtain ⟨pairs, _, h⟩ := h
    have := Except.ok.inj h
    have ht1 : t1 = { t with
        pubkeys := some ((List.mergeSort pairs pairLe).map fun p => PK.bytes p.1),
        x_pubkeys := (List.mergeSort pairs pairLe).map fun p => PK.bytes p.2 } :=
      (congrArg (fun p => p.2.2) this).symm
    rw [ht1]
    exact ⟨rfl, rfl⟩

/-- With the cached pubkeys present and the input complete, `get_siglist`
in final mode returns the cached keys and the filled signatures. -/
theorem get_siglist_complete (E : Ext) (t : TxIn) (pks : List PK)
    (hp : t.pubkeys = some pks) (hc : is_txin_complete t = true) :
    get_siglist E t false =
      .ok (pks, (t.signatures.filter sigFilled).map (fun s => s.getD []), t) := by
  unfold get_siglist get_sorted_pubkeys
  rw [hp]
  simp only [Bool.false_eq_true, if_false, ok_bind]
  have hlen : ((t.signatures.filter sigFilled).map
      (fun s => s.getD [])).length == t.num_sig := by
    unfold is_txin_complete at hc
    simpa using hc
  rw [if_pos hlen]
  rfl

/-- However `get_siglist` in final mode succeeds on a complete input, the
signature list it returns is the filled signatures. -/
theorem get_siglist_false_complete (E : Ext) (t : TxIn) (pkl : List PK)
    (sl : List Bytes) (t1 : TxIn)
    (h : get_siglist E t false = .ok (pkl, sl, t1))
    (hc : is_txin_complete t = true) :
    sl = (t.signatures.filter sigFilled).map (fun s => s.getD []) := by
  unfold get_siglist at h
  simp only [Bool.false_eq_true, if_false] at h
  rw [bind_ok_iff] at h
  obtain ⟨⟨pks0, xpk0, ta⟩, hgs, h⟩ := h
  obtain ⟨hsigs, hns⟩ := get_sorted_pubkeys_preserves E t pks0 xpk0 ta hgs
  simp only [hsigs, hns] at h
  have hlen : ((t.signatures.filter sigFilled).map
      (fun s => s.getD [])).length == t.num_sig := by
    unfold is_txin_complete at hc
    simpa using hc
  rw [if_pos hlen] at h
  exact (congrArg (fun p => p.2.1) (Except.ok.inj h)).symm

/-- Every element produced from the filled slots is at most `0x48` bytes when
every stored signature is. -/
theorem filled_sigs_bound (sigs : List (Option Bytes))
    (hsig : ∀ s ∈ sigs, ∀ bb, s = some bb → bb.length ≤ 0x48) :
    ∀ x ∈ (sigs.filter sigFilled).map (fun s => s.getD []), x.length ≤ 0x48 := by
  intro x hx
  simp only [List.mem_map, List.mem_filter] at hx
  obtain ⟨s, ⟨hs, hf⟩, rfl⟩ := hx
  cases s with
  | none => simp [sigFilled] at hf
  | some bb => simpa using hsig _ hs bb rfl

/-- The estimated pubkey size is always 33 or 65 bytes. -/
theorem est_from_x_cases (x : PK) :
    estimate_pubkey_size_from_x_pubkey x = 0x21 ∨
    estimate_pubkey_size_from_x_pubkey x = 0x41 := by
  unfold estimate_pubkey_size_from_x_pubkey
  rcases x with b | _
  · rcases b with _ | ⟨hd, tl⟩
    · simp
    · dsimp only
      split_ifs <;> simp
  · simp

theorem est_size_cases (t : TxIn) :
    estimate_pubkey_size_for_txin t = 0x21 ∨
    estimate_pubkey_size_for_txin t = 0x41 := by
  unfold estimate_pubkey_size_for_txin
  by_cases h1 : 0 < (t.pubkeys.getD []).length
  · rw [if_pos h1]
    exact est_from_x_cases _
  · rw [if_neg h1]
    by_cases h2 : 0 < t.x_pubkeys.length
    · rw [if_pos h2]
      exact est_from_x_cases _
    · rw [if_neg h2]
      left
      rfl

theorem mapM_pkBytes (l : List Bytes) :
    (l.map PK.bytes).mapM pkBytes = .ok l := by
  induction l with
  | nil => rfl
  | cons x xs ih =>
    rw [List.map_cons, List.mapM_cons, ih]
    rfl

/-- A pointwise byte-extraction for a list of `PK.bytes` values. -/
theorem pks_extract (pks : List PK) (bound : Nat)
    (h : ∀ pk ∈ pks, ∃ bb, pk = PK.bytes bb ∧ bb.length ≤ bound) :
    ∃ bbs : List Bytes, pks = bbs.map PK.bytes ∧ bbs.length = pks.length ∧
      ∀ bb ∈ bbs, bb.length ≤ bound := by
  induction pks with
  | nil => exact ⟨[], rfl, rfl, by simp⟩
  | cons p ps ih =>
    obtain ⟨bb, hbb, hlen⟩ := h p (by simp)
    obtain ⟨bbs, hmap, hl, hall⟩ := ih fun pk hpk => h pk (by simp [hpk])
    refine ⟨bb :: bbs, ?_, ?_, ?_⟩
    · simp [hbb, hmap]
    · simp [hl]
    · intro x hx
      rcases List.mem_cons.mp hx with rfl | hx
      · exact hlen
      · exact hall x hx

/-- The components of a successful `multisig_script`. -/
theorem multisig_script_ok (pks : List PK) (m : Nat) (r : Bytes)
    (h : multisig_script pks m = .ok r) :
    1 ≤ m ∧ m ≤ pks.length ∧ ∃ bbs, pks.mapM pkBytes = .ok bbs ∧
      r = push_int m ++ (bbs.map push_item).flatten ++
          push_int pks.length ++ [OP_CHECKMULTISIG] := by
  unfold multisig_script at h
  split_ifs at h with hcond
  rw [bind_ok_iff] at h
  obtain ⟨bbs, hm, h⟩ := h
  exact ⟨hcond.1, hcond.2, bbs, hm, (Except.ok.inj h).symm⟩

theorem pure_ok {α : Type} (x : α) : (pure x : Except PyErr α) = .ok x := rfl

theorem updSigs_type (a : TxIn) (sigs : List (Option Bytes)) :
    ({ a with signatures := sigs } : TxIn).type = a.type := rfl

theorem updSigs_value (a : TxIn) (sigs : List (Option Bytes)) :
    ({ a with signatures := sigs } : TxIn).value = a.value := rfl

theorem updSigs_scriptSig (a : TxIn) (sigs : List (Option Bytes)) :
    ({ a with signatures := sigs } : TxIn).scriptSig = a.scriptSig := rfl

theorem updSigs_pubkeys (a : TxIn) (sigs : List (Option Bytes)) :
    ({ a with signatures := sigs } : TxIn).pubkeys = a.pubkeys := rfl

theorem updSigs_x_pubkeys (a : TxIn) (sigs : List (Option Bytes)) :
    ({ a with signatures := sigs } : TxIn).x_pubkeys = a.x_pubkeys := rfl

theorem updSigs_num_sig (a : TxIn) (sigs : List (Option Bytes)) :
    ({ a with signatures := sigs } : TxIn).num_sig = a.num_sig := rfl

theorem updSigs_signatures (a : TxIn) (sigs : List (Option Bytes)) :
    ({ a with signatures := sigs } : TxIn).signatures = sigs := rfl

theorem updSigs_prevout_hash (a : TxIn) (sigs : List (Option Bytes)) :
    ({ a with signatures := sigs } : TxIn).prevout_hash = a.prevout_hash := rfl

theorem updSigs_est_size (a : TxIn) (sigs : List (Option Bytes)) :
    estimate_pubkey_size_for_txin { a with signatures := sigs } =
      estimate_pubkey_size_for_txin a := rfl

/-- Length of one serialized input when the legacy value trailer is
skipped. -/
theorem serialize_input_length (t : TxIn) (script : Bytes) (est : Bool)
    (hskip : ¬(t.value.isSome ∧ ¬(est || is_txin_complete t))) :
    (serialize_input t script est).length =
      t.prevout_hash.length + 4 + (varInt script.length).length +
        script.length + 4 := by
  unfold serialize_input serialize_outpoint
  rw [if_neg hskip]
  simp [int_to_hex_length]
  omega

theorem push_replicate_sig_length :
    (push_item (List.replicate 0x48 0x00)).length = 73 := by
  rw [push_item_length]
  simp

/-- The length of the filled-signature list of a complete input equals its
threshold. -/
theorem filled_len_eq (sigs : List (Option Bytes)) (ns : Nat)
    (hc : ((sigs.filter sigFilled).length == ns) = true) :
    ((sigs.filter sigFilled).map (fun s => s.getD [])).length = ns := by
  simpa using hc

/-- One input's final-mode serialization is no longer than its estimate-mode
serialization, given: completeness of the final input, no value on coinbase,
real signatures of at most `0x48` bytes, and cached public keys no longer
than the estimated pubkey size. -/
theorem serialize_input_le (E : Ext) (a : TxIn) (sigs : List (Option Bytes))
    (hcomp : a.type ≠ .coinbase →
      is_txin_complete { a with signatures := sigs } = true)
    (hcb : a.type = .coinbase → a.value = none)
    (hsig : ∀ s ∈ sigs, ∀ bb, s = some bb → bb.length ≤ 0x48)
    (hpk : a.type = .p2pkh ∨ a.type = .p2sh →
      ∃ pks, a.pubkeys = some pks ∧ pks.length = a.x_pubkeys.length ∧
        ∀ pk ∈ pks, ∃ bb, pk = PK.bytes bb ∧
          bb.length ≤ estimate_pubkey_size_for_txin a)
    (sE sF : Bytes) (hE : input_script E a true = .ok sE)
    (hF : input_script E { a with signatures := sigs } false = .ok sF) :
    (serialize_input { a with signatures := sigs } sF false).length ≤
      (serialize_input a sE true).length := by
  have hskipE : ¬(a.value.isSome ∧ ¬((true : Bool) || is_txin_complete a)) := by
    simp
  have hskipF : ¬(({ a with signatures := sigs } : TxIn).value.isSome ∧
      ¬((false : Bool) || is_txin_complete { a with signatures := sigs })) := by
    by_cases hty : a.type = .coinbase
    · rw [updSigs_value, hcb hty]
      simp
    · rw [hcomp hty]
      simp
  rw [serialize_input_length a sE true hskipE,
    serialize_input_length _ sF false hskipF, updSigs_prevout_hash]
  suffices hsc : sF.length ≤ sE.length by
    have := varInt_len_mono hsc
    omega
  -- reduce both runs of input_script
  unfold input_script at hE hF
  rw [updSigs_type] at hF
  cases hty : a.type with
  | coinbase =>
    rw [if_pos hty] at hE hF
    rw [updSigs_scriptSig] at hF
    cases hss : a.scriptSig with
    | none =>
      rw [hss] at hE
      simp [throw, throwThe, MonadExceptOf.throw] at hE
    | some sc =>
      rw [hss] at hE hF
      dsimp only at hE hF
      rw [pure_ok] at hE hF
      rw [← Except.ok.inj hE, ← Except.ok.inj hF]
  | unknown =>
    rw [if_neg (by simp [hty])] at hE hF
    rw [get_siglist_estimate, ok_bind] at hE
    rw [bind_ok_iff] at hF
    obtain ⟨⟨pkl, sl, t1⟩, hgs, hF⟩ := hF
    dsimp only at hE hF
    rw [hty] at hE
    rw [updSigs_type, hty] at hF
    dsimp only at hE hF
    rw [updSigs_scriptSig] at hF
    cases hss : a.scriptSig with
    | none =>
      rw [hss] at hE
      simp [throw, throwThe, MonadExceptOf.throw] at hE
    | some sc =>
      rw [hss] at hE hF
      dsimp only at hE hF
      rw [pure_ok] at hE hF
      rw [← Except.ok.inj hE, ← Except.ok.inj hF]
  | p2pk =>
    rw [if_neg (by simp [hty])] at hE hF
    rw [get_siglist_estimate, ok_bind] at hE
    rw [bind_ok_iff] at hF
    obtain ⟨⟨pkl, sl, t1⟩, hgs, hF⟩ := hF
    dsimp only at hE hF
    rw [hty] at hE
    rw [updSigs_type, hty] at hF
    dsimp only at hE hF
    rw [pure_ok] at hE hF
    have hcompb := hcomp (by simp [hty])
    have hsl := get_siglist_false_complete E _ pkl sl t1 hgs hcompb
    have hslb : ∀ x ∈ sl, x.length ≤ 0x48 := by
      intro x hx
      rw [hsl] at hx
      exact filled_sigs_bound sigs hsig x hx
    have hns : sl.length = a.num_sig := by
      rw [hsl]
      apply filled_len_eq
      unfold is_txin_complete at hcompb
      exact hcompb
    rw [← Except.ok.inj hE, ← Except.ok.inj hF]
    calc ((sl.map push_item).flatten).length
        ≤ sl.length * (1 + 0x48) := flatten_push_bound sl 0x48 (by norm_num) hslb
      _ = a.num_sig * 73 := by rw [hns]
      _ = (((List.replicate a.num_sig (List.replicate 0x48 0x00)).map
            push_item).flatten).length := by
          rw [flatten_push_replicate, push_replicate_sig_length]
  | p2pkh =>
    rw [if_neg (by simp [hty])] at hE hF
    rw [get_siglist_estimate, ok_bind] at hE
    dsimp only at hE
    rw [hty] at hE
    dsimp only at hE
    obtain ⟨pks, hpks, hpkl, hpkb⟩ := hpk (Or.inl hty)
    have hcompb := hcomp (by simp [hty])
    rw [get_siglist_complete E _ pks (by rw [updSigs_pubkeys]; exact hpks)
      hcompb, ok_bind] at hF
    dsimp only at hF
    rw [updSigs_type, hty] at hF
    dsimp only at hF
    -- the estimate key list is nonempty since the final key list is
    cases hxp : a.x_pubkeys.length with
    | zero =>
      cases hpkseq : pks with
      | nil =>
        rw [hpkseq] at hF
        simp [throw, throwThe, MonadExceptOf.throw] at hF
      | cons p ps =>
        rw [hpkseq, hxp] at hpkl
        simp at hpkl
    | succ k =>
      rw [hxp, List.replicate_succ] at hE
      dsimp only at hE
      rw [show pkBytes (PK.bytes (List.replicate
        (estimate_pubkey_size_for_txin a) 0x00)) = .ok (List.replicate
        (estimate_pubkey_size_for_txin a) 0x00) from rfl, ok_bind,
        pure_ok] at hE
      cases hpkseq : pks with
      | nil =>
        rw [hpkseq] at hF
        simp [throw, throwThe, MonadExceptOf.throw] at hF
      | cons p ps =>
        rw [hpkseq] at hF
        dsimp only at hF
        obtain ⟨bb, hbb, hbl⟩ := hpkb p (by rw [hpkseq]; simp)
        rw [hbb] at hF
        rw [show pkBytes (PK.bytes bb) = .ok bb from rfl, ok_bind,
          pure_ok] at hF
        have hsl := get_siglist_false_complete E
          { a with signatures := sigs } pks
          ((sigs.filter sigFilled).map (fun s => s.getD []))
          { a with signatures := sigs }
          (get_siglist_complete E _ pks (by rw [updSigs_pubkeys]; exact hpks)
            hcompb) hcompb
        have hslb := filled_sigs_bound sigs hsig
        have hns : ((sigs.filter sigFilled).map
            (fun s => s.getD [])).length = a.num_sig := by
          apply filled_len_eq
          unfold is_txin_complete at hcompb
          exact hcompb
        have hest76 : estimate_pubkey_size_for_txin a < 76 := by
          rcases est_size_cases a with h | h <;> omega
        rw [← Except.ok.inj hE, ← Except.ok.inj hF]
        simp only [List.length_append]
        have h1 : ((((sigs.filter sigFilled).map (fun s => s.getD [])).map
            push_item).flatten).length ≤ a.num_sig * 73 := by
          calc _ ≤ ((sigs.filter sigFilled).map
                (fun s => s.getD [])).length * (1 + 0x48) :=
              flatten_push_bound _ 0x48 (by norm_num) hslb
            _ = a.num_sig * 73 := by rw [hns]
        have h2 : (push_item bb).length ≤
            1 + estimate_pubkey_size_for_txin a := by
          rw [push_item_length, if_pos (by omega)]
          omega
        have h3 : (((List.replicate a.num_sig (List.replicate 0x48 0x00)).map
            push_item).flatten).length = a.num_sig * 73 := by
          rw [flatten_push_replicate, push_replicate_sig_length]
        have h4 : (push_item (List.replicate
            (estimate_pubkey_size_for_txin a) 0x00)).length =
            1 + estimate_pubkey_size_for_txin a := by
          rw [push_item_length, if_pos (by simp; omega)]
          simp
        omega
  | p2sh =>
    rw [if_neg (by simp [hty])] at hE hF
    rw [get_siglist_estimate, ok_bind] at hE
    dsimp only at hE
    rw [hty] at hE
    dsimp only at hE
    obtain ⟨pks, hpks, hpkl, hpkb⟩ := hpk (Or.inr hty)
    have hcompb := hcomp (by simp [hty])
    rw [get_siglist_complete E _ pks (by rw [updSigs_pubkeys]; exact hpks)
      hcompb, ok_bind] at hF
    dsimp only at hF
    rw [updSigs_type, hty] at hF
    dsimp only at hF
    rw [bind_ok_iff] at hE hF
    obtain ⟨rsE, hmsE, hE⟩ := hE
    obtain ⟨rsF, hmsF, hF⟩ := hF
    rw [pure_ok] at hE hF
    rw [updSigs_num_sig] at hmsF
    -- decompose both redeem scripts
    obtain ⟨hm1E, hm2E, bbsE, hmapE, hrsE⟩ := multisig_script_ok _ _ _ hmsE
    obtain ⟨hm1F, hm2F, bbsF, hmapF, hrsF⟩ := multisig_script_ok _ _ _ hmsF
    have hbbsE : bbsE = List.replicate a.x_pubkeys.length
        (List.replicate (estimate_pubkey_size_for_txin a) 0x00) := by
      rw [← List.map_replicate] at hmapE
      rw [mapM_pkBytes] at hmapE
      exact (Except.ok.inj hmapE).symm
    obtain ⟨bbs, hbbs, hbbsl, hbbsb⟩ := pks_extract pks _ hpkb
    have hbbsF : bbsF = bbs := by
      rw [hbbs, mapM_pkBytes] at hmapF
      exact (Except.ok.inj hmapF).symm
    -- the filled signature list
    have hsl := get_siglist_false_complete E
      { a with signatures := sigs } pks
      ((sigs.filter sigFilled).map (fun s => s.getD []))
      { a with signatures := sigs }
      (get_siglist_complete E _ pks (by rw [updSigs_pubkeys]; exact hpks)
        hcompb) hcompb
    have hslb := filled_sigs_bound sigs hsig
    have hns : ((sigs.filter sigFilled).map
        (fun s => s.getD [])).length = a.num_sig := by
      apply filled_len_eq
      unfold is_txin_complete at hcompb
      exact hcompb
    have hest76 : estimate_pubkey_size_for_txin a < 76 := by
      rcases est_size_cases a with h | h <;> omega
    -- redeem length comparison
    have hlen2 : bbs.length = a.x_pubkeys.length := by
      rw [hbbsl, hpkl]
    have hflatE : (((List.replicate a.x_pubkeys.length
        (List.replicate (estimate_pubkey_size_for_txin a) 0x00)).map
        push_item).flatten).length =
        a.x_pubkeys.length * (1 + estimate_pubkey_size_for_txin a) := by
      rw [flatten_push_replicate, push_item_length,
        if_pos (by simp only [List.length_replicate]; omega)]
      simp only [List.length_replicate]
    have hflatF : (((bbs.map push_item).flatten)).length ≤
        a.x_pubkeys.length * (1 + estimate_pubkey_size_for_txin a) := by
      calc (((bbs.map push_item).flatten)).length
          ≤ bbs.length * (1 + estimate_pubkey_size_for_txin a) :=
            flatten_push_bound bbs _ hest76 hbbsb
        _ = a.x_pubkeys.length * (1 + estimate_pubkey_size_for_txin a) := by
            rw [hlen2]
    have hredeem : rsF.length ≤ rsE.length := by
      rw [hrsE, hrsF, hbbsE, hbbsF, hpkl]
      simp only [List.length_append, List.length_replicate]
      rw [hflatE]
      omega
    rw [← Except.ok.inj hE, ← Except.ok.inj hF]
    simp only [List.length_append, List.length_cons]
    have h1 : ((((sigs.filter sigFilled).map (fun s => s.getD [])).map
        push_item).flatten).length ≤ a.num_sig * 73 := by
      calc _ ≤ ((sigs.filter sigFilled).map
            (fun s => s.getD [])).length * (1 + 0x48) :=
          flatten_push_bound _ 0x48 (by norm_num) hslb
        _ = a.num_sig * 73 := by rw [hns]
    have h3 : (((List.replicate a.num_sig (List.replicate 0x48 0x00)).map
        push_item).flatten).length = a.num_sig * 73 := by
      rw [flatten_push_replicate, push_replicate_sig_length]
    have hpush := push_item_len_mono hredeem
    omega

/-- The inputs of the final serialization, input by input, flatten to no more
bytes than those of the estimate-mode serialization. -/
theorem inputs_flatten_le (E : Ext) :
    ∀ (las lbs : List TxIn), List.Forall₂ sameButSigs las lbs →
    (∀ t ∈ lbs, t.type ≠ .coinbase → is_txin_complete t = true) →
    (∀ t ∈ lbs, t.type = .coinbase → t.value = none) →
    (∀ t ∈ lbs, ∀ s ∈ t.signatures, ∀ bb, s = some bb → bb.length ≤ 0x48) →
    (∀ t ∈ lbs, t.type = .p2pkh ∨ t.type = .p2sh →
      ∃ pks, t.pubkeys = some pks ∧ pks.length = t.x_pubkeys.length ∧
        ∀ pk ∈ pks, ∃ bb, pk = PK.bytes bb ∧
          bb.length ≤ estimate_pubkey_size_for_txin t) →
    ∀ insE insF : List Bytes,
    las.mapM (fun txin => do
      let script ← input_script E txin true
      pure (serialize_input txin script true)) = .ok insE →
    lbs.mapM (fun txin => do
      let script ← input_script E txin false
      pure (serialize_input txin script false)) = .ok insF →
    insF.flatten.length ≤ insE.flatten.length := by
  intro las lbs hrel
  induction hrel with
  | nil =>
    intro _ _ _ _ insE insF hE hF
    rw [show ([] : List TxIn).mapM _ = (pure [] : Except PyErr (List Bytes))
      from rfl] at hE hF
    rw [pure_ok] at hE hF
    rw [← Except.ok.inj hE, ← Except.ok.inj hF]
  | @cons a b las2 lbs2 hab _ ih =>
    intro h1 h2 h3 h4 insE insF hE hF
    rw [List.mapM_cons] at hE hF
    rw [bind_ok_iff] at hE hF
    obtain ⟨vE, hvE, hE⟩ := hE
    obtain ⟨vF, hvF, hF⟩ := hF
    rw [bind_ok_iff] at hE hF
    obtain ⟨insE2, hmE2, hE⟩ := hE
    obtain ⟨insF2, hmF2, hF⟩ := hF
    rw [pure_ok] at hE hF
    rw [bind_ok_iff] at hvE hvF
    obtain ⟨sE, hsE, hvE⟩ := hvE
    obtain ⟨sF, hsF, hvF⟩ := hvF
    rw [pure_ok] at hvE hvF
    obtain ⟨sigs, rfl⟩ := hab
    have hone := serialize_input_le E a sigs
      (fun h => h1 { a with signatures := sigs } (List.mem_cons_self _ _) h)
      (fun h => h2 { a with signatures := sigs } (List.mem_cons_self _ _) h)
      (fun sg hsg bb hbb =>
        h3 { a with signatures := sigs } (List.mem_cons_self _ _) sg hsg bb hbb)
      (fun h => h4 { a with signatures := sigs } (List.mem_cons_self _ _) h)
      sE sF hsE hsF
    have htail := ih (fun t ht hh => h1 t (List.mem_cons_of_mem _ ht) hh)
      (fun t ht hh => h2 t (List.mem_cons_of_mem _ ht) hh)
      (fun t ht sg hsg bb hbb =>
        h3 t (List.mem_cons_of_mem _ ht) sg hsg bb hbb)
      (fun t ht hh => h4 t (List.mem_cons_of_mem _ ht) hh)
      insE2 insF2 hmE2 hmF2
    rw [← Except.ok.inj hE, ← Except.ok.inj hF]
    simp only [List.flatten_cons, List.length_append]
    rw [← Except.ok.inj hvE, ← Except.ok.inj hvF]
    omega

/-- C9 amended: the estimate-mode serialization of a transaction is at least
as long as the final serialization of the same logical transaction (same
inputs up to signature-slot contents, same outputs, version, locktime) once
every non-coinbase input is complete, provided every real signature is at
most `0x48` bytes (the placeholder length) and every cached public key is no
longer than the estimated public-key size for its input — the condition the
mixed-key counterexample violates.  Coinbase inputs must carry no value, as
parsed ones never do. -/
theorem final_size_le_estimated_size (E : Ext) (tx txF : Transaction)
    (hver : txF.version = tx.version) (hlock : txF.locktime = tx.locktime)
    (houts : txF.outputs = tx.outputs)
    (hrel : List.Forall₂ sameButSigs tx.inputs txF.inputs)
    (hcomp : ∀ t ∈ txF.inputs, t.type ≠ .coinbase → is_txin_complete t = true)
    (hcb : ∀ t ∈ txF.inputs, t.type = .coinbase → t.value = none)
    (hsig : ∀ t ∈ txF.inputs, ∀ s ∈ t.signatures, ∀ bb, s = some bb →
      bb.length ≤ 0x48)
    (hpk : ∀ t ∈ txF.inputs, t.type = .p2pkh ∨ t.type = .p2sh →
      ∃ pks, t.pubkeys = some pks ∧ pks.length = t.x_pubkeys.length ∧
        ∀ pk ∈ pks, ∃ bb, pk = PK.bytes bb ∧
          bb.length ≤ estimate_pubkey_size_for_txin t)
    (bE bF : Bytes) (hE : serialize E tx true = .ok bE)
    (hF : serialize E txF false = .ok bF) :
    bF.length ≤ bE.length := by
  unfold serialize at hE hF
  rw [bind_ok_iff] at hE hF
  obtain ⟨insE, hmE, hE⟩ := hE
  obtain ⟨insF, hmF, hF⟩ := hF
  rw [pure_ok] at hE hF
  have hflat := inputs_flatten_le E tx.inputs txF.inputs hrel hcomp hcb hsig
    hpk insE insF hmE hmF
  have hlen : tx.inputs.length = txF.inputs.length := hrel.length_eq
  rw [← Except.ok.inj hE, ← Except.ok.inj hF]
  simp only [List.length_append, int_to_hex_length, hver, hlock, houts, hlen]
  omega

/-- Witness for the amended C9 on a compliant 1-of-1 p2pkh transaction. -/
theorem final_size_le_estimated_size_witness :
    ((serialize trivialExt estOkTxFinal false).toOption.getD []).length ≤
    ((serialize trivialExt estOkTx true).toOption.getD []).length := by
  have hE : serialize trivialExt estOkTx true =
      .ok ((serialize trivialExt estOkTx true).toOption.getD []) := by decide
  have hF : serialize trivialExt estOkTxFinal false =
      .ok ((serialize trivialExt estOkTxFinal false).toOption.getD []) := by
    decide
  refine final_size_le_estimated_size trivialExt estOkTx estOkTxFinal rfl rfl
    rfl (List.Forall₂.cons ⟨_, rfl⟩ List.Forall₂.nil) ?_ ?_ ?_ ?_ _ _ hE hF
  · intro t ht hh
    obtain rfl : t = { estOkTxIn with
        signatures := [some (0x30 :: List.replicate 70 0x01)] } := by
      simpa [estOkTxFinal] using ht
    decide
  · intro t ht hh
    obtain rfl : t = { estOkTxIn with
        signatures := [some (0x30 :: List.replicate 70 0x01)] } := by
      simpa [estOkTxFinal] using ht
    exact absurd hh (by decide)
  · intro t ht sg hsg bb hbb
    obtain rfl : t = { estOkTxIn with
        signatures := [some (0x30 :: List.replicate 70 0x01)] } := by
      simpa [estOkTxFinal] using ht
    obtain rfl : sg = some (0x30 :: List.replicate 70 0x01) := by
      simpa using hsg
    obtain rfl : bb = 0x30 :: List.replicate 70 0x01 := Option.some.inj hbb.symm
    decide
  · intro t ht hh
    obtain rfl : t = { estOkTxIn with
        signatures := [some (0x30 :: List.replicate 70 0x01)] } := by
      simpa [estOkTxFinal] using ht
    refine ⟨[PK.bytes (0x02 :: List.replicate 32 0xcc)], rfl, rfl, ?_⟩
    intro pk hpk2
    obtain rfl : pk = PK.bytes (0x02 :: List.replicate 32 0xcc) := by
      simpa using hpk2
    exact ⟨_, rfl, by decide⟩

theorem error_bind {α β : Type} (e : PyErr) (f : α → Except PyErr β) :
    (Except.error e : Except PyErr α) >>= f = .error e := rfl

theorem int_to_hex_nHashType : int_to_hex nHashType 4 = [0x41, 0, 0, 0] := by
  decide

/-- C2: with input `i` present and its preimage script determined,
`serialize_preimage(i)` is exactly the concatenation of the 4-byte version,
the double-hash of all serialized outpoints, the double-hash of all 4-byte
sequence numbers, input `i`'s outpoint, the compact-size-length-prefixed
preimage script, the 8-byte spent value, the 4-byte sequence number, the
double-hash of all serialized outputs, the 4-byte locktime and the 4-byte
sighash trailer `0x41 = 0x01 | SIGHASH_FORKID` with fork id 0; when the
spent value is absent it fails with `InputValueMissing`; and the preimage
script is, by type: the p2pkh locking script of the stored address, the
caller-supplied script-code for unknown, the p2pk output script, or the
rebuilt multisig redeem script for p2sh. -/
theorem serialize_preimage_structure (E : Ext) (tx : Transaction) (i : Nat)
    (txin : TxIn) (hi : tx.inputs.get? i = some txin)
    (ps : Bytes) (hps : get_preimage_script E txin = .ok ps) :
    (∀ v, txin.value = some v →
      serialize_preimage E tx i = .ok (
        int_to_hex tx.version 4 ++
        E.sha256d (tx.inputs.map serialize_outpoint).flatten ++
        E.sha256d (tx.inputs.map fun t => int_to_hex t.sequence 4).flatten ++
        serialize_outpoint txin ++
        (varInt ps.length ++ ps) ++
        int_to_hex v 8 ++
        int_to_hex txin.sequence 4 ++
        E.sha256d (tx.outputs.map txOut_bytes).flatten ++
        int_to_hex tx.locktime 4 ++
        [0x41, 0x00, 0x00, 0x00])) ∧
    (txin.value = none →
      serialize_preimage E tx i = .error .inputValueMissing) ∧
    (∀ h20, txin.type = .p2pkh → txin.address = .p2pkhAddress h20 →
      ps = [0x76, 0xa9, 0x14] ++ h20 ++ [0x88, 0xac]) ∧
    (∀ sc, txin.type = .unknown → txin.scriptCode = some sc → ps = sc) ∧
    (∀ pk r2, txin.type = .p2pk → txin.pubkeys = some (PK.bytes pk :: r2) →
      ps = push_item pk ++ [OP_CHECKSIG]) ∧
    (∀ pks, txin.type = .p2sh → txin.pubkeys = some pks →
      multisig_script pks txin.num_sig = .ok ps) := by
  refine ⟨?_, ?_, ?_, ?_, ?_, ?_⟩
  · intro v hv
    unfold serialize_preimage
    rw [hi]
    simp only [hps, hv, int_to_hex_nHashType]
  · intro hv
    unfold serialize_preimage
    rw [hi]
    simp only [hps, hv]
  · intro h20 hty haddr
    unfold get_preimage_script at hps
    rw [hty, haddr] at hps
    exact (Except.ok.inj hps).symm
  · intro sc hty hsc
    unfold get_preimage_script at hps
    rw [hty, hsc] at hps
    exact (Except.ok.inj hps).symm
  · intro pk r2 hty hpk
    unfold get_preimage_script at hps
    rw [hty, hpk] at hps
    simp only [pkBytes, ok_bind] at hps
    exact (Except.ok.inj hps).symm
  · intro pks hty hpk
    unfold get_preimage_script at hps
    rw [hty] at hps
    unfold get_sorted_pubkeys at hps
    rw [hpk] at hps
    simpa only [ok_bind] using hps

/-- Witness for C2: the preimage of a concrete p2pkh input and the
missing-value failure on the same input without its value. -/
theorem serialize_preimage_structure_witness :
    serialize_preimage trivialExt preimageTx 0 = .ok (
      int_to_hex preimageTx.version 4 ++
      trivialExt.sha256d (preimageTx.inputs.map serialize_outpoint).flatten ++
      trivialExt.sha256d
        (preimageTx.inputs.map fun t => int_to_hex t.sequence 4).flatten ++
      serialize_outpoint preimageTxIn ++
      (varInt ([0x76, 0xa9, 0x14] ++ List.replicate 20 0xaa ++
          [0x88, 0xac] : Bytes).length ++
        ([0x76, 0xa9, 0x14] ++ List.replicate 20 0xaa ++ [0x88, 0xac])) ++
      int_to_hex 50000 8 ++
      int_to_hex preimageTxIn.sequence 4 ++
      trivialExt.sha256d (preimageTx.outputs.map txOut_bytes).flatten ++
      int_to_hex preimageTx.locktime 4 ++
      [0x41, 0x00, 0x00, 0x00]) ∧
    serialize_preimage trivialExt preimageTxNoValue 0 =
      .error .inputValueMissing := by
  constructor
  · exact (serialize_preimage_structure trivialExt preimageTx 0 preimageTxIn
      rfl ([0x76, 0xa9, 0x14] ++ List.replicate 20 0xaa ++ [0x88, 0xac])
      rfl).1 50000 rfl
  · exact (serialize_preimage_structure trivialExt preimageTxNoValue 0
      preimageTxInNoValue rfl
      ([0x76, 0xa9, 0x14] ++ List.replicate 20 0xaa ++ [0x88, 0xac])
      rfl).2.1 rfl

/-- Witness for C5 at a complete and an incomplete transaction. -/
theorem update_signatures_cases_witness :
    update_signatures trivialExt completeTx [[0x30]] = (completeTx, none) ∧
    update_signatures trivialExt incompleteTx [] =
      (incompleteTx, some .runtimeError) :=
  ⟨(update_signatures_cases trivialExt completeTx [[0x30]]).1 (by decide),
   (update_signatures_cases trivialExt incompleteTx []).2 (by decide)
     (by decide)⟩

/-! Round-trip (C7): tokenizer composition lemmas. -/

/-- Indexing an append at the junction point. -/
theorem getD_at_junction {α : Type} (l1 : List α) (x : α) (l2 : List α)
    (d : α) : (l1 ++ x :: l2).getD l1.length d = x := by
  induction l1 with
  | nil => rfl
  | cons a as ih => simpa using ih

/-- Tokenization at or past the end of the script yields nothing. -/
theorem script_GetOp_end (bs : Bytes) (i : Nat) (h : bs.length ≤ i) :
    script_GetOp bs i = [] := by
  rw [script_GetOp_eq, if_neg (by omega)]

theorem pushOpcode_le (a : Bytes) : pushOpcode a ≤ OP_PUSHDATA4 := by
  unfold pushOpcode OP_PUSHDATA1 OP_PUSHDATA2 OP_PUSHDATA4
  split_ifs <;> omega

theorem pushOpcode_pos (a : Bytes) (h : a ≠ []) : 0 < pushOpcode a := by
  have hl : 0 < a.length := List.length_pos.mpr h
  unfold pushOpcode OP_PUSHDATA1 OP_PUSHDATA2 OP_PUSHDATA4
  split_ifs <;> omega

/-- One minimal push at the read position yields one data token carrying the
pushed bytes and moves past the push. -/
theorem script_GetOp_push (pre a rest : Bytes) (h32 : a.length < 2 ^ 32) :
    script_GetOp (pre ++ (push_item a ++ rest)) pre.length =
      (pushOpcode a, some a, pre.length + (push_item a).length) ::
        script_GetOp (pre ++ (push_item a ++ rest))
          (pre.length + (push_item a).length) := by
  by_cases h1 : a.length < 76
  · have hp : push_item a = a.length :: a := by
      unfold push_item; rw [if_pos h1]
    have hop : pushOpcode a = a.length := by
      unfold pushOpcode; rw [if_pos h1]
    rw [hp, hop]
    rw [show pre ++ ((a.length :: a) ++ rest) =
        pre ++ (a.length :: (a ++ rest)) by simp]
    rw [script_GetOp_eq]
    rw [if_pos (show pre.length < (pre ++ (a.length :: (a ++ rest))).length
      by simp)]
    dsimp only
    rw [getD_at_junction]
    rw [if_pos (show a.length ≤ OP_PUSHDATA4 by
        simp only [OP_PUSHDATA4]; omega),
      if_neg (show ¬ a.length = OP_PUSHDATA1 by
        simp only [OP_PUSHDATA1]; omega),
      if_neg (show ¬ a.length = OP_PUSHDATA2 by
        simp only [OP_PUSHDATA2]; omega),
      if_neg (show ¬ a.length = OP_PUSHDATA4 by
        simp only [OP_PUSHDATA4]; omega)]
    have hsl : pyslice (pre ++ (a.length :: (a ++ rest)))
        (pre.length + 1) (pre.length + 1 + a.length) = a := by
      have := pyslice_append (pre ++ [a.length]) a rest
      simpa using this
    rw [hsl, List.length_cons,
      show pre.length + 1 + a.length = pre.length + (a.length + 1) by omega]
  · by_cases h2 : a.length < 256
    · have hp : push_item a = OP_PUSHDATA1 :: a.length :: a := by
        unfold push_item; rw [if_neg h1, if_pos h2]
      have hop : pushOpcode a = OP_PUSHDATA1 := by
        unfold pushOpcode; rw [if_neg h1, if_pos h2]
      rw [hp, hop]
      rw [show pre ++ ((OP_PUSHDATA1 :: a.length :: a) ++ rest) =
          pre ++ (OP_PUSHDATA1 :: (a.length :: (a ++ rest))) by simp]
      rw [script_GetOp_eq]
      rw [if_pos (show pre.length <
          (pre ++ (OP_PUSHDATA1 :: (a.length :: (a ++ rest)))).length by simp)]
      dsimp only
      rw [getD_at_junction]
      rw [if_pos (show OP_PUSHDATA1 ≤ OP_PUSHDATA4 by decide), if_pos rfl]
      rw [if_pos (show pre.length + 1 <
          (pre ++ (OP_PUSHDATA1 :: (a.length :: (a ++ rest)))).length by
        simp)]
      have hg2 : (pre ++ (OP_PUSHDATA1 :: (a.length :: (a ++ rest)))).getD
          (pre.length + 1) 0 = a.length := by
        have := getD_at_junction (pre ++ [OP_PUSHDATA1]) a.length (a ++ rest) 0
        simpa using this
      rw [hg2]
      have hsl : pyslice (pre ++ (OP_PUSHDATA1 :: (a.length :: (a ++ rest))))
          (pre.length + 2) (pre.length + 2 + a.length) = a := by
        have := pyslice_append (pre ++ [OP_PUSHDATA1, a.length]) a rest
        simpa [Nat.add_assoc] using this
      rw [hsl]
      simp only [List.length_cons]
      rw [show pre.length + 2 + a.length = pre.length + (a.length + 1 + 1)
        by omega]
    · by_cases h3 : a.length < 65536
      · have hp : push_item a = OP_PUSHDATA2 :: (leBytes a.length 2 ++ a) := by
          unfold push_item; rw [if_neg h1, if_neg h2, if_pos h3]
        have hop : pushOpcode a = OP_PUSHDATA2 := by
          unfold pushOpcode; rw [if_neg h1, if_neg h2, if_pos h3]
        rw [hp, hop]
        rw [show pre ++ ((OP_PUSHDATA2 :: (leBytes a.length 2 ++ a)) ++ rest) =
            pre ++ (OP_PUSHDATA2 :: (leBytes a.length 2 ++ (a ++ rest)))
          by simp]
        rw [script_GetOp_eq]
        rw [if_pos (show pre.length < (pre ++ (OP_PUSHDATA2 ::
            (leBytes a.length 2 ++ (a ++ rest)))).length by simp)]
        dsimp only
        rw [getD_at_junction]
        rw [if_pos (show OP_PUSHDATA2 ≤ OP_PUSHDATA4 by decide),
          if_neg (show ¬ OP_PUSHDATA2 = OP_PUSHDATA1 by decide), if_pos rfl]
        rw [if_pos (show pre.length + 3 ≤ (pre ++ (OP_PUSHDATA2 ::
            (leBytes a.length 2 ++ (a ++ rest)))).length by
          simp [leBytes_length])]
        have hsl2 : pyslice (pre ++ (OP_PUSHDATA2 ::
            (leBytes a.length 2 ++ (a ++ rest))))
            (pre.length + 1) (pre.length + 3) = leBytes a.length 2 := by
          have := pyslice_append (pre ++ [OP_PUSHDATA2]) (leBytes a.length 2)
            (a ++ rest)
          simpa [leBytes_length, Nat.add_assoc] using this
        rw [hsl2, leNum_leBytes a.length 2 (by norm_num; omega)]
        have hsl : pyslice (pre ++ (OP_PUSHDATA2 ::
            (leBytes a.length 2 ++ (a ++ rest))))
            (pre.length + 3) (pre.length + 3 + a.length) = a := by
          have := pyslice_append (pre ++ (OP_PUSHDATA2 :: leBytes a.length 2))
            a rest
          simpa [leBytes_length, Nat.add_assoc] using this
        rw [hsl]
        simp only [List.length_cons, List.length_append, leBytes_length]
        rw [show pre.length + 3 + a.length = pre.length + (2 + a.length + 1)
          by omega]
      · have hp : push_item a = OP_PUSHDATA4 :: (leBytes a.length 4 ++ a) := by
          unfold push_item; rw [if_neg h1, if_neg h2, if_neg h3]
        have hop : pushOpcode a = OP_PUSHDATA4 := by
          unfold pushOpcode; rw [if_neg h1, if_neg h2, if_neg h3]
        rw [hp, hop]
        rw [show pre ++ ((OP_PUSHDATA4 :: (leBytes a.length 4 ++ a)) ++ rest) =
            pre ++ (OP_PUSHDATA4 :: (leBytes a.length 4 ++ (a ++ rest)))
          by simp]
        rw [script_GetOp_eq]
        rw [if_pos (show pre.length < (pre ++ (OP_PUSHDATA4 ::
            (leBytes a.length 4 ++ (a ++ rest)))).length by simp)]
        dsimp only
        rw [getD_at_junction]
        rw [if_pos (show OP_PUSHDATA4 ≤ OP_PUSHDATA4 by decide),
          if_neg (show ¬ OP_PUSHDATA4 = OP_PUSHDATA1 by decide),
          if_neg (show ¬ OP_PUSHDATA4 = OP_PUSHDATA2 by decide), if_pos rfl]
        rw [if_pos (show pre.length + 5 ≤ (pre ++ (OP_PUSHDATA4 ::
            (leBytes a.length 4 ++ (a ++ rest)))).length by
          simp [leBytes_length])]
        have hsl4 : pyslice (pre ++ (OP_PUSHDATA4 ::
            (leBytes a.length 4 ++ (a ++ rest))))
            (pre.length + 1) (pre.length + 5) = leBytes a.length 4 := by
          have := pyslice_append (pre ++ [OP_PUSHDATA4]) (leBytes a.length 4)
            (a ++ rest)
          simpa [leBytes_length, Nat.add_assoc] using this
        rw [hsl4, leNum_leBytes a.length 4 (by norm_num; omega)]
        have hsl : pyslice (pre ++ (OP_PUSHDATA4 ::
            (leBytes a.length 4 ++ (a ++ rest))))
            (pre.length + 5) (pre.length + 5 + a.length) = a := by
          have := pyslice_append (pre ++ (OP_PUSHDATA4 :: leBytes a.length 4))
            a rest
          simpa [leBytes_length, Nat.add_assoc] using this
        rw [hsl]
        simp only [List.length_cons, List.length_append, leBytes_length]
        rw [show pre.length + 5 + a.length = pre.length + (4 + a.length + 1)
          by omega]

/-- A non-push opcode at the read position yields one dataless token. -/
theorem script_GetOp_op (pre : Bytes) (c : Nat) (rest : Bytes)
    (hc : OP_PUSHDATA4 < c) :
    script_GetOp (pre ++ (c :: rest)) pre.length =
      (c, none, pre.length + 1) ::
        script_GetOp (pre ++ (c :: rest)) (pre.length + 1) := by
  rw [script_GetOp_eq]
  rw [if_pos (show pre.length < (pre ++ (c :: rest)).length by simp)]
  dsimp only
  rw [getD_at_junction]
  rw [if_neg (show ¬ c ≤ OP_PUSHDATA4 by omega)]

/-- A run of minimal pushes tokenizes to `pushToksFrom` and continues past
the run. -/
theorem script_GetOp_push_list (pre : Bytes) (items : List Bytes)
    (rest : Bytes) (h32 : ∀ a ∈ items, a.length < 2 ^ 32) :
    script_GetOp (pre ++ ((items.map push_item).flatten ++ rest)) pre.length =
      pushToksFrom pre.length items ++
        script_GetOp (pre ++ ((items.map push_item).flatten ++ rest))
          (pre.length + ((items.map push_item).flatten).length) := by
  induction items generalizing pre with
  | nil => simp [pushToksFrom]
  | cons a as ih =>
    have h32a : a.length < 2 ^ 32 := h32 a (by simp)
    have h32as : ∀ x ∈ as, x.length < 2 ^ 32 := fun x hx => h32 x (by simp [hx])
    rw [show pre ++ (((a :: as).map push_item).flatten ++ rest) =
        pre ++ (push_item a ++ ((as.map push_item).flatten ++ rest)) by simp]
    rw [script_GetOp_push pre a _ h32a]
    have hih := ih (pre ++ push_item a) h32as
    rw [show (pre ++ push_item a) ++ ((as.map push_item).flatten ++ rest) =
        pre ++ (push_item a ++ ((as.map push_item).flatten ++ rest)) by simp]
      at hih
    rw [show (pre ++ push_item a).length = pre.length + (push_item a).length
      by simp] at hih
    rw [hih]
    simp only [pushToksFrom, List.cons_append, List.map_cons,
      List.flatten_cons, List.length_append]
    rw [show pre.length + (push_item a).length +
        ((as.map push_item).flatten).length =
        pre.length + ((push_item a).length +
        ((as.map push_item).flatten).length) by omega]

theorem pushToksFrom_length (i : Nat) (items : List Bytes) :
    (pushToksFrom i items).length = items.length := by
  induction items generalizing i with
  | nil => rfl
  | cons a as ih => simp [pushToksFrom, ih]

theorem pushToksFrom_append (i : Nat) (l1 l2 : List Bytes) :
    pushToksFrom i (l1 ++ l2) =
      pushToksFrom i l1 ++
        pushToksFrom (i + ((l1.map push_item).flatten).length) l2 := by
  induction l1 generalizing i with
  | nil => simp [pushToksFrom]
  | cons a as ih =>
    simp only [List.cons_append, pushToksFrom, List.append_eq]
    rw [ih]
    simp only [List.map_cons, List.flatten_cons, List.length_append,
      List.cons_append]
    rw [show i + ((push_item a).length + ((as.map push_item).flatten).length) =
        i + (push_item a).length + ((as.map push_item).flatten).length
      by omega]

/-- Extracting the pushed data back out of a run of push tokens. -/
theorem pushToks_mapM (i : Nat) (items : List Bytes) :
    (pushToksFrom i items).mapM (fun t =>
      match t.2.1 with
      | some v => (pure v : Except PyErr Bytes)
      | none => throw PyErr.typeError) = .ok items := by
  induction items generalizing i with
  | nil => rfl
  | cons a as ih =>
    simp only [pushToksFrom]
    rw [List.mapM_cons, ih]
    rfl

theorem match_decoded_true_iff (dec : List Tok) (tm : List Nat) :
    match_decoded dec tm = true ↔
      dec.length = tm.length ∧
      ∀ p ∈ List.zip dec tm,
        (p.2 = OP_PUSHDATA4 ∧ p.1.1 ≤ OP_PUSHDATA4 ∧ 0 < p.1.1) ∨
          p.2 = p.1.1 := by
  unfold match_decoded
  simp only [Bool.and_eq_true, beq_iff_eq, List.all_eq_true,
    Bool.or_eq_true, decide_eq_true_eq]
  constructor
  · rintro ⟨h1, h2⟩
    refine ⟨h1, fun p hp => ?_⟩
    rcases h2 p hp with h | h
    · exact Or.inl ⟨h.1.1, h.1.2, h.2⟩
    · exact Or.inr h
  · rintro ⟨h1, h2⟩
    refine ⟨h1, fun p hp => ?_⟩
    rcases h2 p hp with h | h
    · exact Or.inl ⟨⟨h.1, h.2.1⟩, h.2.2⟩
    · exact Or.inr h

theorem match_decoded_ne (dec : List Tok) (tm : List Nat)
    (h : match_decoded dec tm = true → False) :
    match_decoded dec tm = false := by
  cases hmd : match_decoded dec tm
  · rfl
  · exact absurd hmd h

theorem match_decoded_false_of_length (dec : List Tok) (tm : List Nat)
    (h : dec.length ≠ tm.length) : match_decoded dec tm = false :=
  match_decoded_ne dec tm fun hm =>
    h ((match_decoded_true_iff dec tm).mp hm).1

/-- Every (push token, wildcard) pair from a run of nonempty pushes passes
the `_match_decoded` wildcard test. -/
theorem pushToks_zip_wildcard (i : Nat) (items : List Bytes)
    (h : ∀ a ∈ items, a ≠ []) :
    ∀ p ∈ List.zip (pushToksFrom i items)
        (List.replicate items.length OP_PUSHDATA4),
      (p.2 = OP_PUSHDATA4 ∧ p.1.1 ≤ OP_PUSHDATA4 ∧ 0 < p.1.1) ∨
        p.2 = p.1.1 := by
  induction items generalizing i with
  | nil => simp [pushToksFrom]
  | cons a as ih =>
    intro p hp
    simp only [pushToksFrom, List.length_cons, List.replicate_succ,
      List.zip_cons_cons] at hp
    rcases List.mem_cons.mp hp with rfl | hp
    · exact Or.inl ⟨rfl, pushOpcode_le a, pushOpcode_pos a (h a (by simp))⟩
    · exact ih (i + (push_item a).length) (fun x hx => h x (by simp [hx]))
        p hp

/-- The spend-script template `OP_0 ‖ push×k` matches the token run of the
rendered placeholder byte followed by `k` nonempty pushes. -/
theorem match_op0_run (i j : Nat) (items : List Bytes)
    (h : ∀ a ∈ items, a ≠ []) :
    match_decoded ((OP_0, some ([] : Bytes), j) :: pushToksFrom i items)
      (OP_0 :: List.replicate items.length OP_PUSHDATA4) = true := by
  rw [match_decoded_true_iff]
  refine ⟨by simp [pushToksFrom_length], fun p hp => ?_⟩
  rw [List.zip_cons_cons] at hp
  rcases List.mem_cons.mp hp with rfl | hp
  · exact Or.inr rfl
  · exact pushToks_zip_wildcard i items h p hp

/-! Round-trip (C7): rendering lemmas — what `input_script` emits on each
well-formed input shape. -/

theorem sigFilled_some (b : Bytes) (h : b ≠ []) : sigFilled (some b) = true := by
  cases b with
  | nil => exact absurd rfl h
  | cons x xs => rfl

/-- `multisig_script` over plain byte keys renders `p2shRaw`. -/
theorem multisig_script_bytes (bbs : List Bytes) (m : Nat)
    (h1 : 1 ≤ m) (h2 : m ≤ bbs.length) :
    multisig_script (bbs.map PK.bytes) m = .ok (p2shRaw m bbs) := by
  unfold multisig_script
  rw [if_pos (show 1 ≤ m ∧ m ≤ (bbs.map PK.bytes).length by
    constructor
    · exact h1
    · simpa using h2)]
  rw [show ((bbs.map PK.bytes).mapM pkBytes >>= fun pks =>
      (pure (push_int m ++ (pks.map push_item).flatten ++
        push_int (bbs.map PK.bytes).length ++ [OP_CHECKMULTISIG]) :
        Except PyErr Bytes)) =
      ((bbs.map PK.bytes).mapM pkBytes >>= fun pks =>
      (pure (push_int m ++ (pks.map push_item).flatten ++
        push_int (bbs.map PK.bytes).length ++ [OP_CHECKMULTISIG]) :
        Except PyErr Bytes)) from rfl]
  rw [mapM_pkBytes, ok_bind]
  simp [p2shRaw]
  rfl

/-- Filled slots of an all-filled nonempty-signature list are the signatures
themselves. -/
theorem filter_filled_map_some (sigs : List Bytes)
    (h : ∀ b ∈ sigs, b ≠ []) :
    ((sigs.map some).filter sigFilled).map (fun s => s.getD []) = sigs := by
  induction sigs with
  | nil => rfl
  | cons b bs ih =>
    simp only [List.map_cons, List.filter_cons,
      sigFilled_some b (h b (by simp)), if_true]
    rw [ih fun x hx => h x (by simp [hx])]
    rfl

theorem parse_sig_map_some (sigs : List Bytes)
    (h : ∀ b ∈ sigs, b ≠ [0xff]) : parse_sig sigs = sigs.map some := by
  unfold parse_sig
  induction sigs with
  | nil => rfl
  | cons b bs ih =>
    simp only [List.map_cons, if_neg (h b (by simp))]
    rw [ih fun x hx => h x (by simp [hx])]

/-- `_parse_sig` inverts the per-slot rendering of well-formed slots. -/
theorem parse_sig_sigItems (sigs : List (Option Bytes))
    (h : ∀ sl ∈ sigs, sigSlotOK sl) :
    parse_sig (sigs.map sigItemOf) = sigs := by
  induction sigs with
  | nil => rfl
  | cons sl sls ih =>
    have htl := ih fun x hx => h x (by simp [hx])
    rcases h sl (by simp) with rfl | ⟨b, rfl, hb1, hb2, _⟩
    · unfold parse_sig at htl ⊢
      simp only [List.map_cons]
      rw [show sigItemOf none = [0xff] from rfl]
      simp [htl]
    · unfold parse_sig at htl ⊢
      simp only [List.map_cons]
      rw [show sigItemOf (some b) = b from by
        unfold sigItemOf
        rw [if_pos (sigFilled_some b hb1)]
        rfl]
      simp only [if_neg hb2]
      rw [htl]

/-- A single filled slot against threshold 1 is complete. -/
theorem complete_single (t : TxIn) (s : Bytes) (hsig : t.signatures = [some s])
    (hs : s ≠ []) (hns : t.num_sig = 1) : is_txin_complete t = true := by
  unfold is_txin_complete
  rw [hsig, hns]
  simp [List.filter_cons, sigFilled_some s hs]

/-- `get_siglist` on an incomplete input with cached keys: the raw
`x_pubkeys` and the placeholder-padded slot renderings. -/
theorem get_siglist_incomplete (E : Ext) (t : TxIn) (pks : List PK)
    (hp : t.pubkeys = some pks)
    (hnc : (t.signatures.filter sigFilled).length ≠ t.num_sig) :
    get_siglist E t false =
      .ok (t.x_pubkeys, t.signatures.map sigItemOf, t) := by
  unfold get_siglist get_sorted_pubkeys
  rw [hp]
  simp only [Bool.false_eq_true, if_false, ok_bind]
  rw [if_neg (show ¬ (((t.signatures.filter sigFilled).map
      (fun s => s.getD [])).length == t.num_sig) = true by
    simpa using hnc)]
  rfl

theorem filter_filled_all (sigs : List Bytes) (h : ∀ b ∈ sigs, b ≠ []) :
    (sigs.map some).filter sigFilled = sigs.map some := by
  induction sigs with
  | nil => rfl
  | cons b bs ih =>
    simp only [List.map_cons, List.filter_cons,
      sigFilled_some b (h b (by simp)), if_true]
    rw [ih fun x hx => h x (by simp [hx])]

/-- On every well-formed input, final-mode `input_script` succeeds and
re-renders exactly the stored `scriptSig`. -/
theorem input_script_WF (E : Ext) (t : TxIn) (h : WFin E t) (ss : Bytes)
    (hss : t.scriptSig = some ss) : input_script E t false = .ok ss := by
  obtain ⟨-, -, -, -, -, h6⟩ := h
  cases ht : t.type with
  | coinbase =>
    unfold input_script
    rw [ht, if_pos rfl, hss]
    rfl
  | unknown =>
    rw [ht] at h6
    dsimp only at h6
    obtain ⟨ss0, hss0, hteq, -⟩ := h6
    have hp : t.pubkeys = some [] := by rw [hteq]; rfl
    have hcm : is_txin_complete t = true := by
      unfold is_txin_complete
      rw [show t.signatures = [] from by rw [hteq]; rfl,
        show t.num_sig = 0 from by rw [hteq]; rfl]
      rfl
    unfold input_script
    rw [ht, if_neg (show ¬ (InType.unknown = InType.coinbase) by decide)]
    rw [get_siglist_complete E t [] hp hcm, ok_bind]
    dsimp only
    rw [hss]
    rfl
  | p2pk =>
    rw [ht] at h6
    dsimp only at h6
    obtain ⟨s, hsig, hs, -, hns, -, hpk, -, -, -, -, hssf⟩ := h6
    rw [hss] at hssf
    obtain rfl : ss = push_item s := (Option.some.inj hssf)
    unfold input_script
    rw [ht, if_neg (show ¬ (InType.p2pk = InType.coinbase) by decide)]
    rw [get_siglist_complete E t [PK.placeholder] hpk
      (complete_single t s hsig hs hns)]
    rw [ok_bind]
    dsimp only
    rw [hsig]
    simp [List.filter_cons, sigFilled_some s hs]
    rfl
  | p2pkh =>
    rw [ht] at h6
    dsimp only at h6
    obtain ⟨hns, -, -, hcase⟩ := h6
    unfold input_script
    rw [ht, if_neg (show ¬ (InType.p2pkh = InType.coinbase) by decide)]
    rcases hcase with ⟨xp, pk, v, hsig, hxp, hpk, hxpne, -, -, -, -, hssf⟩ |
      ⟨s, pk, hsig, hsne, -, -, hxp, hpk, hpkne, -, -, -, hssf⟩
    · rw [hss] at hssf
      obtain rfl : ss = push_item [0xff] ++ push_item xp :=
        Option.some.inj hssf
      have hnc : (t.signatures.filter sigFilled).length ≠ t.num_sig := by
        rw [hsig, hns]
        simp [List.filter_cons, sigFilled]
      rw [get_siglist_incomplete E t [PK.bytes pk] hpk hnc, ok_bind]
      dsimp only
      rw [hxp, hsig]
      simp only [List.map_cons, List.map_nil, List.flatten_cons,
        List.flatten_nil, List.append_nil]
      rw [show sigItemOf none = [0xff] from rfl]
      rfl
    · rw [hss] at hssf
      obtain rfl : ss = push_item s ++ push_item pk := Option.some.inj hssf
      rw [get_siglist_complete E t [PK.bytes pk] hpk
        (complete_single t s hsig hsne hns), ok_bind]
      dsimp only
      rw [hsig]
      simp [List.filter_cons, sigFilled_some s hsne]
      rfl
  | p2sh =>
    rw [ht] at h6
    dsimp only at h6
    obtain ⟨-, hm1, -, hcase⟩ := h6
    unfold input_script
    rw [ht, if_neg (show ¬ (InType.p2sh = InType.coinbase) by decide)]
    rcases hcase with
      ⟨xps, v, hxp, hm2, -, -, hpk, -, hnc, -, -, -, -, hssf⟩ |
      ⟨pksB, sigs, hpk, hxp, hm2, -, hk, hsig, hlen, hsne, hrd, -, -, hssf⟩
    · rw [hss] at hssf
      obtain rfl := Option.some.inj hssf
      rw [get_siglist_incomplete E t (xps.map (safe_parse_pubkey E)) hpk hnc,
        ok_bind]
      dsimp only
      rw [hxp, multisig_script_bytes xps t.num_sig hm1 hm2, ok_bind]
      rfl
    · rw [hss] at hssf
      obtain rfl := Option.some.inj hssf
      have hcm : is_txin_complete t = true := by
        unfold is_txin_complete
        rw [hsig, filter_filled_all sigs fun b hb => (hsne b hb).1]
        simp [hlen]
      rw [get_siglist_complete E t (pksB.map PK.bytes) hpk hcm, ok_bind]
      dsimp only
      have hsl : (t.signatures.filter sigFilled).map (fun s => s.getD []) =
          sigs := by
        rw [hsig]
        exact filter_filled_map_some sigs fun b hb => (hsne b hb).1
      rw [hsl, multisig_script_bytes pksB t.num_sig hm1 hm2, ok_bind]
      rw [hrd]
      rfl

theorem WFin_scriptSig (E : Ext) (t : TxIn) (h : WFin E t) :
    ∃ ss, t.scriptSig = some ss := by
  obtain ⟨-, -, -, -, -, h6⟩ := h
  cases ht : t.type <;> rw [ht] at h6 <;> dsimp only at h6
  · cases hs : t.scriptSig with
    | none => exact absurd hs h6.2.2.2.2.2.2.2.2
    | some s => exact ⟨s, rfl⟩
  · obtain ⟨s, -, -, -, -, -, -, -, -, -, -, hssf⟩ := h6
    exact ⟨_, hssf⟩
  · obtain ⟨-, -, -, hcase⟩ := h6
    rcases hcase with ⟨xp, pk, v, -, -, -, -, -, -, -, -, hssf⟩ |
      ⟨s, pk, -, -, -, -, -, -, -, -, -, -, hssf⟩
    · exact ⟨_, hssf⟩
    · exact ⟨_, hssf⟩
  · obtain ⟨-, -, -, hcase⟩ := h6
    rcases hcase with ⟨xps, v, -, -, -, -, -, -, -, -, -, -, -, hssf⟩ |
      ⟨pksB, sigs, -, -, -, -, -, -, -, -, -, -, -, hssf⟩
    · exact ⟨_, hssf⟩
    · exact ⟨_, hssf⟩
  · obtain ⟨ss, hss, -⟩ := h6
    exact ⟨ss, hss⟩

/-- Rendering every well-formed input succeeds, emitting each input's stored
script. -/
theorem serialize_inputs_mapM (E : Ext) (ins : List TxIn)
    (h : ∀ t ∈ ins, WFin E t) :
    ins.mapM (fun txin => do
      let script ← input_script E txin false
      pure (serialize_input txin script false)) =
      .ok (ins.map fun t =>
        serialize_input t (t.scriptSig.getD []) false) := by
  induction ins with
  | nil => rfl
  | cons a as ih =>
    obtain ⟨ss, hss⟩ := WFin_scriptSig E a (h a (by simp))
    rw [List.mapM_cons]
    rw [show (do
        let script ← input_script E a false
        pure (serialize_input a script false) : Except PyErr Bytes) =
      (input_script E a false >>= fun script =>
        pure (serialize_input a script false)) from rfl]
    rw [input_script_WF E a (h a (by simp)) ss hss, ok_bind,
      ih fun x hx => h x (by simp [hx])]
    rw [List.map_cons, hss]
    rfl

/-- On a well-formed transaction, `serialize` succeeds with the explicit
wire bytes. -/
theorem serialize_WF (E : Ext) (T : Transaction) (h : WF E T) :
    serialize E T false =
      .ok (int_to_hex T.version 4 ++
        (varInt T.inputs.length ++
          (T.inputs.map fun t =>
            serialize_input t (t.scriptSig.getD []) false).flatten) ++
        (varInt T.outputs.length ++ (T.outputs.map txOut_bytes).flatten) ++
        int_to_hex T.locktime 4) := by
  obtain ⟨-, -, -, -, -, -, -, hins⟩ := h
  unfold serialize
  rw [serialize_inputs_mapM E T.inputs hins, ok_bind]
  rfl

/-! Round-trip (C7): re-parsing the rendered scripts. -/

theorem push_int_small (n : Nat) (h1 : 1 ≤ n) (h2 : n ≤ 16) :
    push_int n = [80 + n] := by
  unfold push_int
  rw [if_neg (by omega), if_pos h2]
  rw [show OP_1 + n - 1 = 80 + n from by unfold OP_1; omega]

/-- Tokenizing a rendered m-of-n multisig script. -/
theorem p2shRaw_tokens (m : Nat) (xps : List Bytes)
    (h1 : 1 ≤ m) (h2 : m ≤ xps.length) (h3 : xps.length ≤ 16)
    (hx : ∀ x ∈ xps, x ≠ [] ∧ x.length < 2 ^ 32) :
    script_GetOp (p2shRaw m xps) 0 =
      (80 + m, none, 1) ::
        (pushToksFrom 1 xps ++
          [(80 + xps.length, none,
              ((xps.map push_item).flatten).length + 2),
           (OP_CHECKMULTISIG, none,
              ((xps.map push_item).flatten).length + 3)]) := by
  have hform : p2shRaw m xps =
      [] ++ ((80 + m) ::
        ((xps.map push_item).flatten ++
          ((80 + xps.length) :: [OP_CHECKMULTISIG]))) := by
    unfold p2shRaw
    rw [push_int_small m h1 (le_trans h2 h3), push_int_small xps.length
      (le_trans h1 h2) h3]
    simp
  rw [hform]
  rw [show (0 : Nat) = ([] : Bytes).length from rfl]
  rw [script_GetOp_op [] (80 + m) _ (by unfold OP_PUSHDATA4; omega)]
  have hlist := script_GetOp_push_list [80 + m] xps
    ((80 + xps.length) :: [OP_CHECKMULTISIG]) (fun a ha => (hx a ha).2)
  rw [show ([80 + m] : Bytes) ++
      ((xps.map push_item).flatten ++ ((80 + xps.length) ::
        [OP_CHECKMULTISIG])) =
      [] ++ ((80 + m) :: ((xps.map push_item).flatten ++
        ((80 + xps.length) :: [OP_CHECKMULTISIG]))) from by simp] at hlist
  rw [show ([80 + m] : Bytes).length = ([] : Bytes).length + 1 from rfl]
    at hlist
  rw [hlist]
  have hop2 := script_GetOp_op ((80 + m) :: (xps.map push_item).flatten)
    (80 + xps.length) [OP_CHECKMULTISIG] (by unfold OP_PUSHDATA4; omega)
  rw [show ((80 + m) :: (xps.map push_item).flatten) ++
      ((80 + xps.length) :: [OP_CHECKMULTISIG]) =
      [] ++ ((80 + m) :: ((xps.map push_item).flatten ++
        ((80 + xps.length) :: [OP_CHECKMULTISIG]))) from by simp] at hop2
  rw [show ((80 + m) :: (xps.map push_item).flatten).length =
      ([] : Bytes).length + 1 + ((xps.map push_item).flatten).length from
    by simp; omega] at hop2
  rw [hop2]
  have hop3 := script_GetOp_op
    (((80 + m) :: (xps.map push_item).flatten) ++ [80 + xps.length])
    OP_CHECKMULTISIG [] (by unfold OP_CHECKMULTISIG OP_PUSHDATA4; omega)
  rw [show (((80 + m) :: (xps.map push_item).flatten) ++ [80 + xps.length])
      ++ (OP_CHECKMULTISIG :: []) =
      [] ++ ((80 + m) :: ((xps.map push_item).flatten ++
        ((80 + xps.length) :: [OP_CHECKMULTISIG]))) from by simp] at hop3
  rw [show (((80 + m) :: (xps.map push_item).flatten) ++
      [80 + xps.length]).length =
      ([] : Bytes).length + 1 + ((xps.map push_item).flatten).length + 1 from
    by simp; omega] at hop3
  rw [hop3]
  rw [script_GetOp_end _ _ (by simp; omega)]
  simp only [List.length_nil, List.nil_append, List.singleton_append]
  norm_num
  omega

/-- `_parse_redeemScript` inverts `p2shRaw`: the rendered m-of-n template
matches and yields the pushed keys, their resolutions, and the multisig
script rebuilt from the resolved keys. -/
theorem parse_redeemScript_multisig (E : Ext) (m : Nat) (xps : List Bytes)
    (h1 : 1 ≤ m) (h2 : m ≤ xps.length) (h3 : xps.length ≤ 16)
    (hx : ∀ x ∈ xps, x ≠ [] ∧ x.length < 2 ^ 32) :
    parse_redeemScript E (p2shRaw m xps) =
      .ok (some (m, xps.length, xps, xps.map (safe_parse_pubkey E),
        p2shRaw m (xps.map fun x => (E.xpubkey_to_pubkey x).getD x))) := by
  obtain ⟨x0, xs, rfl⟩ : ∃ x0 xs, xps = x0 :: xs := by
    cases xps with
    | nil => exact absurd (le_trans h1 h2) (by simp)
    | cons a l => exact ⟨a, l, rfl⟩
  unfold parse_redeemScript
  rw [p2shRaw_tokens m (x0 :: xs) h1 h2 h3 hx]
  have hsplit : pushToksFrom 1 (x0 :: xs) =
      (pushOpcode x0, some x0, 1 + (push_item x0).length) ::
        pushToksFrom (1 + (push_item x0).length) xs := by
    simp [pushToksFrom]
  rw [hsplit, List.cons_append]
  dsimp only
  generalize hPT : pushToksFrom (1 + (push_item x0).length) xs = PT
  generalize hF : ((List.map push_item (x0 :: xs)).flatten).length = F
  have hPTlen : PT.length = xs.length := by
    rw [← hPT]; exact pushToksFrom_length _ _
  have hL : ((80 + m, (none : Option Bytes), 1) ::
      (pushOpcode x0, some x0, 1 + (push_item x0).length) ::
      (PT ++ [(80 + (x0 :: xs).length, (none : Option Bytes), F + 2),
              (OP_CHECKMULTISIG, (none : Option Bytes), F + 3)])).length =
      xs.length + 4 := by
    simp [hPTlen]
  rw [hL]
  rw [show xs.length + 4 - 2 = xs.length + 2 from by omega,
      show xs.length + 4 - 3 = xs.length + 1 from by omega]
  have hgd : ((80 + m, (none : Option Bytes), 1) ::
      (pushOpcode x0, some x0, 1 + (push_item x0).length) ::
      (PT ++ [(80 + (x0 :: xs).length, (none : Option Bytes), F + 2),
              (OP_CHECKMULTISIG, (none : Option Bytes), F + 3)])).getD
      (xs.length + 2) (0, none, 0) =
      (80 + (x0 :: xs).length, (none : Option Bytes), F + 2) := by
    have h := getD_at_junction ((80 + m, (none : Option Bytes), 1) ::
        (pushOpcode x0, some x0, 1 + (push_item x0).length) :: PT)
      (80 + (x0 :: xs).length, (none : Option Bytes), F + 2)
      [(OP_CHECKMULTISIG, (none : Option Bytes), F + 3)] (0, none, 0)
    rw [show ((80 + m, (none : Option Bytes), 1) ::
        (pushOpcode x0, some x0, 1 + (push_item x0).length) :: PT).length =
        xs.length + 2 from by simp [hPTlen]] at h
    simpa using h
  rw [hgd]
  dsimp only
  rw [show (((80 + (x0 :: xs).length : Nat) : Int) - OP_1 + 1).toNat =
      (x0 :: xs).length from by unfold OP_1; push_cast; omega]
  rw [show (((80 + m : Nat) : Int) - OP_1 + 1).toNat = m from by
    unfold OP_1; push_cast; omega]
  have hmd : match_decoded
      ((80 + m, (none : Option Bytes), 1) ::
        (pushOpcode x0, some x0, 1 + (push_item x0).length) ::
        (PT ++ [(80 + (x0 :: xs).length, (none : Option Bytes), F + 2),
                (OP_CHECKMULTISIG, (none : Option Bytes), F + 3)]))
      ((80 + m) :: (List.replicate (x0 :: xs).length OP_PUSHDATA4 ++
        [80 + (x0 :: xs).length, OP_CHECKMULTISIG])) = true := by
    rw [match_decoded_true_iff]
    constructor
    · simp [hPTlen]
    · intro p hp
      simp only [List.length_cons, List.replicate_succ, List.cons_append,
        List.zip_cons_cons] at hp
      rcases List.mem_cons.mp hp with rfl | hp
      · exact Or.inr rfl
      rcases List.mem_cons.mp hp with rfl | hp
      · exact Or.inl ⟨rfl, pushOpcode_le x0,
          pushOpcode_pos x0 (hx x0 (by simp)).1⟩
      rw [List.zip_append (by simp [hPTlen])] at hp
      rcases List.mem_append.mp hp with hp | hp
      · rw [← hPT] at hp
        exact pushToks_zip_wildcard _ xs
          (fun a ha => (hx a (by simp [ha])).1) p hp
      · simp only [List.zip_cons_cons] at hp
        rcases List.mem_cons.mp hp with rfl | hp
        · exact Or.inr rfl
        rcases List.mem_cons.mp hp with rfl | hp
        · exact Or.inr rfl
        · simp at hp
  rw [hmd, if_pos rfl]
  have htake : List.take (xs.length + 1)
      ((pushOpcode x0, some x0, 1 + (push_item x0).length) ::
        (PT ++ [(80 + (x0 :: xs).length, (none : Option Bytes), F + 2),
                (OP_CHECKMULTISIG, (none : Option Bytes), F + 3)])) =
      (pushOpcode x0, some x0, 1 + (push_item x0).length) :: PT := by
    simp only [List.take_succ_cons]
    rw [← hPTlen, List.take_left]
  simp only [List.drop_succ_cons, List.drop_zero]
  rw [htake, ← hPT, ← hsplit, pushToks_mapM, ok_bind]
  rw [show (x0 :: xs).map (safe_parse_pubkey E) =
      ((x0 :: xs).map fun x => (E.xpubkey_to_pubkey x).getD x).map PK.bytes
    from by rw [List.map_map]; rfl]
  rw [multisig_script_bytes _ m h1 (by simpa using h2), ok_bind]
  rfl

/-- `_parse_scriptSig` classifies a single nonempty push as p2pk. -/
theorem parse_scriptSig_p2pk (E : Ext) (d : TxIn) (s : Bytes)
    (hs : s ≠ []) (h32 : s.length < 2 ^ 32) :
    parse_scriptSig E d (push_item s) =
      .ok { d with
            type := .p2pk, signatures := [some s], num_sig := 1,
            x_pubkeys := [PK.placeholder],
            pubkeys := some [PK.placeholder] } := by
  unfold parse_scriptSig
  have hdec : script_GetOp (push_item s) 0 =
      [(pushOpcode s, some s, (push_item s).length)] := by
    have h := script_GetOp_push [] s [] h32
    simp only [List.nil_append, List.append_nil, List.length_nil,
      zero_add] at h
    rw [h, script_GetOp_end _ _ (le_refl _)]
  rw [hdec]
  dsimp only
  have hmd : match_decoded [(pushOpcode s, some s, (push_item s).length)]
      [OP_PUSHDATA4] = true := by
    rw [match_decoded_true_iff]
    refine ⟨rfl, fun p hp => ?_⟩
    simp only [List.zip_cons_cons] at hp
    rcases List.mem_cons.mp hp with rfl | hp
    · exact Or.inl ⟨rfl, pushOpcode_le s, pushOpcode_pos s hs⟩
    · simp at hp
  rw [hmd, if_pos rfl]
  rfl

/-- `_parse_scriptSig` classifies two nonempty pushes whose key resolves as
p2pkh. -/
theorem parse_scriptSig_p2pkh (E : Ext) (d : TxIn) (sg xp pk : Bytes)
    (ad : Addr) (hsg : sg ≠ []) (h32s : sg.length < 2 ^ 32)
    (hxp : xp ≠ []) (h32x : xp.length < 2 ^ 32)
    (hres : E.xpubkey_to_address xp = some (pk, ad)) :
    parse_scriptSig E d (push_item sg ++ push_item xp) =
      .ok { d with
            type := .p2pkh, signatures := parse_sig [sg],
            x_pubkeys := [PK.bytes xp], num_sig := 1,
            pubkeys := some [PK.bytes pk], address := ad } := by
  unfold parse_scriptSig
  have hd1 := script_GetOp_push [] sg (push_item xp) h32s
  simp only [List.nil_append, List.length_nil, zero_add] at hd1
  have hd2 := script_GetOp_push (push_item sg) xp [] h32x
  simp only [List.append_nil] at hd2
  have hdec : script_GetOp (push_item sg ++ push_item xp) 0 =
      [(pushOpcode sg, some sg, (push_item sg).length),
       (pushOpcode xp, some xp,
         (push_item sg).length + (push_item xp).length)] := by
    rw [hd1, hd2, script_GetOp_end _ _ (by simp)]
  rw [hdec]
  dsimp only
  rw [match_decoded_false_of_length _ [OP_PUSHDATA4] (by simp)]
  simp only [Bool.false_eq_true, if_false]
  have hmd : match_decoded
      [(pushOpcode sg, some sg, (push_item sg).length),
       (pushOpcode xp, some xp,
         (push_item sg).length + (push_item xp).length)]
      [OP_PUSHDATA4, OP_PUSHDATA4] = true := by
    rw [match_decoded_true_iff]
    refine ⟨rfl, fun p hp => ?_⟩
    simp only [List.zip_cons_cons] at hp
    rcases List.mem_cons.mp hp with rfl | hp
    · exact Or.inl ⟨rfl, pushOpcode_le sg, pushOpcode_pos sg hsg⟩
    rcases List.mem_cons.mp hp with rfl | hp
    · exact Or.inl ⟨rfl, pushOpcode_le xp, pushOpcode_pos xp hxp⟩
    · simp at hp
  rw [hmd, if_pos rfl]
  rw [hres]
  rfl

/-- `_parse_scriptSig` classifies `OP_0 ‖ pushes` whose final push parses as
a multisig redeem script as p2sh. -/
theorem parse_scriptSig_p2sh (E : Ext) (d : TxIn) (sigItems : List Bytes)
    (rdRaw : Bytes)
    (hsi : ∀ b ∈ sigItems, b ≠ [] ∧ b.length < 2 ^ 32)
    (hrd : rdRaw ≠ []) (h32r : rdRaw.length < 2 ^ 32)
    (m n : Nat) (xpbs : List Bytes) (pks : List PK) (rd : Bytes)
    (hpr : parse_redeemScript E rdRaw = .ok (some (m, n, xpbs, pks, rd))) :
    parse_scriptSig E d
      ((0x00 :: (sigItems.map push_item).flatten) ++ push_item rdRaw) =
      .ok { d with
            type := .p2sh, num_sig := m,
            signatures := parse_sig sigItems,
            x_pubkeys := xpbs.map PK.bytes, pubkeys := some pks,
            redeemScript := rd,
            address := .p2shAddress (E.hash160 rd) } := by
  have hall : ∀ a ∈ ([] : Bytes) :: (sigItems ++ [rdRaw]),
      a.length < 2 ^ 32 := by
    intro a ha
    rcases List.mem_cons.mp ha with rfl | ha
    · simp
    rcases List.mem_append.mp ha with ha | ha
    · exact (hsi a ha).2
    · rw [List.mem_singleton.mp ha]
      exact h32r
  have hne : ∀ a ∈ sigItems ++ [rdRaw], a ≠ [] := by
    intro a ha
    rcases List.mem_append.mp ha with ha | ha
    · exact (hsi a ha).1
    · rw [List.mem_singleton.mp ha]
      exact hrd
  unfold parse_scriptSig
  have hcast : (0x00 :: (sigItems.map push_item).flatten) ++ push_item rdRaw
      = (((([] : Bytes)) :: (sigItems ++ [rdRaw])).map push_item).flatten := by
    simp [show push_item ([] : Bytes) = [0] from rfl]
  have hdec : script_GetOp
      ((0x00 :: (sigItems.map push_item).flatten) ++ push_item rdRaw) 0 =
      (OP_0, some [], 1) :: pushToksFrom 1 (sigItems ++ [rdRaw]) := by
    rw [hcast]
    have h := script_GetOp_push_list []
      (([] : Bytes) :: (sigItems ++ [rdRaw])) [] hall
    simp only [List.nil_append, List.append_nil, List.length_nil,
      zero_add] at h
    rw [h, script_GetOp_end _ _ (le_refl _), List.append_nil]
    rfl
  rw [hdec]
  dsimp only
  have hlen1 : ((OP_0, some ([] : Bytes), 1) ::
      pushToksFrom 1 (sigItems ++ [rdRaw])).length =
      sigItems.length + 2 := by
    simp [pushToksFrom_length]
  rw [match_decoded_false_of_length _ [OP_PUSHDATA4]
    (by rw [hlen1]; simp only [List.length_singleton]; omega)]
  simp only [Bool.false_eq_true, if_false]
  rw [match_decoded_ne _ [OP_PUSHDATA4, OP_PUSHDATA4] (fun hm => by
    have h := ((match_decoded_true_iff _ _).mp hm).2
    have h0 := h ((OP_0, some ([] : Bytes), 1), OP_PUSHDATA4) (by
      simp only [List.zip_cons_cons]
      exact List.mem_cons_self _ _)
    rcases h0 with ⟨-, -, hpos⟩ | hdir
    · exact absurd hpos (by decide)
    · exact absurd hdir (by decide))]
  simp only [Bool.false_eq_true, if_false]
  have hm3 : match_decoded ((OP_0, some ([] : Bytes), 1) ::
      pushToksFrom 1 (sigItems ++ [rdRaw]))
      (OP_0 :: List.replicate ((((OP_0, some ([] : Bytes), 1) ::
        pushToksFrom 1 (sigItems ++ [rdRaw])).length) - 1)
        OP_PUSHDATA4) = true := by
    rw [hlen1, show sigItems.length + 2 - 1 = (sigItems ++ [rdRaw]).length
      from by simp]
    exact match_op0_run 1 1 _ hne
  rw [hm3, if_pos rfl]
  rw [hlen1, show sigItems.length + 2 - 2 = sigItems.length from by omega]
  simp only [List.drop_succ_cons, List.drop_zero]
  rw [pushToksFrom_append 1 sigItems [rdRaw]]
  have htake : List.take sigItems.length (pushToksFrom 1 sigItems ++
      pushToksFrom (1 + ((sigItems.map push_item).flatten).length) [rdRaw]) =
      pushToksFrom 1 sigItems := by
    rw [show sigItems.length = (pushToksFrom 1 sigItems).length from
      (pushToksFrom_length _ _).symm]
    exact List.take_left _ _
  rw [htake, pushToks_mapM, ok_bind]
  have hsingle : pushToksFrom
      (1 + ((sigItems.map push_item).flatten).length) [rdRaw] =
      [(pushOpcode rdRaw, some rdRaw,
        1 + ((sigItems.map push_item).flatten).length +
          (push_item rdRaw).length)] := by
    simp [pushToksFrom]
  rw [hsingle]
  have hlast : ((OP_0, some ([] : Bytes), 1) ::
      (pushToksFrom 1 sigItems ++
        [(pushOpcode rdRaw, some rdRaw,
          1 + ((sigItems.map push_item).flatten).length +
            (push_item rdRaw).length)])).getLast? =
      some (pushOpcode rdRaw, some rdRaw,
        1 + ((sigItems.map push_item).flatten).length +
          (push_item rdRaw).length) := by
    rw [show (OP_0, some ([] : Bytes), 1) ::
        (pushToksFrom 1 sigItems ++
          [(pushOpcode rdRaw, some rdRaw,
            1 + ((sigItems.map push_item).flatten).length +
              (push_item rdRaw).length)]) =
        ((OP_0, some ([] : Bytes), 1) :: pushToksFrom 1 sigItems) ++
          [(pushOpcode rdRaw, some rdRaw,
            1 + ((sigItems.map push_item).flatten).length +
              (push_item rdRaw).length)] from by simp]
    exact List.getLast?_concat _
  rw [hlast]
  dsimp only
  rw [pure_ok, ok_bind, hpr, ok_bind]
  rfl

theorem txin_value_none_eta (t : TxIn) (hv : t.value = none) :
    { t with value := none } = t := by
  cases t
  simp_all

theorem txin_value_set_eta (t : TxIn) (v : Nat) (hv : t.value = some v) :
    { { t with value := none } with value := some v } = t := by
  cases t
  simp_all

/-- A well-formed input is either complete with no stored value or
incomplete with a wire-width value. -/
theorem WFin_complete_value (E : Ext) (t : TxIn) (h : WFin E t) :
    (is_txin_complete t = true ∧ t.value = none) ∨
    (is_txin_complete t = false ∧ ∃ v, t.value = some v ∧ v < 2 ^ 64) := by
  obtain ⟨-, -, -, -, -, h6⟩ := h
  cases ht : t.type <;> rw [ht] at h6 <;> dsimp only at h6
  · obtain ⟨-, -, hsig, hns, -, -, hval, -, -⟩ := h6
    refine Or.inl ⟨?_, hval⟩
    unfold is_txin_complete
    rw [hsig, hns]
    rfl
  · obtain ⟨s, hsig, hs, -, hns, -, -, -, -, hval, -, -⟩ := h6
    exact Or.inl ⟨complete_single t s hsig hs hns, hval⟩
  · obtain ⟨hns, -, -, hcase⟩ := h6
    rcases hcase with ⟨xp, pk, v, hsig, -, -, -, -, -, hval, hv64, -⟩ |
      ⟨s, pk, hsig, hsne, -, -, -, -, -, -, -, hval, -⟩
    · refine Or.inr ⟨?_, v, hval, hv64⟩
      unfold is_txin_complete
      rw [hsig, hns]
      rfl
    · exact Or.inl ⟨complete_single t s hsig hsne hns, hval⟩
  · obtain ⟨-, -, -, hcase⟩ := h6
    rcases hcase with
      ⟨xps, v, -, -, -, -, -, -, hnc, -, -, hval, hv64, -⟩ |
      ⟨pksB, sigs, -, -, -, -, -, hsig, hlen, hsne, -, -, hval, -⟩
    · refine Or.inr ⟨?_, v, hval, hv64⟩
      unfold is_txin_complete
      exact beq_eq_false_iff_ne.mpr hnc
    · refine Or.inl ⟨?_, hval⟩
      unfold is_txin_complete
      rw [hsig, filter_filled_all sigs fun b hb => (hsne b hb).1]
      simp [hlen]
  · obtain ⟨ss, -, hteq, -⟩ := h6
    refine Or.inl ⟨?_, by rw [hteq]; rfl⟩
    unfold is_txin_complete
    rw [show t.signatures = [] from by rw [hteq]; rfl,
      show t.num_sig = 0 from by rw [hteq]; rfl]
    rfl

/-- Classifying the rendered script of a well-formed non-coinbase input
recovers the input's parsed fields (everything except the trailing value). -/
theorem parse_scriptSig_WF (E : Ext) (t : TxIn) (h : WFin E t)
    (hncb : t.type ≠ .coinbase) (ss : Bytes) (hss : t.scriptSig = some ss) :
    parse_scriptSig E (initIn t.prevout_hash t.prevout_n t.sequence ss) ss =
      .ok { t with value := none } := by
  obtain ⟨-, -, -, -, -, h6⟩ := h
  cases ht : t.type <;> rw [ht] at h6 <;> dsimp only at h6
  · exact absurd ht hncb
  · obtain ⟨s, hsig, hs, h32, hns, hxpk, hpk, hrd, had, hval, hsc, hssf⟩ := h6
    rw [hss] at hssf
    obtain rfl : ss = push_item s := Option.some.inj hssf
    rw [parse_scriptSig_p2pk E _ s hs h32]
    unfold initIn
    rw [show ({
        prevout_hash := t.prevout_hash, prevout_n := t.prevout_n,
        sequence := t.sequence, scriptSig := some (push_item s),
        type := .p2pk, x_pubkeys := [PK.placeholder],
        pubkeys := some [PK.placeholder], signatures := [some s],
        num_sig := 1, redeemScript := [], address := .nullAddress,
        value := none, scriptCode := none } : TxIn) =
      { t with value := none } from by
        rw [← hss, ← ht, ← hpk, ← hxpk, ← hsig, ← hns, ← hrd, ← had, ← hsc]]
    rw [ht]
  · obtain ⟨hns, hrd, hsc, hcase⟩ := h6
    rcases hcase with
      ⟨xp, pk, v, hsig, hxpk, hpk, hxpne, h32x, hres, hval, hv64, hssf⟩ |
      ⟨s, pk, hsig, hsne, hsff, h32s, hxpk, hpk, hpkne, h32p, hres, hval,
        hssf⟩
    · rw [hss] at hssf
      obtain rfl : ss = push_item [0xff] ++ push_item xp :=
        Option.some.inj hssf
      rw [parse_scriptSig_p2pkh E _ [0xff] xp pk t.address (by simp)
        (by simp) hxpne h32x hres]
      unfold initIn
      rw [show parse_sig [[0xff]] = [none] from rfl]
      rw [show ({
        prevout_hash := t.prevout_hash, prevout_n := t.prevout_n,
          sequence := t.sequence,
          scriptSig := some (push_item [0xff] ++ push_item xp),
          type := .p2pkh, x_pubkeys := [PK.bytes xp],
          pubkeys := some [PK.bytes pk], signatures := [none],
          num_sig := 1, redeemScript := [], address := t.address,
          value := none, scriptCode := none } : TxIn) =
        { t with value := none } from by
          rw [← hss, ← ht, ← hpk, ← hxpk, ← hsig, ← hns, ← hrd, ← hsc]]
      rw [ht]
    · rw [hss] at hssf
      obtain rfl : ss = push_item s ++ push_item pk := Option.some.inj hssf
      rw [parse_scriptSig_p2pkh E _ s pk pk t.address hsne h32s hpkne h32p
        hres]
      unfold initIn
      rw [show parse_sig [s] = [some s] from by
        unfold parse_sig
        simp [hsff]]
      rw [show ({
        prevout_hash := t.prevout_hash, prevout_n := t.prevout_n,
          sequence := t.sequence,
          scriptSig := some (push_item s ++ push_item pk),
          type := .p2pkh, x_pubkeys := [PK.bytes pk],
          pubkeys := some [PK.bytes pk], signatures := [some s],
          num_sig := 1, redeemScript := [], address := t.address,
          value := none, scriptCode := none } : TxIn) =
        { t with value := none } from by
          rw [← hss, ← ht, ← hpk, ← hxpk, ← hsig, ← hns, ← hrd, ← hsc]]
      rw [ht]
  · obtain ⟨hsc, hm1, had, hcase⟩ := h6
    rcases hcase with
      ⟨xps, v, hxpk, hm2, hm3, hx, hpk, hslots, hnc, hrdeq, h32raw, hval,
        hv64, hssf⟩ |
      ⟨pksB, sigs, hpk, hxpk, hm2, hm3, hk, hsig, hlen, hsne, hrdeq, h32raw,
        hval, hssf⟩
    · rw [hss] at hssf
      obtain rfl := Option.some.inj hssf
      have hsi : ∀ b ∈ t.signatures.map sigItemOf,
          b ≠ [] ∧ b.length < 2 ^ 32 := by
        intro b hb
        obtain ⟨sl, hsl, rfl⟩ := List.mem_map.mp hb
        rcases hslots sl hsl with rfl | ⟨bb, rfl, hb1, hb2, hb3⟩
        · exact ⟨by simp [sigItemOf, sigFilled], by simp [sigItemOf, sigFilled]⟩
        · rw [show sigItemOf (some bb) = bb from by
            unfold sigItemOf
            rw [if_pos (sigFilled_some bb hb1)]
            rfl]
          exact ⟨hb1, hb3⟩
      have hrdne : p2shRaw t.num_sig xps ≠ [] := by
        unfold p2shRaw
        rw [push_int_small t.num_sig hm1 (le_trans hm2 hm3)]
        simp
      rw [parse_scriptSig_p2sh E _ (t.signatures.map sigItemOf)
        (p2shRaw t.num_sig xps) hsi hrdne h32raw t.num_sig xps.length xps
        (xps.map (safe_parse_pubkey E))
        (p2shRaw t.num_sig (xps.map fun x => (E.xpubkey_to_pubkey x).getD x))
        (parse_redeemScript_multisig E t.num_sig xps hm1 hm2 hm3 hx)]
      unfold initIn
      rw [parse_sig_sigItems t.signatures hslots, ← hrdeq]
      rw [show ({
        prevout_hash := t.prevout_hash, prevout_n := t.prevout_n,
          sequence := t.sequence,
          scriptSig := some ((0x00 ::
            ((t.signatures.map sigItemOf).map push_item).flatten) ++
            push_item (p2shRaw t.num_sig xps)),
          type := .p2sh, x_pubkeys := xps.map PK.bytes,
          pubkeys := some (xps.map (safe_parse_pubkey E)),
          signatures := t.signatures, num_sig := t.num_sig,
          redeemScript := t.redeemScript,
          address := .p2shAddress (E.hash160 t.redeemScript),
          value := none, scriptCode := none } : TxIn) =
        { t with value := none } from by
          rw [← hss, ← ht, ← hpk, ← hxpk, ← had, ← hsc]]
      rw [ht]
    · rw [hss] at hssf
      obtain rfl := Option.some.inj hssf
      have hsi : ∀ b ∈ sigs, b ≠ [] ∧ b.length < 2 ^ 32 :=
        fun b hb => ⟨(hsne b hb).1, (hsne b hb).2.2⟩
      have hrdne : t.redeemScript ≠ [] := by
        rw [hrdeq]
        unfold p2shRaw
        rw [push_int_small t.num_sig hm1 (le_trans hm2 hm3)]
        simp
      have hpsr : parse_redeemScript E t.redeemScript =
          .ok (some (t.num_sig, pksB.length, pksB,
            pksB.map PK.bytes, t.redeemScript)) := by
        rw [hrdeq]
        rw [parse_redeemScript_multisig E t.num_sig pksB hm1 hm2 hm3
          (fun b hb => ⟨(hk b hb).1, (hk b hb).2.1⟩)]
        rw [show pksB.map (safe_parse_pubkey E) = pksB.map PK.bytes from
          List.map_congr_left fun b hb => (hk b hb).2.2]
        rw [show (pksB.map fun x => (E.xpubkey_to_pubkey x).getD x) = pksB
          from by
            conv_rhs => rw [← List.map_id pksB]
            refine List.map_congr_left fun b hb => ?_
            have h := (hk b hb).2.2
            unfold safe_parse_pubkey at h
            exact PK.bytes.inj h]
      rw [parse_scriptSig_p2sh E _ sigs t.redeemScript hsi hrdne
        (by rw [hrdeq]; exact h32raw) t.num_sig pksB.length pksB
        (pksB.map PK.bytes) t.redeemScript hpsr]
      unfold initIn
      rw [show parse_sig sigs = sigs.map some from
        parse_sig_map_some sigs fun b hb => (hsne b hb).2.1, ← hsig]
      rw [show ({
        prevout_hash := t.prevout_hash, prevout_n := t.prevout_n,
          sequence := t.sequence,
          scriptSig := some ((0x00 :: (sigs.map push_item).flatten) ++
            push_item t.redeemScript),
          type := .p2sh, x_pubkeys := pksB.map PK.bytes,
          pubkeys := some (pksB.map PK.bytes),
          signatures := t.signatures, num_sig := t.num_sig,
          redeemScript := t.redeemScript,
          address := .p2shAddress (E.hash160 t.redeemScript),
          value := none, scriptCode := none } : TxIn) =
        { t with value := none } from by
          rw [← hss, ← ht, ← hpk, ← hxpk, ← had, ← hsc]]
      rw [ht]
  · obtain ⟨ss0, hss0, hteq, hfix⟩ := h6
    obtain rfl : ss = ss0 := by
      rw [hss] at hss0
      exact Option.some.inj hss0
    have htv : t.value = none := by rw [hteq]; rfl
    rw [hfix, ← hteq, ← ht, ← htv]

/-- `_parse_input` on the serialized form of a well-formed input recovers
the input exactly and stops at the end of its bytes. -/
theorem parse_input_WF (E : Ext) (t : TxIn) (h : WFin E t) (ss : Bytes)
    (hss : t.scriptSig = some ss) (pre post : Bytes) :
    parse_input E ⟨pre ++ (serialize_input t ss false ++ post), pre.length⟩ =
      .ok (t, ⟨pre ++ (serialize_input t ss false ++ post),
        pre.length + (serialize_input t ss false).length⟩) := by
  obtain ⟨hph, hpn, hsq, hcb, hsslen, -⟩ := id h
  have hv64ss := hsslen ss hss
  rcases WFin_complete_value E t h with ⟨hcm, hvnone⟩ | ⟨hcm, v, hvsome, hv8⟩
  · -- complete input: no trailing value on the wire
    have hser : serialize_input t ss false =
        t.prevout_hash.reverse ++ (leBytes t.prevout_n 4 ++
          (varInt ss.length ++ (ss ++ leBytes t.sequence 4))) := by
      unfold serialize_input serialize_outpoint
      rw [if_neg (by simp [hvnone])]
      rw [int_to_hex_natCast, int_to_hex_natCast]
      simp
    have hlen : pre.length + (serialize_input t ss false).length =
        pre.length + 32 + 4 + (varInt ss.length).length + ss.length + 4 := by
      rw [hser]
      simp [leBytes_length, hph]
      omega
    rw [hlen]
    have hbuf : pre ++ (serialize_input t ss false ++ post) =
        pre ++ (t.prevout_hash.reverse ++ (leBytes t.prevout_n 4 ++
          (varInt ss.length ++ (ss ++ (leBytes t.sequence 4 ++ post))))) := by
      rw [hser]
      simp
    rw [hbuf]
    unfold parse_input
    rw [read_bytes_spec pre t.prevout_hash.reverse _ 32 _ rfl (by simp [hph])]
    dsimp only
    rw [List.reverse_reverse]
    rw [show pre.length + 32 = (pre ++ t.prevout_hash.reverse).length from
      by simp [hph]]
    rw [show pre ++ (t.prevout_hash.reverse ++ (leBytes t.prevout_n 4 ++
        (varInt ss.length ++ (ss ++ (leBytes t.sequence 4 ++ post))))) =
      (pre ++ t.prevout_hash.reverse) ++ (leBytes t.prevout_n 4 ++
        (varInt ss.length ++ (ss ++ (leBytes t.sequence 4 ++ post))))
      from by simp]
    rw [show BCDataStream.read_uint32
        ⟨(pre ++ t.prevout_hash.reverse) ++ (leBytes t.prevout_n 4 ++
          (varInt ss.length ++ (ss ++ (leBytes t.sequence 4 ++ post)))),
         (pre ++ t.prevout_hash.reverse).length⟩ =
        .ok (t.prevout_n,
          ⟨(pre ++ t.prevout_hash.reverse) ++ (leBytes t.prevout_n 4 ++
            (varInt ss.length ++ (ss ++ (leBytes t.sequence 4 ++ post)))),
           (pre ++ t.prevout_hash.reverse).length + 4⟩) from by
      unfold BCDataStream.read_uint32
      rw [read_num_unsigned_spec _ (leBytes t.prevout_n 4) _ 4 _ rfl
        (leBytes_length _ _)]
      rw [leNum_leBytes _ _ (by norm_num; omega)]]
    rw [ok_bind]
    dsimp only
    rw [show (pre ++ t.prevout_hash.reverse).length + 4 =
        ((pre ++ t.prevout_hash.reverse) ++ leBytes t.prevout_n 4).length
      from by simp [leBytes_length]; omega]
    rw [show (pre ++ t.prevout_hash.reverse) ++ (leBytes t.prevout_n 4 ++
        (varInt ss.length ++ (ss ++ (leBytes t.sequence 4 ++ post)))) =
      ((pre ++ t.prevout_hash.reverse) ++ leBytes t.prevout_n 4) ++
        (varInt ss.length ++ (ss ++ (leBytes t.sequence 4 ++ post)))
      from by simp]
    rw [read_compact_size_spec _ _ ss.length _ rfl hv64ss, ok_bind]
    dsimp only
    rw [show (((pre ++ t.prevout_hash.reverse) ++ leBytes t.prevout_n 4)).length
        + (varInt ss.length).length =
      (((pre ++ t.prevout_hash.reverse) ++ leBytes t.prevout_n 4) ++
        varInt ss.length).length from by simp; omega]
    rw [show ((pre ++ t.prevout_hash.reverse) ++ leBytes t.prevout_n 4) ++
        (varInt ss.length ++ (ss ++ (leBytes t.sequence 4 ++ post))) =
      (((pre ++ t.prevout_hash.reverse) ++ leBytes t.prevout_n 4) ++
        varInt ss.length) ++ (ss ++ (leBytes t.sequence 4 ++ post))
      from by simp]
    rw [read_bytes_spec _ ss _ ss.length _ rfl rfl]
    dsimp only
    rw [show (((pre ++ t.prevout_hash.reverse) ++ leBytes t.prevout_n 4) ++
        varInt ss.length).length + ss.length =
      ((((pre ++ t.prevout_hash.reverse) ++ leBytes t.prevout_n 4) ++
        varInt ss.length) ++ ss).length from by simp; omega]
    rw [show (((pre ++ t.prevout_hash.reverse) ++ leBytes t.prevout_n 4) ++
        varInt ss.length) ++ (ss ++ (leBytes t.sequence 4 ++ post)) =
      ((((pre ++ t.prevout_hash.reverse) ++ leBytes t.prevout_n 4) ++
        varInt ss.length) ++ ss) ++ (leBytes t.sequence 4 ++ post)
      from by simp]
    rw [show BCDataStream.read_uint32
        ⟨((((pre ++ t.prevout_hash.reverse) ++ leBytes t.prevout_n 4) ++
          varInt ss.length) ++ ss) ++ (leBytes t.sequence 4 ++ post),
         ((((pre ++ t.prevout_hash.reverse) ++ leBytes t.prevout_n 4) ++
          varInt ss.length) ++ ss).length⟩ =
        .ok (t.sequence,
          ⟨((((pre ++ t.prevout_hash.reverse) ++ leBytes t.prevout_n 4) ++
            varInt ss.length) ++ ss) ++ (leBytes t.sequence 4 ++ post),
           ((((pre ++ t.prevout_hash.reverse) ++ leBytes t.prevout_n 4) ++
            varInt ss.length) ++ ss).length + 4⟩) from by
      unfold BCDataStream.read_uint32
      rw [read_num_unsigned_spec _ (leBytes t.sequence 4) _ 4 _ rfl
        (leBytes_length _ _)]
      rw [leNum_leBytes _ _ (by norm_num; omega)]]
    rw [ok_bind]
    dsimp only
    by_cases htc : t.type = .coinbase
    · rw [if_pos (hcb.mp htc)]
      have h6 : WFcb t := by
        obtain ⟨-, -, -, -, -, h6⟩ := id h
        rw [htc] at h6
        exact h6
      obtain ⟨hxpk, hpk, hsig, hns, hrd, had, hval, hsc, -⟩ := h6
      rw [show (⟨t.prevout_hash, t.prevout_n, t.sequence, some ss,
          .coinbase, [], none, [], 0, [], .unknownAddress, none, none⟩ :
          TxIn) = t from by
        rw [← hss, ← htc, ← hxpk, ← hsig, ← hns, ← hrd, ← had, ← hsc]
        rw [show (none : Option (List PK)) = t.pubkeys from hpk.symm,
          show (none : Option Nat) = t.value from hval.symm]]
      rw [pure_ok]
    · rw [if_neg (fun hz => htc (hcb.mpr hz))]
      have hps := parse_scriptSig_WF E t h htc ss hss
      unfold initIn at hps
      rw [hps, ok_bind]
      rw [show is_txin_complete { t with value := none } =
        is_txin_complete t from rfl, hcm]
      rw [if_pos rfl]
      rw [txin_value_none_eta t hvnone, pure_ok]
  · -- incomplete input: the 8-byte value trails the sequence number
    have hser : serialize_input t ss false =
        t.prevout_hash.reverse ++ (leBytes t.prevout_n 4 ++
          (varInt ss.length ++ (ss ++ (leBytes t.sequence 4 ++
            leBytes v 8)))) := by
      unfold serialize_input serialize_outpoint
      rw [if_pos ⟨by rw [hvsome]; rfl, by simp [hcm]⟩]
      rw [hvsome]
      rw [int_to_hex_natCast, int_to_hex_natCast,
        show ((some v).getD 0 : Int) = ((v : Nat) : Int) from rfl,
        int_to_hex_natCast]
      simp
    have hlen : pre.length + (serialize_input t ss false).length =
        pre.length + 32 + 4 + (varInt ss.length).length + ss.length + 4 + 8
        := by
      rw [hser]
      simp [leBytes_length, hph]
      omega
    rw [hlen]
    have hbuf : pre ++ (serialize_input t ss false ++ post) =
        pre ++ (t.prevout_hash.reverse ++ (leBytes t.prevout_n 4 ++
          (varInt ss.length ++ (ss ++ (leBytes t.sequence 4 ++
            (leBytes v 8 ++ post)))))) := by
      rw [hser]
      simp
    rw [hbuf]
    unfold parse_input
    rw [read_bytes_spec pre t.prevout_hash.reverse _ 32 _ rfl (by simp [hph])]
    dsimp only
    rw [List.reverse_reverse]
    rw [show pre.length + 32 = (pre ++ t.prevout_hash.reverse).length from
      by simp [hph]]
    rw [show pre ++ (t.prevout_hash.reverse ++ (leBytes t.prevout_n 4 ++
        (varInt ss.length ++ (ss ++ (leBytes t.sequence 4 ++
          (leBytes v 8 ++ post)))))) =
      (pre ++ t.prevout_hash.reverse) ++ (leBytes t.prevout_n 4 ++
        (varInt ss.length ++ (ss ++ (leBytes t.sequence 4 ++
          (leBytes v 8 ++ post))))) from by simp]
    rw [show BCDataStream.read_uint32
        ⟨(pre ++ t.prevout_hash.reverse) ++ (leBytes t.prevout_n 4 ++
          (varInt ss.length ++ (ss ++ (leBytes t.sequence 4 ++
            (leBytes v 8 ++ post))))),
         (pre ++ t.prevout_hash.reverse).length⟩ =
        .ok (t.prevout_n,
          ⟨(pre ++ t.prevout_hash.reverse) ++ (leBytes t.prevout_n 4 ++
            (varInt ss.length ++ (ss ++ (leBytes t.sequence 4 ++
              (leBytes v 8 ++ post))))),
           (pre ++ t.prevout_hash.reverse).length + 4⟩) from by
      unfold BCDataStream.read_uint32
      rw [read_num_unsigned_spec _ (leBytes t.prevout_n 4) _ 4 _ rfl
        (leBytes_length _ _)]
      rw [leNum_leBytes _ _ (by norm_num; omega)]]
    rw [ok_bind]
    dsimp only
    rw [show (pre ++ t.prevout_hash.reverse).length + 4 =
        ((pre ++ t.prevout_hash.reverse) ++ leBytes t.prevout_n 4).length
      from by simp [leBytes_length]; omega]
    rw [show (pre ++ t.prevout_hash.reverse) ++ (leBytes t.prevout_n 4 ++
        (varInt ss.length ++ (ss ++ (leBytes t.sequence 4 ++
          (leBytes v 8 ++ post))))) =
      ((pre ++ t.prevout_hash.reverse) ++ leBytes t.prevout_n 4) ++
        (varInt ss.length ++ (ss ++ (leBytes t.sequence 4 ++
          (leBytes v 8 ++ post)))) from by simp]
    rw [read_compact_size_spec _ _ ss.length _ rfl hv64ss, ok_bind]
    dsimp only
    rw [show (((pre ++ t.prevout_hash.reverse) ++ leBytes t.prevout_n 4)).length
        + (varInt ss.length).length =
      (((pre ++ t.prevout_hash.reverse) ++ leBytes t.prevout_n 4) ++
        varInt ss.length).length from by simp; omega]
    rw [show ((pre ++ t.prevout_hash.reverse) ++ leBytes t.prevout_n 4) ++
        (varInt ss.length ++ (ss ++ (leBytes t.sequence 4 ++
          (leBytes v 8 ++ post)))) =
      (((pre ++ t.prevout_hash.reverse) ++ leBytes t.prevout_n 4) ++
        varInt ss.length) ++ (ss ++ (leBytes t.sequence 4 ++
          (leBytes v 8 ++ post))) from by simp]
    rw [read_bytes_spec _ ss _ ss.length _ rfl rfl]
    dsimp only
    rw [show (((pre ++ t.prevout_hash.reverse) ++ leBytes t.prevout_n 4) ++
        varInt ss.length).length + ss.length =
      ((((pre ++ t.prevout_hash.reverse) ++ leBytes t.prevout_n 4) ++
        varInt ss.length) ++ ss).length from by simp; omega]
    rw [show (((pre ++ t.prevout_hash.reverse) ++ leBytes t.prevout_n 4) ++
        varInt ss.length) ++ (ss ++ (leBytes t.sequence 4 ++
          (leBytes v 8 ++ post))) =
      ((((pre ++ t.prevout_hash.reverse) ++ leBytes t.prevout_n 4) ++
        varInt ss.length) ++ ss) ++ (leBytes t.sequence 4 ++
          (leBytes v 8 ++ post)) from by simp]
    rw [show BCDataStream.read_uint32
        ⟨((((pre ++ t.prevout_hash.reverse) ++ leBytes t.prevout_n 4) ++
          varInt ss.length) ++ ss) ++ (leBytes t.sequence 4 ++
            (leBytes v 8 ++ post)),
         ((((pre ++ t.prevout_hash.reverse) ++ leBytes t.prevout_n 4) ++
          varInt ss.length) ++ ss).length⟩ =
        .ok (t.sequence,
          ⟨((((pre ++ t.prevout_hash.reverse) ++ leBytes t.prevout_n 4) ++
            varInt ss.length) ++ ss) ++ (leBytes t.sequence 4 ++
              (leBytes v 8 ++ post)),
           ((((pre ++ t.prevout_hash.reverse) ++ leBytes t.prevout_n 4) ++
            varInt ss.length) ++ ss).length + 4⟩) from by
      unfold BCDataStream.read_uint32
      rw [read_num_unsigned_spec _ (leBytes t.sequence 4) _ 4 _ rfl
        (leBytes_length _ _)]
      rw [leNum_leBytes _ _ (by norm_num; omega)]]
    rw [ok_bind]
    dsimp only
    have htc : ¬ t.type = .coinbase := by
      intro htc
      obtain ⟨-, -, -, -, -, h6⟩ := id h
      rw [htc] at h6
      obtain ⟨-, -, -, -, -, -, hval, -, -⟩ := h6
      rw [hval] at hvsome
      exact Option.noConfusion hvsome
    rw [if_neg (fun hz => htc (hcb.mpr hz))]
    have hps := parse_scriptSig_WF E t h htc ss hss
    unfold initIn at hps
    rw [hps, ok_bind]
    rw [show is_txin_complete { t with value := none } =
      is_txin_complete t from rfl, hcm]
    simp only [Bool.false_eq_true, if_false]
    rw [show ((((pre ++ t.prevout_hash.reverse) ++ leBytes t.prevout_n 4) ++
        varInt ss.length) ++ ss).length + 4 =
      (((((pre ++ t.prevout_hash.reverse) ++ leBytes t.prevout_n 4) ++
        varInt ss.length) ++ ss) ++ leBytes t.sequence 4).length
      from by simp [leBytes_length]; omega]
    rw [show ((((pre ++ t.prevout_hash.reverse) ++ leBytes t.prevout_n 4) ++
        varInt ss.length) ++ ss) ++ (leBytes t.sequence 4 ++
          (leBytes v 8 ++ post)) =
      (((((pre ++ t.prevout_hash.reverse) ++ leBytes t.prevout_n 4) ++
        varInt ss.length) ++ ss) ++ leBytes t.sequence 4) ++
          (leBytes v 8 ++ post) from by simp]
    rw [show BCDataStream.read_uint64
        ⟨(((((pre ++ t.prevout_hash.reverse) ++ leBytes t.prevout_n 4) ++
          varInt ss.length) ++ ss) ++ leBytes t.sequence 4) ++
            (leBytes v 8 ++ post),
         (((((pre ++ t.prevout_hash.reverse) ++ leBytes t.prevout_n 4) ++
          varInt ss.length) ++ ss) ++ leBytes t.sequence 4).length⟩ =
        .ok (v,
          ⟨(((((pre ++ t.prevout_hash.reverse) ++ leBytes t.prevout_n 4) ++
            varInt ss.length) ++ ss) ++ leBytes t.sequence 4) ++
              (leBytes v 8 ++ post),
           (((((pre ++ t.prevout_hash.reverse) ++ leBytes t.prevout_n 4) ++
            varInt ss.length) ++ ss) ++ leBytes t.sequence 4).length + 8⟩)
        from by
      unfold BCDataStream.read_uint64
      rw [read_num_unsigned_spec _ (leBytes v 8) _ 8 _ rfl
        (leBytes_length _ _)]
      rw [leNum_leBytes _ _ (by norm_num; omega)]]
    rw [ok_bind]
    dsimp only
    rw [txin_value_set_eta t v hvsome, pure_ok]

/-- Reading back a run of serialized well-formed inputs. -/
theorem read_inputs_WF (E : Ext) (ins : List TxIn)
    (h : ∀ t ∈ ins, WFin E t) (pre post : Bytes) :
    read_inputs E ins.length ⟨pre ++
        ((ins.map fun t =>
          serialize_input t (t.scriptSig.getD []) false).flatten ++ post),
      pre.length⟩ =
      .ok (ins, ⟨pre ++ ((ins.map fun t =>
          serialize_input t (t.scriptSig.getD []) false).flatten ++ post),
        pre.length + ((ins.map fun t =>
          serialize_input t (t.scriptSig.getD []) false).flatten).length⟩)
    := by
  induction ins generalizing pre with
  | nil => simp [read_inputs, pure_ok]
  | cons a as ih =>
    obtain ⟨ssa, hssa⟩ := WFin_scriptSig E a (h a (by simp))
    have hgd : a.scriptSig.getD [] = ssa := by rw [hssa]; rfl
    simp only [List.map_cons, List.flatten_cons, List.length_cons, hgd]
    rw [show read_inputs E (as.length + 1) = read_inputs E (as.length + 1)
      from rfl]
    unfold read_inputs
    rw [show pre ++ ((serialize_input a ssa false ++
        ((as.map fun t =>
          serialize_input t (t.scriptSig.getD []) false).flatten) ++ post))
      = pre ++ (serialize_input a ssa false ++
        (((as.map fun t =>
          serialize_input t (t.scriptSig.getD []) false).flatten) ++ post))
      from by simp]
    rw [parse_input_WF E a (h a (by simp)) ssa hssa pre _, ok_bind]
    dsimp only
    rw [show pre.length + (serialize_input a ssa false).length =
      (pre ++ serialize_input a ssa false).length from by simp]
    rw [show pre ++ (serialize_input a ssa false ++
        (((as.map fun t =>
          serialize_input t (t.scriptSig.getD []) false).flatten) ++ post))
      = (pre ++ serialize_input a ssa false) ++
        (((as.map fun t =>
          serialize_input t (t.scriptSig.getD []) false).flatten) ++ post)
      from by simp]
    rw [ih (fun t ht => h t (by simp [ht])), ok_bind]
    rw [show (pre ++ serialize_input a ssa false).length +
        ((as.map fun t =>
          serialize_input t (t.scriptSig.getD []) false).flatten).length =
      pre.length + (serialize_input a ssa false ++
        (as.map fun t =>
          serialize_input t (t.scriptSig.getD []) false).flatten).length
      from by simp; omega]
    rfl

/-- bitcoinx `read_varint` inverts `varInt`. -/
theorem bx_read_varint_varInt (pre post : Bytes) (n : Nat)
    (h : n < 2 ^ 64) :
    bx_read_varint ⟨pre ++ (varInt n ++ post), pre.length⟩ =
      .ok (n, ⟨pre ++ (varInt n ++ post),
        pre.length + (varInt n).length⟩) := by
  unfold bx_read_varint varInt
  split_ifs with h1 h2 h3
  · rw [show ([n] : Bytes) ++ post = [n] ++ post from rfl]
    rw [read_bytes_spec pre [n] post 1 _ rfl rfl]
    dsimp only
    rw [if_pos h1]
    rfl
  · rw [show ((0xfd :: leBytes n 2) : Bytes) ++ post =
      [0xfd] ++ (leBytes n 2 ++ post) from by simp]
    rw [read_bytes_spec pre [0xfd] _ 1 _ rfl rfl]
    dsimp only
    rw [if_neg (by omega), if_pos rfl]
    rw [show pre.length + 1 = (pre ++ [0xfd]).length from by simp]
    rw [show pre ++ ([0xfd] ++ (leBytes n 2 ++ post)) =
      (pre ++ [0xfd]) ++ (leBytes n 2 ++ post) from by simp]
    rw [read_bytes_spec _ (leBytes n 2) post 2 _ rfl (leBytes_length _ _)]
    dsimp only
    rw [if_pos (leBytes_length n 2), leNum_leBytes n 2 (by norm_num; omega)]
    simp [pure_ok, leBytes_length]
  · rw [show ((0xfe :: leBytes n 4) : Bytes) ++ post =
      [0xfe] ++ (leBytes n 4 ++ post) from by simp]
    rw [read_bytes_spec pre [0xfe] _ 1 _ rfl rfl]
    dsimp only
    rw [if_neg (show ¬ (0xfe : Nat) < 0xfd by omega),
      if_neg (show ¬ (0xfe : Nat) = 0xfd by omega),
      if_pos (show (0xfe : Nat) = 0xfe from rfl)]
    rw [show pre.length + 1 = (pre ++ [0xfe]).length from by simp]
    rw [show pre ++ ([0xfe] ++ (leBytes n 4 ++ post)) =
      (pre ++ [0xfe]) ++ (leBytes n 4 ++ post) from by simp]
    rw [read_bytes_spec _ (leBytes n 4) post 4 _ rfl (leBytes_length _ _)]
    dsimp only
    rw [if_pos (leBytes_length n 4), leNum_leBytes n 4 (by norm_num; omega)]
    simp [pure_ok, leBytes_length]
  · rw [show ((0xff :: leBytes n 8) : Bytes) ++ post =
      [0xff] ++ (leBytes n 8 ++ post) from by simp]
    rw [read_bytes_spec pre [0xff] _ 1 _ rfl rfl]
    dsimp only
    rw [if_neg (show ¬ (0xff : Nat) < 0xfd by omega),
      if_neg (show ¬ (0xff : Nat) = 0xfd by omega),
      if_neg (show ¬ (0xff : Nat) = 0xfe by omega)]
    rw [show pre.length + 1 = (pre ++ [0xff]).length from by simp]
    rw [show pre ++ ([0xff] ++ (leBytes n 8 ++ post)) =
      (pre ++ [0xff]) ++ (leBytes n 8 ++ post) from by simp]
    rw [read_bytes_spec _ (leBytes n 8) post 8 _ rfl (leBytes_length _ _)]
    dsimp only
    rw [if_pos (leBytes_length n 8), leNum_leBytes n 8 (by norm_num; omega)]
    simp [pure_ok, leBytes_length]

/-- bitcoinx `TxOutput.read` inverts `TxOutput.to_bytes` for wire-width
outputs. -/
theorem txOutput_read_wire (pre post : Bytes) (o : TxOut)
    (hv : o.value < 2 ^ 64) (hs : o.script_pubkey.length < 2 ^ 64) :
    txOutput_read ⟨pre ++ (txOut_bytes o ++ post), pre.length⟩ =
      .ok (o, ⟨pre ++ (txOut_bytes o ++ post),
        pre.length + (txOut_bytes o).length⟩) := by
  obtain ⟨v, sp⟩ := o
  dsimp only at hv hs
  have hlen : (txOut_bytes ⟨v, sp⟩).length =
      8 + (varInt sp.length).length + sp.length := by
    unfold txOut_bytes
    simp [leBytes_length]
    omega
  rw [hlen]
  have hbuf : pre ++ (txOut_bytes ⟨v, sp⟩ ++ post) =
      pre ++ (leBytes v 8 ++ (varInt sp.length ++ (sp ++ post))) := by
    unfold txOut_bytes
    simp
  rw [hbuf]
  unfold txOutput_read
  rw [read_bytes_spec pre (leBytes v 8) _ 8 _ rfl (leBytes_length _ _)]
  dsimp only
  rw [if_pos (leBytes_length v 8)]
  rw [show pre.length + 8 = (pre ++ leBytes v 8).length from by
    simp [leBytes_length]]
  rw [show pre ++ (leBytes v 8 ++ (varInt sp.length ++ (sp ++ post))) =
    (pre ++ leBytes v 8) ++ (varInt sp.length ++ (sp ++ post)) from by simp]
  rw [bx_read_varint_varInt _ _ _ hs, ok_bind]
  rw [show (pre ++ leBytes v 8).length + (varInt sp.length).length =
    ((pre ++ leBytes v 8) ++ varInt sp.length).length from by simp; omega]
  rw [show (pre ++ leBytes v 8) ++ (varInt sp.length ++ (sp ++ post)) =
    ((pre ++ leBytes v 8) ++ varInt sp.length) ++ (sp ++ post) from by simp]
  rw [read_bytes_spec _ sp _ sp.length _ rfl rfl]
  dsimp only
  rw [leNum_leBytes v 8 (by norm_num; omega)]
  rw [show ((pre ++ leBytes v 8) ++ varInt sp.length).length + sp.length =
    pre.length + (8 + (varInt sp.length).length + sp.length) from by
    simp [leBytes_length]; omega]
  rfl

/-- Reading back a run of serialized outputs. -/
theorem read_outputs_wire (outs : List TxOut)
    (h : ∀ o ∈ outs, o.value < 2 ^ 64 ∧ o.script_pubkey.length < 2 ^ 64)
    (pre post : Bytes) :
    read_outputs outs.length ⟨pre ++
        ((outs.map txOut_bytes).flatten ++ post), pre.length⟩ =
      .ok (outs, ⟨pre ++ ((outs.map txOut_bytes).flatten ++ post),
        pre.length + ((outs.map txOut_bytes).flatten).length⟩) := by
  induction outs generalizing pre with
  | nil => simp [read_outputs, pure_ok]
  | cons o os ih =>
    simp only [List.map_cons, List.flatten_cons, List.length_cons]
    unfold read_outputs
    rw [show pre ++ ((txOut_bytes o ++ (os.map txOut_bytes).flatten) ++ post)
      = pre ++ (txOut_bytes o ++ ((os.map txOut_bytes).flatten ++ post))
      from by simp]
    rw [txOutput_read_wire pre _ o (h o (by simp)).1 (h o (by simp)).2,
      ok_bind]
    dsimp only
    rw [show pre.length + (txOut_bytes o).length =
      (pre ++ txOut_bytes o).length from by simp]
    rw [show pre ++ (txOut_bytes o ++ ((os.map txOut_bytes).flatten ++ post))
      = (pre ++ txOut_bytes o) ++ ((os.map txOut_bytes).flatten ++ post)
      from by simp]
    rw [ih (fun x hx => h x (by simp [hx])), ok_bind]
    rw [show (pre ++ txOut_bytes o).length +
        ((os.map txOut_bytes).flatten).length =
      pre.length + (txOut_bytes o ++ (os.map txOut_bytes).flatten).length
      from by simp; omega]
    rfl

/-- `read_compact_size` at a stated buffer decomposition. -/
theorem read_compact_size_at (pre post buf : Bytes) (c n : Nat)
    (h : n < 2 ^ 64) (hbuf : buf = pre ++ (varInt n ++ post))
    (hc : c = pre.length) :
    BCDataStream.read_compact_size ⟨buf, c⟩ =
      .ok (n, ⟨buf, c + (varInt n).length⟩) := by
  subst hbuf
  subst hc
  exact read_compact_size_spec pre post n _ rfl h

/-- `read_inputs` at a stated buffer decomposition. -/
theorem read_inputs_at (E : Ext) (ins : List TxIn)
    (h : ∀ t ∈ ins, WFin E t) (pre post buf : Bytes) (c : Nat)
    (hbuf : buf = pre ++
      ((ins.map fun t =>
        serialize_input t (t.scriptSig.getD []) false).flatten ++ post))
    (hc : c = pre.length) :
    read_inputs E ins.length ⟨buf, c⟩ =
      .ok (ins, ⟨buf, c + ((ins.map fun t =>
        serialize_input t (t.scriptSig.getD []) false).flatten).length⟩) := by
  subst hbuf
  subst hc
  exact read_inputs_WF E ins h pre post

/-- bitcoinx `read_varint` at a stated buffer decomposition. -/
theorem bx_read_varint_at (pre post buf : Bytes) (c n : Nat)
    (h : n < 2 ^ 64) (hbuf : buf = pre ++ (varInt n ++ post))
    (hc : c = pre.length) :
    bx_read_varint ⟨buf, c⟩ = .ok (n, ⟨buf, c + (varInt n).length⟩) := by
  subst hbuf
  subst hc
  exact bx_read_varint_varInt pre post n h

/-- `read_outputs` at a stated buffer decomposition. -/
theorem read_outputs_at (outs : List TxOut)
    (h : ∀ o ∈ outs, o.value < 2 ^ 64 ∧ o.script_pubkey.length < 2 ^ 64)
    (pre post buf : Bytes) (c : Nat)
    (hbuf : buf = pre ++ ((outs.map txOut_bytes).flatten ++ post))
    (hc : c = pre.length) :
    read_outputs outs.length ⟨buf, c⟩ =
      .ok (outs, ⟨buf, c + ((outs.map txOut_bytes).flatten).length⟩) := by
  subst hbuf
  subst hc
  exact read_outputs_wire outs h pre post

/-- `read_uint32` at a stated buffer decomposition. -/
theorem read_uint32_at (pre post buf : Bytes) (c x : Nat) (hx : x < 2 ^ 32)
    (hbuf : buf = pre ++ (leBytes x 4 ++ post)) (hc : c = pre.length) :
    BCDataStream.read_uint32 ⟨buf, c⟩ = .ok (x, ⟨buf, c + 4⟩) := by
  subst hbuf
  subst hc
  unfold BCDataStream.read_uint32
  rw [read_num_unsigned_spec pre (leBytes x 4) post 4 _ rfl
    (leBytes_length _ _)]
  rw [leNum_leBytes x 4 (by norm_num; omega)]

/-- `read_int32` at a stated buffer decomposition, decoding two's
complement. -/
theorem read_int32_at (pre post buf : Bytes) (c : Nat) (x : Int)
    (h1 : -(2 ^ 31) ≤ x) (h2 : x < 2 ^ 31)
    (hbuf : buf = pre ++ (leBytes (x % 4294967296).toNat 4 ++ post))
    (hc : c = pre.length) :
    BCDataStream.read_int32 ⟨buf, c⟩ = .ok (x, ⟨buf, c + 4⟩) := by
  subst hbuf
  subst hc
  unfold BCDataStream.read_int32
  have hstep := read_num_unsigned_spec pre (leBytes (x % 4294967296).toNat 4)
    post 4 pre.length rfl (leBytes_length _ _)
  rw [hstep]
  dsimp only
  have hln := leNum_leBytes (x % 4294967296).toNat 4
    (by
      have h9 : (2 : Nat) ^ (8 * 4) = 4294967296 := by norm_num
      rw [h9]
      omega)
  rw [hln]
  have hval : (if (x % 4294967296).toNat < 2 ^ 31
      then ((x % 4294967296).toNat : Int)
      else ((x % 4294967296).toNat : Int) - 2 ^ 32) = x := by
    split_ifs with h3 <;> omega
  rw [hval]

/-- Round-trip core: deserializing the serialization of a well-formed
transaction recovers it field-for-field. -/
theorem deserialize_serialize_WF (E : Ext) (T : Transaction) (h : WF E T) :
    deserialize E (int_to_hex T.version 4 ++
        (varInt T.inputs.length ++
          (T.inputs.map fun t =>
            serialize_input t (t.scriptSig.getD []) false).flatten) ++
        (varInt T.outputs.length ++ (T.outputs.map txOut_bytes).flatten) ++
        int_to_hex (T.locktime : Int) 4) = .ok T := by
  obtain ⟨hv1, hv2, hlock, hne, hn64, ho64, houts, hins⟩ := h
  obtain ⟨ver, lock, ins, outs⟩ := T
  dsimp only at hv1 hv2 hlock hne hn64 ho64 houts hins ⊢
  set BUF := int_to_hex ver 4 ++
      (varInt ins.length ++
        (ins.map fun t =>
          serialize_input t (t.scriptSig.getD []) false).flatten) ++
      (varInt outs.length ++ (outs.map txOut_bytes).flatten) ++
      int_to_hex (lock : Int) 4 with hBUF
  unfold deserialize
  dsimp only
  have h1 := read_int32_at []
    (varInt ins.length ++
      ((ins.map fun t =>
        serialize_input t (t.scriptSig.getD []) false).flatten ++
      (varInt outs.length ++
        ((outs.map txOut_bytes).flatten ++ int_to_hex (lock : Int) 4))))
    BUF 0 ver hv1 hv2 (by rw [hBUF]; simp [int_to_hex]) rfl
  rw [h1, ok_bind]
  dsimp only
  have h2 := read_compact_size_at (int_to_hex ver 4)
    ((ins.map fun t =>
        serialize_input t (t.scriptSig.getD []) false).flatten ++
      (varInt outs.length ++
        ((outs.map txOut_bytes).flatten ++ int_to_hex (lock : Int) 4)))
    BUF (0 + 4) ins.length hn64 (by rw [hBUF]; simp [int_to_hex])
    (by simp [int_to_hex_length])
  rw [h2, ok_bind]
  dsimp only
  rw [if_neg (show ¬ ins.length = 0 from
    fun h0 => hne (List.length_eq_zero.mp h0))]
  rw [show (pure PUnit.unit : Except PyErr PUnit) = .ok PUnit.unit from rfl,
    ok_bind]
  have h4 := read_inputs_at E ins hins
    (int_to_hex ver 4 ++ varInt ins.length)
    (varInt outs.length ++
      ((outs.map txOut_bytes).flatten ++ int_to_hex (lock : Int) 4))
    BUF (0 + 4 + (varInt ins.length).length)
    (by rw [hBUF]; simp [int_to_hex])
    (by simp [int_to_hex_length])
  rw [h4, ok_bind]
  dsimp only
  have h5 := bx_read_varint_at
    (int_to_hex ver 4 ++ varInt ins.length ++
      (ins.map fun t =>
        serialize_input t (t.scriptSig.getD []) false).flatten)
    ((outs.map txOut_bytes).flatten ++ int_to_hex (lock : Int) 4)
    BUF
    (0 + 4 + (varInt ins.length).length +
      ((ins.map fun t =>
        serialize_input t (t.scriptSig.getD []) false).flatten).length)
    outs.length ho64 (by rw [hBUF]; simp [int_to_hex])
    (by simp [int_to_hex_length, Nat.add_assoc])
  rw [h5, ok_bind]
  dsimp only
  have h6 := read_outputs_at outs houts
    (int_to_hex ver 4 ++ varInt ins.length ++
      (ins.map fun t =>
        serialize_input t (t.scriptSig.getD []) false).flatten ++
      varInt outs.length)
    (int_to_hex (lock : Int) 4)
    BUF
    (0 + 4 + (varInt ins.length).length +
      ((ins.map fun t =>
        serialize_input t (t.scriptSig.getD []) false).flatten).length +
      (varInt outs.length).length)
    (by rw [hBUF]; simp [int_to_hex])
    (by simp [int_to_hex_length, Nat.add_assoc])
  rw [h6, ok_bind]
  dsimp only
  have h7 := read_uint32_at
    (int_to_hex ver 4 ++ varInt ins.length ++
      (ins.map fun t =>
        serialize_input t (t.scriptSig.getD []) false).flatten ++
      varInt outs.length ++ (outs.map txOut_bytes).flatten)
    [] BUF
    (0 + 4 + (varInt ins.length).length +
      ((ins.map fun t =>
        serialize_input t (t.scriptSig.getD []) false).flatten).length +
      (varInt outs.length).length +
      ((outs.map txOut_bytes).flatten).length)
    lock hlock
    (by rw [hBUF, int_to_hex_natCast]; simp [int_to_hex])
    (by simp [int_to_hex_length, Nat.add_assoc])
  rw [h7, ok_bind]
  dsimp only
  rfl

/-- C7: for every well-formed transaction byte string produced by this
codec — the serialization of a transaction in the codec's own parsed
state — deserializing it, re-serializing the resulting transaction, and
deserializing again yields a transaction equal field-for-field (version,
locktime, every input field, every output field) to the first
deserialization. -/
theorem deserialize_reserialize_roundtrip (E : Ext) (T T1 : Transaction)
    (bs : Bytes) (hWF : WF E T) (hbs : serialize E T false = .ok bs)
    (hT1 : deserialize E bs = .ok T1) :
    ∃ bs1, serialize E T1 false = .ok bs1 ∧ deserialize E bs1 = .ok T1 := by
  have hs := serialize_WF E T hWF
  rw [hbs] at hs
  injection hs with hb
  subst hb
  have hd := deserialize_serialize_WF E T hWF
  rw [hT1] at hd
  injection hd with hT
  subst hT
  exact ⟨_, hbs, hT1⟩

theorem deserialize_reserialize_roundtrip_witness :
    WF trivialExt cbTx ∧
    ∃ bs1, serialize trivialExt cbTx false = .ok bs1 ∧
      deserialize trivialExt bs1 = .ok cbTx := by
  have hWF : WF trivialExt cbTx := by
    refine ⟨by decide, by decide, by decide, by decide, by decide, by decide,
      by decide, ?_⟩
    intro t ht
    have ht2 : t = cbTxIn := by simpa [cbTx] using ht
    subst ht2
    refine ⟨by decide, by decide, by decide, by decide, ?_, ?_⟩
    · intro ss hss
      simp only [cbTxIn] at hss
      injection hss with h
      subst h
      decide
    · show WFcb cbTxIn
      exact ⟨by decide, by decide, by decide, by decide, by decide, by decide,
        by decide, by decide, by decide⟩
  exact ⟨hWF,
    deserialize_reserialize_roundtrip trivialExt cbTx cbTx
      ((serialize trivialExt cbTx false).toOption.getD []) hWF rfl rfl⟩

end ElectrumSV
